import Mathlib

/-!
Verification of the parson JSON library (src/parson.c) against its
natural-language specification.

The development shallowly embeds the C code:
* bytes are `Nat` (the value of the C `char`/`unsigned char`), C strings are
  `List Nat` without their terminating NUL, and reading `**string` on an
  exhausted buffer is modelled by `peek`, which returns 0 (the NUL byte);
* the document tree `JVal` mirrors `struct json_value_t`; the boolean payload
  is a C `int` (`Int`), the string payload is a byte buffer with its length
  (`List Nat`), and an object's payload is its dense entry list in insertion
  order (the hash-table backing of objects is embedded separately and
  faithfully in the `Table` section below, where its lookup is proved to
  agree with association-list lookup on the dense entries);
* the IEEE-754 `double` payload and the external C library routines that
  touch it (`sprintf "%1.17g"`, `strtod`) are external collaborators of the
  repository, so the development is parameterized by a number type `ν`
  together with formatting/scanning/comparison functions, constrained only
  by the hypotheses a given theorem needs;
* the pluggable allocator is modelled as infallible: allocation-failure
  branches of the C code are not taken.  `json_value_free` is a no-op for the
  pure tree; the heap section for the ownership claims tracks parent links
  explicitly.
-/

set_option maxHeartbeats 1000000

namespace Parson

/-! ### Bytes and C-string helpers -/

/-- Bytes of an ASCII Lean string, used to write concrete test inputs. -/
def bytesOfAscii (s : String) : List Nat := s.toList.map Char.toNat

/-- Reading `**string`: the next byte, or 0 (NUL) when the buffer is exhausted. -/
def peek (s : List Nat) : Nat := s.headD 0

/-- C `strlen`: number of bytes before the first NUL. -/
def strlenC (s : List Nat) : Nat := (s.takeWhile (· ≠ 0)).length

/-- C `isspace` on the default locale, as used by `SKIP_WHITESPACES`. -/
def isspaceC (c : Nat) : Bool := c = 32 || (9 ≤ c && c ≤ 13)

/-- `SKIP_WHITESPACES(str)`. -/
def skipWs (s : List Nat) : List Nat := s.dropWhile (fun c => isspaceC c)

/-! ### Value model (`struct json_value_t`)

`ν` is the abstract stand-in for the C `double` payload. -/

inductive JVal (ν : Type) where
  | jnull
  | jbool (b : Int)
  | jnum (n : ν)
  | jstr (s : List Nat)
  | jarr (xs : List (JVal ν))
  | jobj (es : List (List Nat × JVal ν))

/-- `JSON_Value_Type`. -/
inductive JType where
  | JSONError | JSONNull | JSONString | JSONNumber | JSONObject | JSONArray | JSONBoolean
deriving DecidableEq

/-- `json_value_get_type`: `value ? value->type : JSONError`. -/
def json_value_get_type {ν : Type} : Option (JVal ν) → JType
  | none => .JSONError
  | some .jnull => .JSONNull
  | some (.jbool _) => .JSONBoolean
  | some (.jnum _) => .JSONNumber
  | some (.jstr _) => .JSONString
  | some (.jarr _) => .JSONArray
  | some (.jobj _) => .JSONObject

/-- `json_value_init_boolean` (payload part): stores `boolean ? 1 : 0`. -/
def json_value_init_boolean {ν : Type} (b : Int) : JVal ν :=
  .jbool (if b = 0 then 0 else 1)

/-- `json_value_get_boolean`: payload when the type is boolean, else -1. -/
def json_value_get_boolean {ν : Type} : Option (JVal ν) → Int
  | some (.jbool b) => b
  | _ => -1

/-- `json_value_init_null`. -/
def json_value_init_null {ν : Type} : JVal ν := .jnull

/-- `json_object_get_value` on the dense entries: the hash-table lookup
returns the unique entry whose key equals `name` (see `table_lookup_agrees`
in the Table section); on the pure tree this is first-match association
lookup. -/
def objLookup {ν : Type} : List (List Nat × JVal ν) → List Nat → Option (JVal ν)
  | [], _ => none
  | (k, v) :: es, name => if k = name then some v else objLookup es name

/-! ### Structural measures -/

mutual
/-- Container-nesting depth of a value: scalars are 0, a container is one more
than the deepest child.  Matches the `nesting` argument threaded through
`parse_value`. -/
def jdepth {ν : Type} : JVal ν → Nat
  | .jnull | .jbool _ | .jnum _ | .jstr _ => 0
  | .jarr xs => 1 + jdepthL xs
  | .jobj es => 1 + jdepthE es

def jdepthL {ν : Type} : List (JVal ν) → Nat
  | [] => 0
  | x :: xs => max (jdepth x) (jdepthL xs)

def jdepthE {ν : Type} : List (List Nat × JVal ν) → Nat
  | [] => 0
  | (_, v) :: es => max (jdepth v) (jdepthE es)
end

mutual
/-- Deepest parser-nesting level reached inside a subtree whose root value
is dispatched at nesting level 0: a scalar or empty container needs only
its own level, a child adds one.  `parse_value` at nesting `n` succeeds on
a tree `T` exactly when `n + jlvl T` stays within `MAX_NESTING`. -/
def jlvl {ν : Type} : JVal ν → Nat
  | .jnull | .jbool _ | .jnum _ | .jstr _ => 0
  | .jarr xs => jlvlL xs
  | .jobj es => jlvlE es

def jlvlL {ν : Type} : List (JVal ν) → Nat
  | [] => 0
  | x :: xs => max (1 + jlvl x) (jlvlL xs)

def jlvlE {ν : Type} : List (List Nat × JVal ν) → Nat
  | [] => 0
  | (_, v) :: es => max (1 + jlvl v) (jlvlE es)
end

/-- Boolean pairwise-distinctness of a key list. -/
def nodupKeys : List (List Nat) → Bool
  | [] => true
  | k :: ks => !ks.contains k && nodupKeys ks

mutual
/-- Well-formedness of a tree built from the valid constructors: boolean
payloads are normalized to 0/1 (`json_value_init_boolean`), and object keys
are C strings (no NUL byte) that are pairwise distinct (`json_object_add`
rejects duplicates). -/
def wfV {ν : Type} : JVal ν → Bool
  | .jnull | .jnum _ | .jstr _ => true
  | .jbool b => b = 0 || b = 1
  | .jarr xs => wfL xs
  | .jobj es => nodupKeys (es.map Prod.fst) && wfE es

def wfL {ν : Type} : List (JVal ν) → Bool
  | [] => true
  | x :: xs => wfV x && wfL xs

def wfE {ν : Type} : List (List Nat × JVal ν) → Bool
  | [] => true
  | (k, v) :: es => k.all (· ≠ 0) && wfV v && wfE es
end

/-! ### Structural equality (`json_value_equals`)

The C function recurses through possibly-NULL `JSON_Value*` arguments (a NULL
argument reports type `JSONError`, and two `JSONError` values compare equal).
The recursion is driven by a fuel argument; the public wrapper supplies fuel
sufficient for the left argument, mirroring the C recursion which is bounded
by the tree height.  `numEq` stands for the C `fabs(a - b) < 0.000001`
comparison on doubles. -/

/-- The array loop of `json_value_equals`: the element counts were compared
already, then elements are compared pairwise by index. `f` is the recursive
comparison at the next level. -/
def jeqL {ν : Type} (f : Option (JVal ν) → Option (JVal ν) → Bool) :
    List (JVal ν) → List (JVal ν) → Bool
  | [], [] => true
  | x :: xs, y :: ys => f (some x) (some y) && jeqL f xs ys
  | _, _ => false

/-- The object loop of `json_value_equals`: for every key of `esFull` (the
left object, iterated by index) the values retrieved by key lookup from both
objects are compared. -/
def jeqE {ν : Type} (f : Option (JVal ν) → Option (JVal ν) → Bool)
    (esFull : List (List Nat × JVal ν)) :
    List (List Nat × JVal ν) → List (List Nat × JVal ν) → Bool
  | [], _ => true
  | (k, _) :: es, fs => f (objLookup esFull k) (objLookup fs k) && jeqE f esFull es fs

def jeqF {ν : Type} (numEq : ν → ν → Bool) :
    Nat → Option (JVal ν) → Option (JVal ν) → Bool
  | 0, _, _ => false
  | fuel + 1, a, b =>
    if json_value_get_type a ≠ json_value_get_type b then false
    else
      match a, b with
      | none, none => true
      | some (.jarr xs), some (.jarr ys) =>
        decide (xs.length = ys.length) && jeqL (jeqF numEq fuel) xs ys
      | some (.jobj es), some (.jobj fs) =>
        decide (es.length = fs.length) && jeqE (jeqF numEq fuel) es es fs
      | some (.jstr s), some (.jstr t) => decide (s = t)
      | some (.jbool b1), some (.jbool b2) => decide (b1 = b2)
      | some (.jnum n1), some (.jnum n2) => numEq n1 n2
      | some .jnull, some .jnull => true
      | _, _ => false

/-- Fuel sufficient to compare `a` with anything: one unit per tree level. -/
def jfuel {ν : Type} : Option (JVal ν) → Nat
  | none => 1
  | some v => jdepth v + 1

/-- `json_value_equals`. -/
def json_value_equals {ν : Type} (numEq : ν → ν → Bool)
    (a b : Option (JVal ν)) : Bool :=
  jeqF numEq (jfuel a) a b

/-! ### Serializer (`json_serialize_to_buffer_r`, `json_serialize_string`)

The C routine is a single recursion shared by the measuring pass
(`buf == NULL`) and the writing pass; `APPEND_STRING` always adds the token
length to `written_total` and copies the bytes only when `buf` is non-NULL.
`Emit` is the pair (written_total, bytes-written-so-far); `useBuf` is the
`buf != NULL` flag. -/

structure Emit where
  written : Nat
  out : List Nat
deriving DecidableEq

/-- `APPEND_STRING` / the per-byte default case: count always, copy only when
a target buffer is present. -/
def app (useBuf : Bool) (e : Emit) (tok : List Nat) : Emit :=
  { written := e.written + tok.length, out := if useBuf then e.out ++ tok else e.out }

/-- Concatenation of two emissions (the callee writes where the caller's
buffer pointer stopped). -/
def ecat (e1 e2 : Emit) : Emit := { written := e1.written + e2.written, out := e1.out ++ e2.out }

/-- Empty emission. -/
def e0 : Emit := { written := 0, out := [] }

/-- One lowercase hex digit, as in the `"\u00XX"` literals of
`json_serialize_string`. -/
def hexDigit (n : Nat) : Nat := if n < 10 then 48 + n else 87 + n

/-- The escape sequence `json_serialize_string` emits for one payload byte. -/
def escByte (escape_slashes : Bool) (c : Nat) : List Nat :=
  if c = 34 then [92, 34]
  else if c = 92 then [92, 92]
  else if c = 8 then [92, 98]
  else if c = 12 then [92, 102]
  else if c = 10 then [92, 110]
  else if c = 13 then [92, 114]
  else if c = 9 then [92, 116]
  else if c < 32 then [92, 117, 48, 48, hexDigit (c / 16), hexDigit (c % 16)]
  else if c = 47 then (if escape_slashes then [92, 47] else [47])
  else [c]

/-- The per-byte loop of `json_serialize_string`. -/
def serStrBytes (escape_slashes useBuf : Bool) : List Nat → Emit
  | [] => e0
  | c :: cs => ecat (app useBuf e0 (escByte escape_slashes c)) (serStrBytes escape_slashes useBuf cs)

/-- `json_serialize_string`: quote, escape each byte, quote. -/
def json_serialize_string (escape_slashes useBuf : Bool) (s : List Nat) : Emit :=
  ecat (app useBuf e0 [34]) (ecat (serStrBytes escape_slashes useBuf s) (app useBuf e0 [34]))

/-- `APPEND_INDENT(level)`: `level` copies of `PARSON_INDENT_STR` (4 spaces). -/
def indentTok : Nat → List Nat
  | 0 => []
  | n + 1 => [32, 32, 32, 32] ++ indentTok n

mutual
/-- `json_serialize_to_buffer_r` for a value.  `fmt` is the external number
formatter (`sprintf "%1.17g"` or the configured hook); the measuring pass
formats into `num_buf` and uses only the returned length, exactly as the C
does. -/
def serV {ν : Type} (fmt : ν → List Nat) (escape_slashes useBuf is_pretty : Bool) :
    JVal ν → Nat → Emit
  | .jarr xs, level =>
    let e1 := app useBuf e0 [91]
    let e2 := if xs.length > 0 && is_pretty then app useBuf e1 [10] else e1
    let e3 := ecat e2 (serArrItems fmt escape_slashes useBuf is_pretty xs level)
    let e4 := if xs.length > 0 && is_pretty then ecat e3 (app useBuf e0 (indentTok level)) else e3
    app useBuf e4 [93]
  | .jobj es, level =>
    let e1 := app useBuf e0 [123]
    let e2 := if es.length > 0 && is_pretty then app useBuf e1 [10] else e1
    let e3 := ecat e2 (serObjItems fmt escape_slashes useBuf is_pretty es level)
    let e4 := if es.length > 0 && is_pretty then ecat e3 (app useBuf e0 (indentTok level)) else e3
    app useBuf e4 [125]
  | .jstr s, _ => json_serialize_string escape_slashes useBuf s
  | .jbool b, _ =>
    if json_value_get_boolean (some (JVal.jbool b : JVal ν)) ≠ 0 then
      app useBuf e0 [116, 114, 117, 101]
    else app useBuf e0 [102, 97, 108, 115, 101]
  | .jnum n, _ => app useBuf e0 (fmt n)
  | .jnull, _ => app useBuf e0 [110, 117, 108, 108]

/-- The array-element loop of `json_serialize_to_buffer_r` (comma after every
element but the last, pretty newline/indent handling). -/
def serArrItems {ν : Type} (fmt : ν → List Nat) (escape_slashes useBuf is_pretty : Bool) :
    List (JVal ν) → Nat → Emit
  | [], _ => e0
  | x :: xs, level =>
    let e1 := if is_pretty then app useBuf e0 (indentTok (level + 1)) else e0
    let e2 := ecat e1 (serV fmt escape_slashes useBuf is_pretty x (level + 1))
    let e3 := if xs.length > 0 then app useBuf e2 [44] else e2
    let e4 := if is_pretty then app useBuf e3 [10] else e3
    ecat e4 (serArrItems fmt escape_slashes useBuf is_pretty xs level)

/-- The object-entry loop of `json_serialize_to_buffer_r`. -/
def serObjItems {ν : Type} (fmt : ν → List Nat) (escape_slashes useBuf is_pretty : Bool) :
    List (List Nat × JVal ν) → Nat → Emit
  | [], _ => e0
  | (k, v) :: es, level =>
    let e1 := if is_pretty then app useBuf e0 (indentTok (level + 1)) else e0
    let e2 := ecat e1 (json_serialize_string escape_slashes useBuf (k.takeWhile (· ≠ 0)))
    let e3 := app useBuf e2 [58]
    let e4 := if is_pretty then app useBuf e3 [32] else e3
    let e5 := ecat e4 (serV fmt escape_slashes useBuf is_pretty v (level + 1))
    let e6 := if es.length > 0 then app useBuf e5 [44] else e5
    let e7 := if is_pretty then app useBuf e6 [10] else e6
    ecat e7 (serObjItems fmt escape_slashes useBuf is_pretty es level)
end

/-- `json_serialization_size`: result of the measuring pass plus one for the
terminating NUL byte (`res + 1`). -/
def json_serialization_size {ν : Type} (fmt : ν → List Nat) (escape_slashes : Bool)
    (v : JVal ν) : Nat :=
  (serV fmt escape_slashes false false v 0).written + 1

/-- `json_serialize_to_string`: bytes of the compact form (without the NUL
terminator, as observed through `strlen`). -/
def json_serialize_to_string {ν : Type} (fmt : ν → List Nat) (escape_slashes : Bool)
    (v : JVal ν) : List Nat :=
  (serV fmt escape_slashes true false v 0).out

/-- `json_serialization_size_pretty`. -/
def json_serialization_size_pretty {ν : Type} (fmt : ν → List Nat) (escape_slashes : Bool)
    (v : JVal ν) : Nat :=
  (serV fmt escape_slashes false true v 0).written + 1

/-- `json_serialize_to_string_pretty`. -/
def json_serialize_to_string_pretty {ν : Type} (fmt : ν → List Nat) (escape_slashes : Bool)
    (v : JVal ν) : List Nat :=
  (serV fmt escape_slashes true true v 0).out

/-! ### Parser

Byte constants: `{` 123, `}` 125, `[` 91, `]` 93, `"` 34, `\` 92, `,` 44,
`:` 58, `/` 47, `-` 45, `u` 117.  The input buffer is a byte list; `peek` of
an exhausted buffer is the NUL byte, exactly as the C cursor reads the
string terminator.  The mutually recursive parse functions of the C are
driven by a fuel parameter decremented at every inter-function call;
`json_parse_string` supplies fuel ample for its input (each unit of fuel
spent either consumes an input byte or is one of the at most two extra hops
per consumed byte). -/

/-- `MAX_NESTING`. -/
def MAX_NESTING : Nat := 2048

/-- `hex_char_to_int`: value of a hex digit, or -1. -/
def hex_char_to_int (c : Nat) : Int :=
  if 48 ≤ c ∧ c ≤ 57 then (c : Int) - 48
  else if 97 ≤ c ∧ c ≤ 102 then (c : Int) - 97 + 10
  else if 65 ≤ c ∧ c ≤ 70 then (c : Int) - 65 + 10
  else -1

/-- `parse_utf16_hex`: reads 4 hex digits (failing on a NUL, i.e. on a byte
past the end of the buffer). -/
def parse_utf16_hex (s : List Nat) : Option Nat :=
  let c0 := s.getD 0 0
  let c1 := s.getD 1 0
  let c2 := s.getD 2 0
  let c3 := s.getD 3 0
  if c0 = 0 ∨ c1 = 0 ∨ c2 = 0 ∨ c3 = 0 then none
  else
    let x0 := hex_char_to_int c0
    let x1 := hex_char_to_int c1
    let x2 := hex_char_to_int c2
    let x3 := hex_char_to_int c3
    if x0 = -1 ∨ x1 = -1 ∨ x2 = -1 ∨ x3 = -1 then none
    else some ((x0.toNat <<< 12) ||| (x1.toNat <<< 8) ||| (x2.toNat <<< 4) ||| x3.toNat)

/-- `parse_utf16`.  `s` is positioned at the `u` of a `\uXXXX` escape; on
success returns the emitted UTF-8 bytes and the number of input bytes
consumed starting at the `u` (5 for one escape, 11 for a surrogate pair) —
in the C the cursor is left on the last hex digit and the enclosing loop's
increment accounts for the final byte. -/
def parse_utf16 (s : List Nat) : Option (List Nat × Nat) :=
  match parse_utf16_hex (s.drop 1) with
  | none => none
  | some cp =>
    if cp < 0x80 then some ([cp], 5)
    else if cp < 0x800 then
      some ([((cp >>> 6) &&& 0x1F) ||| 0xC0, (cp &&& 0x3F) ||| 0x80], 5)
    else if cp < 0xD800 ∨ cp > 0xDFFF then
      some ([((cp >>> 12) &&& 0x0F) ||| 0xE0, ((cp >>> 6) &&& 0x3F) ||| 0x80,
             (cp &&& 0x3F) ||| 0x80], 5)
    else if 0xD800 ≤ cp ∧ cp ≤ 0xDBFF then
      if s.getD 5 0 = 92 ∧ s.getD 6 0 = 117 then
        match parse_utf16_hex (s.drop 7) with
        | none => none
        | some trail =>
          if trail < 0xDC00 ∨ trail > 0xDFFF then none
          else
            let cp2 := ((((cp - 0xD800) &&& 0x3FF) <<< 10) ||| ((trail - 0xDC00) &&& 0x3FF))
              + 0x10000
            some ([((cp2 >>> 18) &&& 0x07) ||| 0xF0, ((cp2 >>> 12) &&& 0x3F) ||| 0x80,
                   ((cp2 >>> 6) &&& 0x3F) ||| 0x80, (cp2 &&& 0x3F) ||| 0x80], 11)
      else none
    else none

/-- The copy-and-unescape loop of `process_string`.  `remaining` is
`input_len` minus the bytes consumed so far (the loop stops when the cursor
reaches a NUL or passes `input_len`); the fuel is bounded below by
`remaining`, so the fuel-exhaustion branch is never taken by the wrapper. -/
def psLoop (inp : List Nat) (remaining : Nat) : Nat → Option (List Nat)
  | 0 => if peek inp = 0 ∨ remaining = 0 then some [] else none
  | fuel + 1 =>
    if peek inp = 0 ∨ remaining = 0 then some []
    else if peek inp = 92 then
      let e := inp.getD 1 0
      if e = 34 ∨ e = 92 ∨ e = 47 then
        (psLoop (inp.drop 2) (remaining - 2) fuel).map (e :: ·)
      else if e = 98 then (psLoop (inp.drop 2) (remaining - 2) fuel).map (8 :: ·)
      else if e = 102 then (psLoop (inp.drop 2) (remaining - 2) fuel).map (12 :: ·)
      else if e = 110 then (psLoop (inp.drop 2) (remaining - 2) fuel).map (10 :: ·)
      else if e = 114 then (psLoop (inp.drop 2) (remaining - 2) fuel).map (13 :: ·)
      else if e = 116 then (psLoop (inp.drop 2) (remaining - 2) fuel).map (9 :: ·)
      else if e = 117 then
        match parse_utf16 (inp.drop 1) with
        | none => none
        | some (bs, consumed) =>
          (psLoop (inp.drop (1 + consumed)) (remaining - (1 + consumed)) fuel).map (bs ++ ·)
      else none
    else if peek inp < 0x20 then none
    else (psLoop (inp.drop 1) (remaining - 1) fuel).map (peek inp :: ·)

/-- `process_string`: unescape `input_len` bytes starting at `inp`. -/
def process_string (inp : List Nat) (input_len : Nat) : Option (List Nat) :=
  psLoop inp input_len input_len

/-- The scan loop of `skip_quotes` (cursor already past the opening quote):
returns the input after the matching unescaped closing quote. -/
def sqLoop : List Nat → Option (List Nat)
  | [] => none
  | c :: rest =>
    if c = 34 then some rest
    else if c = 0 then none
    else if c = 92 then
      match rest with
      | [] => none
      | d :: rest2 => if d = 0 then none else sqLoop rest2
    else sqLoop rest

/-- `skip_quotes`. -/
def skip_quotes (s : List Nat) : Option (List Nat) :=
  if peek s ≠ 34 then none else sqLoop (s.drop 1)

/-- `get_quoted_string`: returns the processed string and the remaining
input after the closing quote. -/
def get_quoted_string (s : List Nat) : Option (List Nat × List Nat) :=
  match skip_quotes s with
  | none => none
  | some rest =>
    let input_len := s.length - rest.length - 2
    match process_string (s.drop 1) input_len with
    | none => none
    | some out => some (out, rest)

/-- `parse_string_value`. -/
def parse_string_value {ν : Type} (s : List Nat) : Option (JVal ν × List Nat) :=
  match get_quoted_string s with
  | none => none
  | some (out, rest) => some (.jstr out, rest)

/-- `parse_boolean_value`. -/
def parse_boolean_value {ν : Type} (s : List Nat) : Option (JVal ν × List Nat) :=
  if (bytesOfAscii "true").isPrefixOf s then some (json_value_init_boolean 1, s.drop 4)
  else if (bytesOfAscii "false").isPrefixOf s then some (json_value_init_boolean 0, s.drop 5)
  else none

/-- `parse_null_value`. -/
def parse_null_value {ν : Type} (s : List Nat) : Option (JVal ν × List Nat) :=
  if (bytesOfAscii "null").isPrefixOf s then some (.jnull, s.drop 4)
  else none

/-- `is_decimal`, applied to the span consumed by `strtod`. -/
def is_decimal (s : List Nat) : Bool :=
  if 1 < s.length ∧ s.getD 0 0 = 48 ∧ s.getD 1 0 ≠ 46 then false
  else if 2 < s.length ∧ s.getD 0 0 = 45 ∧ s.getD 1 0 = 48 ∧ s.getD 2 0 ≠ 46 then false
  else !(s.any fun c => c = 120 || c = 88)

/-- `parse_number_value`.  `scan` is the external C library part: `strtod`
together with the `errno`/`ERANGE`-overflow tests and the NaN/Infinity
rejection of `json_value_init_number`; it returns the parsed number and the
number of bytes consumed.  The repository's own `is_decimal` re-validation
of the consumed span is explicit. -/
def parse_number_value {ν : Type} (scan : List Nat → Option (ν × Nat)) (s : List Nat) :
    Option (JVal ν × List Nat) :=
  match scan s with
  | none => none
  | some (n, consumed) =>
    if is_decimal (s.take consumed) then some (.jnum n, s.drop consumed) else none

/-- The post-loop tail of `parse_object_value`: skip whitespace, require and
consume `}`. -/
def finish_object {ν : Type} (s : List Nat) (acc : List (List Nat × JVal ν)) :
    Option (JVal ν × List Nat) :=
  let s1 := skipWs s
  if peek s1 = 125 then some (.jobj acc, s1.drop 1) else none

/-- The post-loop tail of `parse_array_value`: require and consume `]`, then
`json_array_resize` to the element count, which fails when the count is 0
(`json_array_resize` rejects capacity 0; that path is unreachable because an
empty array returns early). -/
def finish_array {ν : Type} (s : List Nat) (acc : List (JVal ν)) :
    Option (JVal ν × List Nat) :=
  let s1 := skipWs s
  if peek s1 ≠ 93 then none
  else if acc.length = 0 then none
  else some (.jarr acc, s1.drop 1)

mutual
/-- `parse_value`: grammar dispatch on the next non-whitespace byte, guarded
by the nesting ceiling.  Every function of this mutual group decrements the
fuel once on entry so the recursion is structural; the entry point supplies
fuel ample for the input, so the fuel-exhaustion branches are never
reached. -/
def parse_value {ν : Type} (scan : List Nat → Option (ν × Nat)) :
    Nat → List Nat → Nat → Option (JVal ν × List Nat)
  | 0, _, _ => none
  | fuel + 1, s, nesting =>
    if nesting > MAX_NESTING then none
    else
      let s1 := skipWs s
      let c := peek s1
      if c = 123 then parse_object_value scan fuel s1 (nesting + 1)
      else if c = 91 then parse_array_value scan fuel s1 (nesting + 1)
      else if c = 34 then parse_string_value s1
      else if c = 102 ∨ c = 116 then parse_boolean_value s1
      else if c = 45 ∨ (48 ≤ c ∧ c ≤ 57) then parse_number_value scan s1
      else if c = 110 then parse_null_value s1
      else none
termination_by structural fuel _ _ => fuel

/-- `parse_object_value` up to its entry loop. -/
def parse_object_value {ν : Type} (scan : List Nat → Option (ν × Nat)) :
    Nat → List Nat → Nat → Option (JVal ν × List Nat)
  | 0, _, _ => none
  | fuel + 1, s, nesting =>
    if peek s ≠ 123 then none
    else
      let s1 := skipWs (s.drop 1)
      if peek s1 = 125 then some (.jobj [], s1.drop 1)
      else parse_object_loop scan fuel s1 nesting []
termination_by structural fuel _ _ => fuel

/-- The member loop of `parse_object_value`: quoted key (with the embedded
NUL rejection `key_len != strlen(new_key)`), `:`, recursive value,
`json_object_add` (duplicate keys fail), then `,` to continue or `}` to
stop; a trailing comma is tolerated only directly before `}`.  The final
whitespace-skip and `}` consumption after the loop are in
`finish_object`. -/
def parse_object_loop {ν : Type} (scan : List Nat → Option (ν × Nat)) :
    Nat → List Nat → Nat → List (List Nat × JVal ν) → Option (JVal ν × List Nat)
  | 0, _, _, _ => none
  | fuel + 1, s, nesting, acc =>
    if peek s = 0 then finish_object s acc
    else
      match get_quoted_string s with
      | none => none
      | some (key, s2) =>
        if strlenC key ≠ key.length then none
        else
          let s3 := skipWs s2
          if peek s3 ≠ 58 then none
          else
            match parse_value scan fuel (s3.drop 1) nesting with
            | none => none
            | some (v, s4) =>
              if (acc.map Prod.fst).contains key then none
              else
                let acc2 := acc ++ [(key, v)]
                let s5 := skipWs s4
                if peek s5 ≠ 44 then finish_object s5 acc2
                else
                  let s6 := skipWs (s5.drop 1)
                  if peek s6 = 125 then finish_object s6 acc2
                  else parse_object_loop scan fuel s6 nesting acc2
termination_by structural fuel _ _ _ => fuel

/-- `parse_array_value` up to its element loop. -/
def parse_array_value {ν : Type} (scan : List Nat → Option (ν × Nat)) :
    Nat → List Nat → Nat → Option (JVal ν × List Nat)
  | 0, _, _ => none
  | fuel + 1, s, nesting =>
    if peek s ≠ 91 then none
    else
      let s1 := skipWs (s.drop 1)
      if peek s1 = 93 then some (.jarr [], s1.drop 1)
      else parse_array_loop scan fuel s1 nesting []
termination_by structural fuel _ _ => fuel

/-- The element loop of `parse_array_value`; `finish_array` holds the
post-loop `]` check and the shrink-to-fit resize. -/
def parse_array_loop {ν : Type} (scan : List Nat → Option (ν × Nat)) :
    Nat → List Nat → Nat → List (JVal ν) → Option (JVal ν × List Nat)
  | 0, _, _, _ => none
  | fuel + 1, s, nesting, acc =>
    if peek s = 0 then finish_array s acc
    else
      match parse_value scan fuel s nesting with
      | none => none
      | some (v, s2) =>
        let acc2 := acc ++ [v]
        let s3 := skipWs s2
        if peek s3 ≠ 44 then finish_array s3 acc2
        else
          let s4 := skipWs (s3.drop 1)
          if peek s4 = 93 then finish_array s4 acc2
          else parse_array_loop scan fuel s4 nesting acc2
termination_by structural fuel _ _ _ => fuel
end

/-- Fuel supplied by the entry point: ample for the input length (at most
three fuel units are spent per consumed input byte). -/
def parseFuel (s : List Nat) : Nat := 3 * s.length + 4

/-- `json_parse_string`: optional UTF-8 BOM skip, then `parse_value` at
nesting 0.  Whatever input remains after the top-level value is ignored. -/
def json_parse_string {ν : Type} (scan : List Nat → Option (ν × Nat)) (s : List Nat) :
    Option (JVal ν) :=
  let s1 := if s.getD 0 0 = 0xEF ∧ s.getD 1 0 = 0xBB ∧ s.getD 2 0 = 0xBF then s.drop 3 else s
  match parse_value scan (parseFuel s1) s1 0 with
  | none => none
  | some (v, _) => some v

/-- A degenerate number port on `ν := Unit`, used to state concrete
parser facts that involve no numbers: it accepts a single `0` byte. -/
def unitScan : List Nat → Option (Unit × Nat) :=
  fun s => if peek s = 48 then some ((), 1) else none

/-- `k` nested `[` characters with their matching closers. -/
def nestedBrackets (k : Nat) : List Nat := List.replicate k 91 ++ List.replicate k 93

/-- The value tree of `k` nested arrays (innermost empty); meaningful for
`k ≥ 1`. -/
def nestedArray {ν : Type} : Nat → JVal ν
  | 0 => .jarr []
  | 1 => .jarr []
  | k + 2 => .jarr [nestedArray (k + 1)]

/-! ### Key-indexed table (`struct json_object_t`)

A faithful embedding of the open-addressing hash table that backs JSON
objects.  The struct's parallel arrays are byte-for-byte mirrored; `count`
is the length of the dense lists and `cell_capacity` the length of `cells`;
`OBJECT_INVALID_IX` in a slot is `none`.  The value type is a parameter `ν`
(the table never inspects values).  Keys are C strings, i.e. NUL-free byte
lists — `strlen`/`strncmp` comparisons coincide with list equality on
them. -/

/-- `STARTING_CAPACITY`. -/
def STARTING_CAPACITY : Nat := 16

/-- The accumulating loop of `hash_string` (djb2 on a 64-bit
`unsigned long`): `hash * 33 + c` mod `2^64`, stopping at a NUL byte. -/
def hashLoop (h : Nat) : List Nat → Nat
  | [] => h
  | c :: cs => if c = 0 then h else hashLoop ((h * 33 + c) % 2 ^ 64) cs

/-- `hash_string`. -/
def hash_string (s : List Nat) : Nat := hashLoop 5381 s

structure JObjT (ν : Type) where
  cells : List (Option Nat)
  hashes : List Nat
  names : List (List Nat)
  values : List ν
  cell_ixs : List Nat
  item_capacity : Nat
deriving DecidableEq

/-- `json_object_init`: all cells empty, `item_capacity = capacity * 7/10`. -/
def json_object_init {ν : Type} (capacity : Nat) : JObjT ν :=
  { cells := List.replicate capacity none
    hashes := []
    names := []
    values := []
    cell_ixs := []
    item_capacity := capacity * 7 / 10 }

/-- Result of `json_object_get_cell_ix`: the C function returns a cell index
plus an `out_found` flag, or `OBJECT_INVALID_IX` when the scan exhausts every
cell (`invalid`, possible only in a full table). -/
inductive CellRes where
  | foundAt (ix : Nat)
  | emptyAt (ix : Nat)
  | invalid
deriving DecidableEq

/-- The probe loop of `json_object_get_cell_ix`: scan cells
`(home + i) & (capacity - 1)` for `i = 0, 1, ...`; an empty slot ends the
scan (insertion point), a slot whose entry has equal cached hash and equal
key bytes is a hit; `remaining` counts the loop bound `capacity - i`. -/
def cellLoop {ν : Type} (t : JObjT ν) (key : List Nat) (hash : Nat) (home : Nat) :
    Nat → Nat → CellRes
  | _, 0 => .invalid
  | i, remaining + 1 =>
    let ix := (home + i) &&& (t.cells.length - 1)
    match t.cells.getD ix none with
    | none => .emptyAt ix
    | some cell =>
      if t.hashes.getD cell 0 = hash ∧ t.names.getD cell [] = key then .foundAt ix
      else cellLoop t key hash home (i + 1) remaining

/-- `json_object_get_cell_ix`. -/
def json_object_get_cell_ix {ν : Type} (t : JObjT ν) (key : List Nat) (hash : Nat) :
    CellRes :=
  cellLoop t key hash (hash &&& (t.cells.length - 1)) 0 t.cells.length

/-- The cell index the C code would use regardless of the found flag (the
code after a grow re-runs the lookup and uses the returned index without
re-reading `found`).  An `invalid` result would make the C write out of
bounds; the model reports failure instead — the invariant proofs show the
case is unreachable. -/
def resIx : CellRes → Option Nat
  | .foundAt ix => some ix
  | .emptyAt ix => some ix
  | .invalid => none

/-- The five writes that claim a slot and append a dense entry, shared by
`json_object_add` and the not-found path of `json_object_set_value`. -/
def tableClaim {ν : Type} (t : JObjT ν) (cell_ix : Nat) (name : List Nat) (v : ν)
    (hash : Nat) : JObjT ν :=
  { cells := t.cells.set cell_ix (some t.names.length)
    hashes := t.hashes ++ [hash]
    names := t.names ++ [name]
    values := t.values ++ [v]
    cell_ixs := t.cell_ixs ++ [cell_ix]
    item_capacity := t.item_capacity }

/-- The re-insertion loop of `json_object_grow_and_rehash`, parameterized by
the add function of the next fuel level. -/
def rehashFold {ν : Type} (addF : JObjT ν → List Nat → ν → Option (JObjT ν)) :
    JObjT ν → List (List Nat × ν) → Option (JObjT ν)
  | t, [] => some t
  | t, (k, v) :: rest =>
    match addF t k v with
    | none => none
    | some t2 => rehashFold addF t2 rest

/-- `json_object_add`, with fuel bounding the (provably never nested)
grow-and-rehash recursion. -/
def json_object_add {ν : Type} : Nat → JObjT ν → List Nat → ν → Option (JObjT ν)
  | 0, _, _, _ => none
  | fuel + 1, t, name, v =>
    let hash := hash_string name
    match json_object_get_cell_ix t name hash with
    | .foundAt _ => none
    | r =>
      if t.names.length ≥ t.item_capacity then
        let new_capacity := max (t.cells.length * 2) STARTING_CAPACITY
        match rehashFold (json_object_add fuel) (json_object_init new_capacity)
            (t.names.zip t.values) with
        | none => none
        | some t2 =>
          match resIx (json_object_get_cell_ix t2 name hash) with
          | none => none
          | some cell_ix => some (tableClaim t2 cell_ix name v hash)
      else
        match resIx r with
        | none => none
        | some cell_ix => some (tableClaim t cell_ix name v hash)

/-- `json_object_grow_and_rehash`: allocate a fresh table of capacity
`max(2C, 16)` and re-add every dense entry in order. -/
def json_object_grow_and_rehash {ν : Type} (fuel : Nat) (t : JObjT ν) : Option (JObjT ν) :=
  rehashFold (json_object_add fuel) (json_object_init (max (t.cells.length * 2)
    STARTING_CAPACITY)) (t.names.zip t.values)

/-- `json_object_set_value` (table part: the parent/NULL guards live in the
heap layer): overwrite in place when the key exists, else grow if needed and
claim a fresh slot. -/
def json_object_set_value {ν : Type} (fuel : Nat) (t : JObjT ν) (name : List Nat)
    (v : ν) : Option (JObjT ν) :=
  let hash := hash_string name
  match json_object_get_cell_ix t name hash with
  | .foundAt cell_ix =>
    match t.cells.getD cell_ix none with
    | none => none
    | some item_ix => some { t with values := t.values.set item_ix v }
  | r =>
    if t.names.length ≥ t.item_capacity then
      match json_object_grow_and_rehash fuel t with
      | none => none
      | some t2 =>
        match resIx (json_object_get_cell_ix t2 name hash) with
        | none => none
        | some cell_ix => some (tableClaim t2 cell_ix name v hash)
    else
      match resIx r with
      | none => none
      | some cell_ix => some (tableClaim t cell_ix name v hash)

/-- `json_object_getn_value`: NULL when not found, else the dense value the
found cell points to. -/
def json_object_getn_value {ν : Type} (t : JObjT ν) (name : List Nat) : Option ν :=
  match json_object_get_cell_ix t name (hash_string name) with
  | .foundAt cell_ix =>
    match t.cells.getD cell_ix none with
    | none => none
    | some item_ix => t.values.get? item_ix
  | _ => none

/-- `json_object_get_name`. -/
def json_object_get_name {ν : Type} (t : JObjT ν) (index : Nat) : Option (List Nat) :=
  t.names.get? index

/-- The backward-shift repair loop of `json_object_remove_internal`
(src/parson.c:665-679).  State: the slot table, the reverse indices, the
hole `i`, the cursor `j`; the counter `x` runs through `capacity - 1`
iterations unless an empty slot ends the scan.  Returns the final slot
table, reverse indices and hole. -/
def shiftLoop (hashes : List Nat) (cap : Nat) :
    List (Option Nat) → List Nat → Nat → Nat → Nat → (List (Option Nat) × List Nat × Nat)
  | cells, cxs, i, _, 0 => (cells, cxs, i)
  | cells, cxs, i, j, x + 1 =>
    let j2 := (j + 1) &&& (cap - 1)
    match cells.getD j2 none with
    | none => (cells, cxs, i)
    | some d =>
      let k := hashes.getD d 0 &&& (cap - 1)
      if (j2 > i ∧ (k ≤ i ∨ k > j2)) ∨ (j2 < i ∧ k ≤ i ∧ k > j2) then
        shiftLoop hashes cap (cells.set i (some d)) (cxs.set d i) j2 j2 x
      else
        shiftLoop hashes cap cells cxs i j2 x

/-- The dense-compaction step of `json_object_remove_internal`: move the
last dense entry into the freed index (when distinct), redirect its slot,
and decrement the count.  The C leaves stale data past the new count in the
dense arrays; the model drops the last element instead. -/
def removeCompact {ν : Type} [Inhabited ν] (t : JObjT ν) (item_ix : Nat) : JObjT ν :=
  let last_item_ix := t.names.length - 1
  if item_ix < last_item_ix then
    let cxs2 := t.cell_ixs.set item_ix (t.cell_ixs.getD last_item_ix 0)
    { cells := t.cells.set (cxs2.getD item_ix 0) (some item_ix)
      hashes := (t.hashes.set item_ix (t.hashes.getD last_item_ix 0)).dropLast
      names := (t.names.set item_ix (t.names.getD last_item_ix [])).dropLast
      values := (t.values.set item_ix (t.values.getD last_item_ix default)).dropLast
      cell_ixs := cxs2.dropLast
      item_capacity := t.item_capacity }
  else
    { cells := t.cells
      hashes := t.hashes.dropLast
      names := t.names.dropLast
      values := t.values.dropLast
      cell_ixs := t.cell_ixs.dropLast
      item_capacity := t.item_capacity }

/-- `json_object_remove_internal`: locate, free, compact the dense arrays,
then run the backward-shift repair and empty the final hole. -/
def json_object_remove_internal {ν : Type} [Inhabited ν] (t : JObjT ν) (name : List Nat) :
    Option (JObjT ν) :=
  match json_object_get_cell_ix t name (hash_string name) with
  | .foundAt cell =>
    match t.cells.getD cell none with
    | none => none
    | some item_ix =>
      let t1 := removeCompact t item_ix
      let r := shiftLoop t1.hashes t1.cells.length t1.cells t1.cell_ixs cell cell
        (t1.cells.length - 1)
      some { t1 with cells := r.1.set r.2.2 none, cell_ixs := r.2.1 }
  | _ => none

/-- A mutation of the object-backing table: the public
`json_object_set_value` or `json_object_remove`. -/
inductive TOp (ν : Type) where
  | ins (k : List Nat) (v : ν)
  | del (k : List Nat)

/-- The key an operation touches. -/
def TOp.key {ν : Type} : TOp ν → List Nat
  | .ins k _ => k
  | .del k => k

/-- Whether a mutation is an insertion. -/
def TOp.isIns {ν : Type} : TOp ν → Bool
  | .ins _ _ => true
  | .del _ => false

/-- First-insertion order of the keys touched by a mutation sequence:
`json_object_set_value` keeps an existing key in place and appends a fresh
one. -/
def insOrderKeys {ν : Type} : List (List Nat) → List (TOp ν) → List (List Nat)
  | acc, [] => acc
  | acc, .ins k _ :: rest => insOrderKeys (if k ∈ acc then acc else acc ++ [k]) rest
  | acc, .del _ :: rest => insOrderKeys acc rest

/-- Apply one mutation; a failed operation leaves the object unchanged
(`JSONFailure` without side effects). -/
def applyOp {ν : Type} [Inhabited ν] (t : JObjT ν) : TOp ν → JObjT ν
  | .ins k v => (json_object_set_value 2 t k v).getD t
  | .del k => (json_object_remove_internal t k).getD t

/-- The table reached from a fresh object (`json_object_init 0`) by a
sequence of mutations. -/
def runOps {ν : Type} [Inhabited ν] (ops : List (TOp ν)) : JObjT ν :=
  ops.foldl applyOp (json_object_init 0)

/-- The functional key-value model of a mutation sequence. -/
def modelOf {ν : Type} (ops : List (TOp ν)) : List Nat → Option ν :=
  ops.foldl
    (fun m op =>
      match op with
      | .ins k v => fun k2 => if k2 = k then some v else m k2
      | .del k => fun k2 => if k2 = k then none else m k2)
    (fun _ => none)

/-- First-match association lookup on the dense entries. -/
def assocFind {α : Type} : List (List Nat × α) → List Nat → Option α
  | [], _ => none
  | (k, v) :: es, key => if k = key then some v else assocFind es key

/-- A key is a C string: it contains no NUL byte. -/
def ValidKey (k : List Nat) : Prop := 0 ∉ k

/-- Circular distance from `a` forward to `b` in a table of `cap` slots. -/
def cdist (cap a b : Nat) : Nat := if a ≤ b then b - a else b + cap - a

/-- `x` lies in the circular half-open interval `(a, b]`. -/
def inCircIoc (cap a b x : Nat) : Prop :=
  0 < cdist cap a x ∧ cdist cap a x ≤ cdist cap a b

/-- `x` lies in the circular closed interval `[h, c]`. -/
def inCircIcc (cap h c x : Nat) : Prop := cdist cap h x ≤ cdist cap h c

/-- The home slot of dense entry `d`. -/
def homeOf {ν : Type} (t : JObjT ν) (d : Nat) : Nat :=
  t.hashes.getD d 0 % t.cells.length

/-- The reachability invariant the claim describes: every dense entry's
cells, from its home slot through its current slot (circularly), form a
contiguous run of occupied slots. -/
def TReach {ν : Type} (t : JObjT ν) : Prop :=
  ∀ d, d < t.names.length → ∀ x, x < t.cells.length →
    inCircIcc t.cells.length (homeOf t d) (t.cell_ixs.getD d 0) x →
    t.cells.getD x none ≠ none

/-- The full representation invariant of the table: capacity shape, array
lengths, cached hashes, the mutual slot/dense index maps, the probe-chain
reachability (`TReach`), and key discipline. -/
structure TInv {ν : Type} (t : JObjT ν) : Prop where
  cap_pow : t.cells.length = 0 ∨ ∃ m, 4 ≤ m ∧ t.cells.length = 2 ^ m
  icap : t.item_capacity = t.cells.length * 7 / 10
  len_h : t.hashes.length = t.names.length
  len_v : t.values.length = t.names.length
  len_cx : t.cell_ixs.length = t.names.length
  count_le : t.names.length ≤ t.item_capacity
  hash_ok : ∀ d, d < t.names.length → t.hashes.getD d 0 = hash_string (t.names.getD d [])
  cx_lt : ∀ d, d < t.names.length → t.cell_ixs.getD d 0 < t.cells.length
  cells_cx : ∀ d, d < t.names.length → t.cells.getD (t.cell_ixs.getD d 0) none = some d
  cx_cells : ∀ c, c < t.cells.length → ∀ d, t.cells.getD c none = some d →
    d < t.names.length ∧ t.cell_ixs.getD d 0 = c
  reach : TReach t
  names_nodup : t.names.Nodup
  names_valid : ∀ k, k ∈ t.names → 0 ∉ k

/-- The dense entries of the table in insertion order. -/
def ENTRIES {ν : Type} (t : JObjT ν) : List (List Nat × ν) := t.names.zip t.values

/-- Loop invariant of `shiftLoop`: `cell` is the slot freed by the removal,
`cnt` the entry count after compaction, `i` the travelling hole (still
holding a stale pointer), `j` the scan cursor and `x` the remaining
iteration budget. -/
structure ShiftInv (hashes : List Nat) (cap cell cnt : Nat)
    (cells : List (Option Nat)) (cxs : List Nat) (i j x : Nat) : Prop where
  len_cells : cells.length = cap
  len_cxs : cxs.length = cnt
  hcell : cell < cap
  hi : i < cap
  hj : j < cap
  hpos : cdist cap cell j = cap - 1 - x
  hx : x ≤ cap - 1
  hij : cdist cap cell i ≤ cdist cap cell j
  hole : ∀ e, e < cnt → cxs.getD e 0 ≠ i
  cx_lt : ∀ e, e < cnt → cxs.getD e 0 < cap
  cells_cx : ∀ e, e < cnt → cells.getD (cxs.getD e 0) none = some e
  cx_cells : ∀ c, c < cap → c ≠ i → ∀ e, cells.getD c none = some e →
    e < cnt ∧ cxs.getD e 0 = c
  stale : cells.getD i none ≠ none
  reach : ∀ e, e < cnt → ∀ y, y < cap →
    inCircIcc cap (hashes.getD e 0 % cap) (cxs.getD e 0) y → cells.getD y none ≠ none
  scanned : ∀ e, e < cnt → inCircIoc cap i j (cxs.getD e 0) →
    inCircIoc cap i (cxs.getD e 0) (hashes.getD e 0 % cap)
  ahead : ∀ e, e < cnt → inCircIcc cap (hashes.getD e 0 % cap) (cxs.getD e 0) i →
    cdist cap i j < cdist cap i (cxs.getD e 0)
  occ_run : ∀ s, s < cap → cdist cap cell s ≤ cdist cap cell j → cells.getD s none ≠ none

/-- What holds of the state returned by `shiftLoop`: clearing the final hole
`i` leaves a consistent slot table in which no probe run crosses `i`. -/
structure ShiftOut (hashes : List Nat) (cap cnt : Nat)
    (cells : List (Option Nat)) (cxs : List Nat) (i : Nat) : Prop where
  len_cells : cells.length = cap
  len_cxs : cxs.length = cnt
  hi : i < cap
  hole : ∀ e, e < cnt → cxs.getD e 0 ≠ i
  cx_lt : ∀ e, e < cnt → cxs.getD e 0 < cap
  cells_cx : ∀ e, e < cnt → cells.getD (cxs.getD e 0) none = some e
  cx_cells : ∀ c, c < cap → c ≠ i → ∀ e, cells.getD c none = some e →
    e < cnt ∧ cxs.getD e 0 = c
  reach : ∀ e, e < cnt → ∀ y, y < cap →
    inCircIcc cap (hashes.getD e 0 % cap) (cxs.getD e 0) y →
    y ≠ i ∧ cells.getD y none ≠ none

/-- Heap of values for the ownership guard: each value id carries the C
parent pointer (`none` for NULL, else the owning container's id); each
array id maps to its item list of value ids; each object id maps to its
backing table holding value ids.  Ids at or past the list length stand for
NULL pointers. -/
structure Heap where
  parents : List (Option Nat)
  arrs : List (List Nat)
  objs : List (JObjT Nat)
deriving DecidableEq

/-- `json_array_add`: set the value's parent to the array's wrapping value
and append the item (growth is implicit in the list model; the grown
capacity `max(2C, 16)` is never zero, so resize cannot fail). -/
def json_array_add_h (st : Heap) (aid vid : Nat) : Bool × Heap :=
  (true,
    { st with
      parents := st.parents.set vid (some aid)
      arrs := st.arrs.set aid (st.arrs.getD aid [] ++ [vid]) })

/-- `json_array_append_value`: NULL and parent guards, then
`json_array_add`. -/
def json_array_append_value_h (st : Heap) (aid vid : Nat) : Bool × Heap :=
  if aid ≥ st.arrs.length ∨ vid ≥ st.parents.length
      ∨ st.parents.getD vid none ≠ none then
    (false, st)
  else json_array_add_h st aid vid

/-- `json_array_replace_value`: NULL, parent and bounds guards, then the
in-place replacement. -/
def json_array_replace_value_h (st : Heap) (aid ix vid : Nat) : Bool × Heap :=
  if aid ≥ st.arrs.length ∨ vid ≥ st.parents.length
      ∨ st.parents.getD vid none ≠ none ∨ ix ≥ (st.arrs.getD aid []).length then
    (false, st)
  else
    (true,
      { st with
        parents := st.parents.set vid (some aid)
        arrs := st.arrs.set aid ((st.arrs.getD aid []).set ix vid) })

/-- `json_object_set_value` at the heap level: NULL and parent guards, then
the table layer; on success the stored value id's parent becomes the
object. -/
def json_object_set_value_h (st : Heap) (oid : Nat) (name : List Nat) (vid : Nat) :
    Bool × Heap :=
  if oid ≥ st.objs.length ∨ vid ≥ st.parents.length
      ∨ st.parents.getD vid none ≠ none then
    (false, st)
  else
    match json_object_set_value 2 (st.objs.getD oid (json_object_init 0)) name vid with
    | none => (false, st)
    | some t2 =>
      (true,
        { st with
          parents := st.parents.set vid (some oid)
          objs := st.objs.set oid t2 })


/-- In write mode the bytes appended match the count, per emission. -/
def EOk (e : Emit) : Prop := e.out.length = e.written

/-- The byte count of the measuring pass and of the writing pass agree. -/
def WEq (e1 e2 : Emit) : Prop := e1.written = e2.written

/-! ### The two serializer passes agree -/

theorem app_written (b : Bool) (e : Emit) (t : List Nat) :
    (app b e t).written = e.written + t.length := rfl

theorem app_out_true (e : Emit) (t : List Nat) : (app true e t).out = e.out ++ t := rfl

theorem ecat_written (e1 e2 : Emit) : (ecat e1 e2).written = e1.written + e2.written := rfl

theorem ecat_out (e1 e2 : Emit) : (ecat e1 e2).out = e1.out ++ e2.out := rfl

theorem eok_e0 : EOk e0 := rfl

theorem eok_app (e : Emit) (t : List Nat) (h : EOk e) : EOk (app true e t) := by
  unfold EOk at h ⊢
  simp only [app_out_true, app_written, List.length_append]
  omega

theorem eok_ecat (e1 e2 : Emit) (h1 : EOk e1) (h2 : EOk e2) : EOk (ecat e1 e2) := by
  unfold EOk at h1 h2 ⊢
  simp only [ecat_out, ecat_written, List.length_append]
  omega

theorem eok_serStrBytes (esc : Bool) (s : List Nat) : EOk (serStrBytes esc true s) := by
  induction s with
  | nil => exact eok_e0
  | cons c cs ih => exact eok_ecat _ _ (eok_app _ _ eok_e0) ih

theorem eok_serialize_string (esc : Bool) (s : List Nat) :
    EOk (json_serialize_string esc true s) :=
  eok_ecat _ _ (eok_app _ _ eok_e0) (eok_ecat _ _ (eok_serStrBytes esc s) (eok_app _ _ eok_e0))

theorem eok_ite (c : Prop) [Decidable c] (e1 e2 : Emit) (h1 : EOk e1) (h2 : EOk e2) :
    EOk (if c then e1 else e2) := by
  split
  · exact h1
  · exact h2

mutual
theorem eok_serV {ν : Type} (fmt : ν → List Nat) (esc p : Bool) (v : JVal ν) (l : Nat) :
    EOk (serV fmt esc true p v l) := by
  cases v with
  | jnull => exact eok_app _ _ eok_e0
  | jbool b =>
    simp only [serV]
    exact eok_ite _ _ _ (eok_app _ _ eok_e0) (eok_app _ _ eok_e0)
  | jnum n => exact eok_app _ _ eok_e0
  | jstr s => exact eok_serialize_string esc s
  | jarr xs =>
    have hItems := eok_serArrItems fmt esc p xs l
    simp only [serV]
    repeat'
      first
        | exact eok_e0
        | exact hItems
        | apply eok_app
        | apply eok_ecat
        | apply eok_ite
  | jobj es =>
    have hItems := eok_serObjItems fmt esc p es l
    simp only [serV]
    repeat'
      first
        | exact eok_e0
        | exact hItems
        | apply eok_app
        | apply eok_ecat
        | apply eok_ite

theorem eok_serArrItems {ν : Type} (fmt : ν → List Nat) (esc p : Bool) (xs : List (JVal ν))
    (l : Nat) : EOk (serArrItems fmt esc true p xs l) := by
  cases xs with
  | nil => exact eok_e0
  | cons x xs =>
    have hx := eok_serV fmt esc p x (l + 1)
    have hxs := eok_serArrItems fmt esc p xs l
    simp only [serArrItems]
    repeat'
      first
        | exact eok_e0
        | exact hx
        | exact hxs
        | apply eok_app
        | apply eok_ecat
        | apply eok_ite

theorem eok_serObjItems {ν : Type} (fmt : ν → List Nat) (esc p : Bool)
    (es : List (List Nat × JVal ν)) (l : Nat) : EOk (serObjItems fmt esc true p es l) := by
  cases es with
  | nil => exact eok_e0
  | cons kv es =>
    obtain ⟨k, v⟩ := kv
    have hv := eok_serV fmt esc p v (l + 1)
    have hes := eok_serObjItems fmt esc p es l
    simp only [serObjItems]
    repeat'
      first
        | exact eok_e0
        | exact hv
        | exact hes
        | exact eok_serialize_string esc (k.takeWhile (· ≠ 0))
        | apply eok_app
        | apply eok_ecat
        | apply eok_ite
end

theorem weq_e0 : WEq e0 e0 := rfl

theorem weq_app (b b' : Bool) (e e' : Emit) (t : List Nat) (h : WEq e e') :
    WEq (app b e t) (app b' e' t) := by
  unfold WEq at h ⊢
  simp only [app_written]
  omega

theorem weq_ecat (e1 e2 e1' e2' : Emit) (h1 : WEq e1 e1') (h2 : WEq e2 e2') :
    WEq (ecat e1 e2) (ecat e1' e2') := by
  unfold WEq at h1 h2 ⊢
  simp only [ecat_written]
  omega

theorem weq_ite (c : Prop) [Decidable c] (e1 e2 e1' e2' : Emit) (h1 : WEq e1 e1')
    (h2 : WEq e2 e2') : WEq (if c then e1 else e2) (if c then e1' else e2') := by
  split
  · exact h1
  · exact h2

theorem weq_serStrBytes (esc b b' : Bool) (s : List Nat) :
    WEq (serStrBytes esc b s) (serStrBytes esc b' s) := by
  induction s with
  | nil => exact weq_e0
  | cons c cs ih => exact weq_ecat _ _ _ _ (weq_app _ _ _ _ _ weq_e0) ih

theorem weq_serialize_string (esc b b' : Bool) (s : List Nat) :
    WEq (json_serialize_string esc b s) (json_serialize_string esc b' s) :=
  weq_ecat _ _ _ _ (weq_app _ _ _ _ _ weq_e0)
    (weq_ecat _ _ _ _ (weq_serStrBytes esc b b' s) (weq_app _ _ _ _ _ weq_e0))

mutual
theorem weq_serV {ν : Type} (fmt : ν → List Nat) (esc b b' p : Bool) (v : JVal ν) (l : Nat) :
    WEq (serV fmt esc b p v l) (serV fmt esc b' p v l) := by
  cases v with
  | jnull => exact weq_app _ _ _ _ _ weq_e0
  | jbool bb =>
    simp only [serV]
    exact weq_ite _ _ _ _ _ (weq_app _ _ _ _ _ weq_e0) (weq_app _ _ _ _ _ weq_e0)
  | jnum n => exact weq_app _ _ _ _ _ weq_e0
  | jstr s => exact weq_serialize_string esc b b' s
  | jarr xs =>
    have hItems := weq_serArrItems fmt esc b b' p xs l
    simp only [serV]
    repeat'
      first
        | exact weq_e0
        | exact hItems
        | apply weq_app
        | apply weq_ecat
        | apply weq_ite
  | jobj es =>
    have hItems := weq_serObjItems fmt esc b b' p es l
    simp only [serV]
    repeat'
      first
        | exact weq_e0
        | exact hItems
        | apply weq_app
        | apply weq_ecat
        | apply weq_ite

theorem weq_serArrItems {ν : Type} (fmt : ν → List Nat) (esc b b' p : Bool)
    (xs : List (JVal ν)) (l : Nat) :
    WEq (serArrItems fmt esc b p xs l) (serArrItems fmt esc b' p xs l) := by
  cases xs with
  | nil => exact weq_e0
  | cons x xs =>
    have hx := weq_serV fmt esc b b' p x (l + 1)
    have hxs := weq_serArrItems fmt esc b b' p xs l
    simp only [serArrItems]
    repeat'
      first
        | exact weq_e0
        | exact hx
        | exact hxs
        | apply weq_app
        | apply weq_ecat
        | apply weq_ite

theorem weq_serObjItems {ν : Type} (fmt : ν → List Nat) (esc b b' p : Bool)
    (es : List (List Nat × JVal ν)) (l : Nat) :
    WEq (serObjItems fmt esc b p es l) (serObjItems fmt esc b' p es l) := by
  cases es with
  | nil => exact weq_e0
  | cons kv es =>
    obtain ⟨k, v⟩ := kv
    have hv := weq_serV fmt esc b b' p v (l + 1)
    have hes := weq_serObjItems fmt esc b b' p es l
    simp only [serObjItems]
    repeat'
      first
        | exact weq_e0
        | exact hv
        | exact hes
        | exact weq_serialize_string esc b b' (k.takeWhile (· ≠ 0))
        | apply weq_app
        | apply weq_ecat
        | apply weq_ite
end

/-! ### Claim C3 -/

/-- C3, counterexample: the claim as stated fails already on the null value.
`json_serialize_to_string .jnull` is the 4-byte string `null`, while
`json_serialization_size` reports 5, because the measuring pass returns the
written count plus one for the terminating NUL byte (`res + 1` at
src/parson.c:1787). -/
theorem c3_counterexample_null_size :
    ¬ ((json_serialize_to_string (fun _ : Unit => []) true .jnull).length
        = json_serialization_size (fun _ : Unit => []) true .jnull) := by
  decide

/-- C3, amended: for every value tree and every number formatter, the length
of the compact serialized string plus one (the terminating NUL byte counted
by `json_serialization_size`) equals the size reported by the measuring pass,
and likewise in pretty mode, because both passes run the same recursive
routine `json_serialize_to_buffer_r` with and without a target buffer. -/
theorem c3_measure_matches_serialized_length {ν : Type} (fmt : ν → List Nat)
    (escape_slashes : Bool) (v : JVal ν) :
    (json_serialize_to_string fmt escape_slashes v).length + 1
        = json_serialization_size fmt escape_slashes v ∧
    (json_serialize_to_string_pretty fmt escape_slashes v).length + 1
        = json_serialization_size_pretty fmt escape_slashes v := by
  have h1 := eok_serV fmt escape_slashes false v 0
  have h2 := weq_serV fmt escape_slashes true false false v 0
  have h3 := eok_serV fmt escape_slashes true v 0
  have h4 := weq_serV fmt escape_slashes true false true v 0
  unfold EOk at h1 h3
  unfold WEq at h2 h4
  unfold json_serialize_to_string json_serialization_size
    json_serialize_to_string_pretty json_serialization_size_pretty
  omega

/-! ### Claim C9 -/

/-- C9: `json_value_equals` applied to two NULL value pointers returns true
(both report type `JSONError`, and two `JSONError` values compare equal),
while comparing a NULL pointer with any non-NULL value of a real type
returns false, in either argument order. -/
theorem c9_equals_null_pointers {ν : Type} (numEq : ν → ν → Bool) :
    json_value_equals numEq (none : Option (JVal ν)) none = true ∧
    ∀ v : JVal ν, json_value_equals numEq none (some v) = false ∧
      json_value_equals numEq (some v) none = false := by
  refine ⟨rfl, fun v => ⟨?_, ?_⟩⟩
  · cases v <;> rfl
  · cases v <;> simp [json_value_equals, jfuel, jeqF, json_value_get_type]

/-! ### Claim C10 -/

/-- C10: `json_value_init_boolean` normalizes its `int` argument to 1 for any
nonzero value and 0 for zero; consequently `json_value_get_boolean` on any
successfully constructed (well-formed) boolean value returns only 0 or 1,
and it returns the sentinel -1 only for values that are not booleans. -/
theorem c10_boolean_normalization {ν : Type} :
    (∀ b : Int, json_value_get_boolean (some (json_value_init_boolean b : JVal ν))
        = if b = 0 then 0 else 1) ∧
    (∀ v : JVal ν, wfV v = true → json_value_get_type (some v) = .JSONBoolean →
        json_value_get_boolean (some v) = 0 ∨ json_value_get_boolean (some v) = 1) ∧
    (∀ v : JVal ν, wfV v = true → json_value_get_boolean (some v) = -1 →
        json_value_get_type (some v) ≠ .JSONBoolean) := by
  refine ⟨fun b => rfl, fun v hwf hty => ?_, fun v hwf hneg => ?_⟩
  · cases v with
    | jbool b =>
      simp only [wfV, Bool.or_eq_true, decide_eq_true_eq] at hwf
      rcases hwf with h | h <;> simp [json_value_get_boolean, h]
    | jnull => exact absurd hty (by simp [json_value_get_type])
    | jnum n => exact absurd hty (by simp [json_value_get_type])
    | jstr s => exact absurd hty (by simp [json_value_get_type])
    | jarr xs => exact absurd hty (by simp [json_value_get_type])
    | jobj es => exact absurd hty (by simp [json_value_get_type])
  · cases v with
    | jbool b =>
      simp only [wfV, Bool.or_eq_true, decide_eq_true_eq] at hwf
      simp only [json_value_get_boolean] at hneg
      rcases hwf with h | h <;> omega
    | jnull => simp [json_value_get_type]
    | jnum n => simp [json_value_get_type]
    | jstr s => simp [json_value_get_type]
    | jarr xs => simp [json_value_get_type]
    | jobj es => simp [json_value_get_type]

/-- C10 witness: the theorem applied at the concrete boolean built from the
C `int` 7 — normalized to payload 1 — and at the well-formed value
`jbool 1`. -/
theorem c10_witness :
    json_value_get_boolean (some (json_value_init_boolean 7 : JVal Unit)) = 1 ∧
    (json_value_get_boolean (some (JVal.jbool 1 : JVal Unit)) = 0 ∨
      json_value_get_boolean (some (JVal.jbool 1 : JVal Unit)) = 1) := by
  refine ⟨?_, ?_⟩
  · have h := (@c10_boolean_normalization Unit).1 7
    simpa using h
  · exact (@c10_boolean_normalization Unit).2.1 (JVal.jbool 1) (by decide) (by decide)

/-! ### Parser step lemmas

One lemma per control-flow outcome of each C parse function, used to drive
the parse of known inputs. -/

theorem peek_cons (c : Nat) (l : List Nat) : peek (c :: l) = c := rfl

theorem skipWs_cons (c : Nat) (l : List Nat) (h : isspaceC c = false) :
    skipWs (c :: l) = c :: l := by
  simp [skipWs, List.dropWhile_cons, h]

theorem parse_value_fuel_zero {ν : Type} (scan : List Nat → Option (ν × Nat)) (s : List Nat)
    (n : Nat) : parse_value scan 0 s n = none := rfl

theorem parse_value_deep {ν : Type} (scan : List Nat → Option (ν × Nat)) (fuel : Nat)
    (s : List Nat) (n : Nat) (h : n > MAX_NESTING) : parse_value scan fuel s n = none := by
  cases fuel with
  | zero => rfl
  | succ fuel => rw [parse_value, if_pos h]

theorem parse_value_arr {ν : Type} (scan : List Nat → Option (ν × Nat)) (fuel : Nat)
    (s : List Nat) (n : Nat) (hn : ¬ n > MAX_NESTING) (h : peek (skipWs s) = 91) :
    parse_value scan (fuel + 1) s n = parse_array_value scan fuel (skipWs s) (n + 1) := by
  rw [parse_value, if_neg hn]
  simp [h]

theorem parse_value_obj {ν : Type} (scan : List Nat → Option (ν × Nat)) (fuel : Nat)
    (s : List Nat) (n : Nat) (hn : ¬ n > MAX_NESTING) (h : peek (skipWs s) = 123) :
    parse_value scan (fuel + 1) s n = parse_object_value scan fuel (skipWs s) (n + 1) := by
  rw [parse_value, if_neg hn]
  simp [h]

theorem parse_value_str {ν : Type} (scan : List Nat → Option (ν × Nat)) (fuel : Nat)
    (s : List Nat) (n : Nat) (hn : ¬ n > MAX_NESTING) (h : peek (skipWs s) = 34) :
    parse_value scan (fuel + 1) s n = parse_string_value (skipWs s) := by
  rw [parse_value, if_neg hn]
  simp [h]

theorem parse_value_bool {ν : Type} (scan : List Nat → Option (ν × Nat)) (fuel : Nat)
    (s : List Nat) (n : Nat) (hn : ¬ n > MAX_NESTING)
    (h : peek (skipWs s) = 102 ∨ peek (skipWs s) = 116) :
    parse_value scan (fuel + 1) s n = parse_boolean_value (skipWs s) := by
  rw [parse_value, if_neg hn]
  rcases h with h | h <;> simp [h]

theorem parse_value_null {ν : Type} (scan : List Nat → Option (ν × Nat)) (fuel : Nat)
    (s : List Nat) (n : Nat) (hn : ¬ n > MAX_NESTING) (h : peek (skipWs s) = 110) :
    parse_value scan (fuel + 1) s n = parse_null_value (skipWs s) := by
  rw [parse_value, if_neg hn]
  simp [h]

theorem parse_value_num {ν : Type} (scan : List Nat → Option (ν × Nat)) (fuel : Nat)
    (s : List Nat) (n : Nat) (hn : ¬ n > MAX_NESTING)
    (h : peek (skipWs s) = 45 ∨ (48 ≤ peek (skipWs s) ∧ peek (skipWs s) ≤ 57)) :
    parse_value scan (fuel + 1) s n = parse_number_value scan (skipWs s) := by
  rw [parse_value, if_neg hn]
  simp only []
  rw [if_neg (by omega), if_neg (by omega), if_neg (by omega), if_neg (by omega),
    if_pos h]

theorem parse_array_value_empty {ν : Type} (scan : List Nat → Option (ν × Nat)) (fuel : Nat)
    (s : List Nat) (n : Nat) (h91 : peek s = 91) (h : peek (skipWs s.tail) = 93) :
    parse_array_value scan (fuel + 1) s n
      = some (.jarr [], (skipWs s.tail).tail) := by
  rw [parse_array_value]
  simp [h91, h, List.drop_one]

theorem parse_array_value_go {ν : Type} (scan : List Nat → Option (ν × Nat)) (fuel : Nat)
    (s : List Nat) (n : Nat) (h91 : peek s = 91) (h : peek (skipWs s.tail) ≠ 93) :
    parse_array_value scan (fuel + 1) s n
      = parse_array_loop scan fuel (skipWs s.tail) n [] := by
  rw [parse_array_value]
  simp [h91, h, List.drop_one]

theorem parse_array_loop_fail {ν : Type} (scan : List Nat → Option (ν × Nat)) (fuel : Nat)
    (s : List Nat) (n : Nat) (acc : List (JVal ν)) (h0 : peek s ≠ 0)
    (hpv : parse_value scan fuel s n = none) :
    parse_array_loop scan (fuel + 1) s n acc = none := by
  rw [parse_array_loop]
  simp [h0, hpv]

theorem parse_array_loop_last {ν : Type} (scan : List Nat → Option (ν × Nat)) (fuel : Nat)
    (s s2 : List Nat) (n : Nat) (acc : List (JVal ν)) (v : JVal ν) (h0 : peek s ≠ 0)
    (hpv : parse_value scan fuel s n = some (v, s2)) (hc : peek (skipWs s2) ≠ 44) :
    parse_array_loop scan (fuel + 1) s n acc = finish_array (skipWs s2) (acc ++ [v]) := by
  rw [parse_array_loop]
  simp [h0, hpv, hc]

theorem parse_array_loop_comma {ν : Type} (scan : List Nat → Option (ν × Nat)) (fuel : Nat)
    (s s2 : List Nat) (n : Nat) (acc : List (JVal ν)) (v : JVal ν) (h0 : peek s ≠ 0)
    (hpv : parse_value scan fuel s n = some (v, s2)) (hc : peek (skipWs s2) = 44)
    (hb : peek (skipWs (skipWs s2).tail) ≠ 93) :
    parse_array_loop scan (fuel + 1) s n acc
      = parse_array_loop scan fuel (skipWs (skipWs s2).tail) n (acc ++ [v]) := by
  rw [parse_array_loop]
  simp [h0, hpv, hc, hb, List.drop_one]

theorem finish_array_ok {ν : Type} (s : List Nat) (acc : List (JVal ν))
    (h : peek (skipWs s) = 93) (hne : acc.length ≠ 0) :
    finish_array s acc = some (.jarr acc, (skipWs s).tail) := by
  rw [finish_array]
  simp [h, hne, List.drop_one]

/-! ### Nesting-ceiling lemmas (claim C6) -/

theorem nestedBrackets_succ (k : Nat) (rest : List Nat) :
    nestedBrackets (k + 1) ++ rest = 91 :: (nestedBrackets k ++ (93 :: rest)) := by
  induction k with
  | zero => rfl
  | succ k ih =>
    simp only [nestedBrackets, List.replicate_succ, List.cons_append, List.append_assoc] at *
    simp_all

theorem nestedBrackets_head (k : Nat) (h : 1 ≤ k) (rest : List Nat) :
    peek (nestedBrackets k ++ rest) = 91 := by
  obtain ⟨k', rfl⟩ : ∃ k', k = k' + 1 := ⟨k - 1, by omega⟩
  rw [nestedBrackets_succ]
  rfl

/-- Parsing `k` nested brackets succeeds — producing the `k`-level array —
whenever the nesting argument `n` satisfies `n + k ≤ 2049`, with fuel at
least `3k`.  The array at depth `d` is parsed by `parse_value` called with
nesting argument `d - 1`, and the ceiling check rejects only `d - 1 > 2048`,
so 2049 levels fit under the ceiling. -/
theorem parse_nested_ok {ν : Type} (scan : List Nat → Option (ν × Nat)) :
    ∀ (k n fuel : Nat) (rest : List Nat), 1 ≤ k → n + k ≤ 2049 → 3 * k ≤ fuel →
      parse_value scan fuel (nestedBrackets k ++ rest) n = some (nestedArray k, rest) := by
  intro k
  induction k with
  | zero => omega
  | succ k ih =>
    intro n fuel rest _ hn hfuel
    obtain ⟨f1, rfl⟩ : ∃ f1, fuel = f1 + 1 := ⟨fuel - 1, by omega⟩
    obtain ⟨f2, rfl⟩ : ∃ f2, f1 = f2 + 1 := ⟨f1 - 1, by omega⟩
    rw [nestedBrackets_succ]
    have hsk : skipWs (91 :: (nestedBrackets k ++ 93 :: rest))
        = 91 :: (nestedBrackets k ++ 93 :: rest) := skipWs_cons _ _ (by decide)
    rw [parse_value_arr scan _ _ _ (by simp only [MAX_NESTING]; omega) (by rw [hsk]; rfl)]
    rw [hsk]
    cases k with
    | zero =>
      have hsk93 : skipWs (93 :: rest) = 93 :: rest := skipWs_cons 93 rest (by decide)
      have htl : (91 :: (nestedBrackets 0 ++ 93 :: rest)).tail = 93 :: rest := by
        simp [nestedBrackets]
      rw [parse_array_value_empty scan f2 (91 :: (nestedBrackets 0 ++ 93 :: rest)) (n + 1)
        rfl (by rw [htl, hsk93]; rfl)]
      rw [htl, hsk93]
      rfl
    | succ k' =>
      obtain ⟨f3, rfl⟩ : ∃ f3, f2 = f3 + 1 := ⟨f2 - 1, by omega⟩
      have hskM : skipWs (nestedBrackets (k' + 1) ++ 93 :: rest)
          = nestedBrackets (k' + 1) ++ 93 :: rest := by
        rw [nestedBrackets_succ]
        exact skipWs_cons _ _ (by decide)
      have htl : (91 :: (nestedBrackets (k' + 1) ++ 93 :: rest)).tail
          = nestedBrackets (k' + 1) ++ 93 :: rest := rfl
      rw [parse_array_value_go scan (f3 + 1) (91 :: (nestedBrackets (k' + 1) ++ 93 :: rest))
        (n + 1) rfl
        (by rw [htl, hskM, nestedBrackets_head (k' + 1) (by omega)]; omega)]
      rw [htl, hskM]
      have hsk93 : skipWs (93 :: rest) = 93 :: rest := skipWs_cons 93 rest (by decide)
      rw [parse_array_loop_last scan f3 _ (93 :: rest) _ _ _
        (by rw [nestedBrackets_head (k' + 1) (by omega)]; omega)
        (ih (n + 1) f3 (93 :: rest) (by omega) (by omega) (by omega))
        (by rw [hsk93]; simp [peek_cons])]
      rw [finish_array_ok _ _ (by rw [hsk93]; rfl) (by simp)]
      rw [hsk93]
      rfl

/-- Parsing `k` nested brackets fails — for every fuel — as soon as
`n + k ≥ 2050`: the innermost bracket is dispatched with a nesting argument
exceeding `MAX_NESTING`. -/
theorem parse_nested_fail {ν : Type} (scan : List Nat → Option (ν × Nat)) :
    ∀ (k n fuel : Nat) (rest : List Nat), 1 ≤ k → n + k ≥ 2050 →
      parse_value scan fuel (nestedBrackets k ++ rest) n = none := by
  intro k
  induction k with
  | zero => omega
  | succ k ih =>
    intro n fuel rest _ hn
    by_cases hdeep : n > MAX_NESTING
    · exact parse_value_deep scan fuel _ n hdeep
    · cases fuel with
      | zero => rfl
      | succ f1 =>
        rw [nestedBrackets_succ]
        have hsk : skipWs (91 :: (nestedBrackets k ++ 93 :: rest))
            = 91 :: (nestedBrackets k ++ 93 :: rest) := skipWs_cons _ _ (by decide)
        rw [parse_value_arr scan _ _ _ hdeep (by rw [hsk]; rfl)]
        rw [hsk]
        cases k with
        | zero => simp only [MAX_NESTING] at hdeep; omega
        | succ k' =>
          cases f1 with
          | zero => rfl
          | succ f2 =>
            have hskM : skipWs (nestedBrackets (k' + 1) ++ 93 :: rest)
                = nestedBrackets (k' + 1) ++ 93 :: rest := by
              rw [nestedBrackets_succ]
              exact skipWs_cons _ _ (by decide)
            have htl : (91 :: (nestedBrackets (k' + 1) ++ 93 :: rest)).tail
                = nestedBrackets (k' + 1) ++ 93 :: rest := rfl
            rw [parse_array_value_go scan f2 (91 :: (nestedBrackets (k' + 1) ++ 93 :: rest))
              (n + 1) rfl
              (by rw [htl, hskM, nestedBrackets_head (k' + 1) (by omega)]; omega)]
            rw [htl, hskM]
            cases f2 with
            | zero => rfl
            | succ f3 =>
              exact parse_array_loop_fail scan f3 _ _ _
                (by rw [nestedBrackets_head (k' + 1) (by omega)]; omega)
                (ih (n + 1) f3 (93 :: rest) (by omega) (by omega))

theorem nestedBrackets_no_bom (k : Nat) (h : 1 ≤ k) :
    ¬ ((nestedBrackets k).getD 0 0 = 0xEF ∧ (nestedBrackets k).getD 1 0 = 0xBB
        ∧ (nestedBrackets k).getD 2 0 = 0xBF) := by
  obtain ⟨k', rfl⟩ : ∃ k', k = k' + 1 := ⟨k - 1, by omega⟩
  have := nestedBrackets_succ k' []
  simp only [List.append_nil] at this
  rw [this]
  simp

/-- `json_parse_string` on `k` nested brackets: succeeds exactly up to 2049
levels. -/
theorem json_parse_string_nested {ν : Type} (scan : List Nat → Option (ν × Nat)) (k : Nat)
    (h : 1 ≤ k) :
    json_parse_string scan (nestedBrackets k)
      = if k ≤ 2049 then some (nestedArray k) else none := by
  rw [json_parse_string]
  rw [if_neg (nestedBrackets_no_bom k h)]
  by_cases hk : k ≤ 2049
  · have := parse_nested_ok scan k 0 (parseFuel (nestedBrackets k)) [] h (by omega)
      (by simp [parseFuel, nestedBrackets]; omega)
    simp only [List.append_nil] at this
    rw [this]
    simp [hk]
  · have := parse_nested_fail scan k 0 (parseFuel (nestedBrackets k)) [] h (by omega)
    simp only [List.append_nil] at this
    rw [this]
    simp [hk]


/-! ### Claim C6 -/

/-- C6, counterexample: an input of 2049 nested `[` characters (with
matching closers) parses successfully, contradicting the claim that it
fails.  The dispatch passes nesting `d - 1` for the array at depth `d`, and
the ceiling check `nesting > 2048` therefore admits depth 2049. -/
theorem c6_counterexample_2049_succeeds :
    json_parse_string unitScan (nestedBrackets 2049) = some (nestedArray 2049) := by
  rw [json_parse_string_nested unitScan 2049 (by omega)]
  simp

/-- C6, amended: an input of `k` nested `[` characters parses successfully
exactly when `k ≤ 2049`, and fails from 2050 levels on; equivalently the
parser aborts when the `nesting` argument of `parse_value` exceeds the
ceiling `MAX_NESTING = 2048`, which admits 2049 levels of brackets because
the value at depth `d` is dispatched with nesting argument `d - 1`. -/
theorem c6_nesting_boundary {ν : Type} (scan : List Nat → Option (ν × Nat)) (k : Nat)
    (h : 1 ≤ k) :
    (k ≤ 2049 → json_parse_string scan (nestedBrackets k) = some (nestedArray k)) ∧
    (2050 ≤ k → json_parse_string scan (nestedBrackets k) = none) := by
  constructor
  · intro hk
    rw [json_parse_string_nested scan k h]
    simp [hk]
  · intro hk
    rw [json_parse_string_nested scan k h]
    simp only [if_neg (by omega : ¬ k ≤ 2049)]

/-- C6 witness: the amended boundary applied at 3 and at 2050 nested
brackets. -/
theorem c6_witness :
    json_parse_string unitScan (nestedBrackets 3) = some (nestedArray 3) ∧
    json_parse_string unitScan (nestedBrackets 2050) = none := by
  constructor
  · exact (c6_nesting_boundary unitScan 3 (by decide)).1 (by decide)
  · exact (c6_nesting_boundary unitScan 2050 (by decide)).2 (by decide)

/-! ### Claim C5 -/

/-- C5, counterexample: the claim states that a complete top-level value
followed by non-whitespace trailing garbage fails to parse; but
`json_parse_string` performs no end-of-input check, so `null garbage`
parses successfully to the null value. -/
theorem c5_counterexample_trailing_garbage :
    json_parse_string unitScan (bytesOfAscii "null garbage") = some JVal.jnull := rfl

/-- C5, amended: trailing input after the top-level value is ignored, never
rejected: for every byte sequence `rest` (whitespace or garbage alike),
parsing `null` followed by `rest` succeeds and returns the null value,
because `json_parse_string` returns the result of `parse_value` without
examining the remaining input. -/
theorem c5_trailing_garbage_ignored {ν : Type} (scan : List Nat → Option (ν × Nat))
    (rest : List Nat) :
    json_parse_string scan (bytesOfAscii "null" ++ rest) = some (JVal.jnull : JVal ν) := by
  rw [json_parse_string]
  rw [if_neg (by simp [bytesOfAscii])]
  have h1 : bytesOfAscii "null" ++ rest = 110 :: (117 :: 108 :: 108 :: rest) := rfl
  rw [h1]
  have hf : ∃ f, parseFuel (110 :: 117 :: 108 :: 108 :: rest) = f + 1 :=
    ⟨parseFuel (110 :: 117 :: 108 :: 108 :: rest) - 1, by simp [parseFuel]⟩
  obtain ⟨f, hf⟩ := hf
  rw [hf]
  rw [parse_value_null scan f _ 0 (by simp [MAX_NESTING])
    (by rw [skipWs_cons _ _ (by decide)]; rfl)]
  rw [skipWs_cons _ _ (by decide)]
  rw [parse_null_value]
  rw [if_pos (by simp [bytesOfAscii, List.isPrefixOf])]

/-! ### Claim C8 -/

/-- C8: the string literal `"\uD83D\uDE00"` parses to the single code point
U+1F600 encoded as exactly the 4 UTF-8 bytes F0 9F 98 80, and a string
literal with a lone `\uD800` (a high surrogate not followed by a low
surrogate) fails to parse — shown both for an immediately terminated
literal and for one followed by a non-surrogate escape. -/
theorem c8_surrogate_pairs :
    json_parse_string unitScan (bytesOfAscii "\"\\uD83D\\uDE00\"")
      = some (.jstr [0xF0, 0x9F, 0x98, 0x80]) ∧
    json_parse_string unitScan (bytesOfAscii "\"\\uD800\"") = (none : Option (JVal Unit)) ∧
    json_parse_string unitScan (bytesOfAscii "\"\\uD800\\u0041\"")
      = (none : Option (JVal Unit)) := by
  exact ⟨rfl, rfl, rfl⟩

/-! ### Table proofs: list and modular-arithmetic helpers -/

theorem getD_oob {α : Type} (l : List α) (i : Nat) (d : α) (h : l.length ≤ i) :
    l.getD i d = d := by
  induction l generalizing i with
  | nil => rfl
  | cons a l ih =>
    cases i with
    | zero => simp at h
    | succ i => simpa using ih i (by simpa using h)

theorem getD_cons_zero {α : Type} (a : α) (l : List α) (d : α) : (a :: l).getD 0 d = a := rfl

theorem getD_cons_succ {α : Type} (a : α) (l : List α) (i : Nat) (d : α) :
    (a :: l).getD (i + 1) d = l.getD i d := rfl

theorem getD_set_self {α : Type} (l : List α) (i : Nat) (a d : α) (h : i < l.length) :
    (l.set i a).getD i d = a := by
  induction l generalizing i with
  | nil => simp at h
  | cons b l ih =>
    cases i with
    | zero => rfl
    | succ i => simpa using ih i (by simpa using h)

theorem getD_set_ne {α : Type} (l : List α) (i j : Nat) (a d : α) (h : i ≠ j) :
    (l.set i a).getD j d = l.getD j d := by
  induction l generalizing i j with
  | nil => simp [List.set]
  | cons b l ih =>
    cases i with
    | zero =>
      cases j with
      | zero => exact absurd rfl h
      | succ j => rfl
    | succ i =>
      cases j with
      | zero => rfl
      | succ j => simpa using ih i j (by omega)

theorem getD_append_left {α : Type} (l l2 : List α) (i : Nat) (d : α) (h : i < l.length) :
    (l ++ l2).getD i d = l.getD i d := by
  induction l generalizing i with
  | nil => simp at h
  | cons a l ih =>
    cases i with
    | zero => rfl
    | succ i => simpa using ih i (by simpa using h)

theorem getD_append_len {α : Type} (l : List α) (x d : α) :
    (l ++ [x]).getD l.length d = x := by
  induction l with
  | nil => rfl
  | cons a l ih => simpa using ih

theorem getD_dropLast {α : Type} (l : List α) (i : Nat) (d : α) (h : i + 1 < l.length) :
    l.dropLast.getD i d = l.getD i d := by
  induction l generalizing i with
  | nil => simp at h
  | cons a l ih =>
    cases l with
    | nil => simp at h
    | cons b l2 =>
      cases i with
      | zero => rfl
      | succ i =>
        have := ih i (by simpa using h)
        simpa [List.dropLast] using this

theorem getD_mem {α : Type} (l : List α) (i : Nat) (d : α) (h : i < l.length) :
    l.getD i d ∈ l := by
  induction l generalizing i with
  | nil => simp at h
  | cons a l ih =>
    cases i with
    | zero => simp [getD_cons_zero]
    | succ i => simpa using Or.inr (ih i (by simpa using h))

theorem get?_eq_some_getD {α : Type} (l : List α) (i : Nat) (d : α) (h : i < l.length) :
    l.get? i = some (l.getD i d) := by
  induction l generalizing i with
  | nil => simp at h
  | cons a l ih =>
    cases i with
    | zero => rfl
    | succ i => simpa using ih i (by simpa using h)

theorem getD_replicate_none {α : Type} (n i : Nat) (h : i < n) :
    (List.replicate n (none : Option α)).getD i none = none := by
  induction n generalizing i with
  | zero => omega
  | succ n ih =>
    cases i with
    | zero => rfl
    | succ i => simpa [List.replicate_succ] using ih i (by omega)

theorem getD_eq_of_index_eq {α : Type} (l : List α) (i j : Nat) (d : α) (h : i = j) :
    l.getD i d = l.getD j d := by rw [h]

/-- Nodup lists: equal elements at valid positions force equal positions. -/
theorem nodup_getD_inj {α : Type} (l : List α) (hn : l.Nodup) (i j : Nat) (d : α)
    (hi : i < l.length) (hj : j < l.length) (h : l.getD i d = l.getD j d) : i = j := by
  have h1 := get?_eq_some_getD l i d hi
  have h2 := get?_eq_some_getD l j d hj
  rw [h] at h1
  exact List.get?_inj hi hn (h1.trans h2.symm)

/-- Bitmask reduction equals remainder for a power-of-two capacity. -/
theorem mask_eq_mod (cap x : Nat) (h : ∃ m, cap = 2 ^ m) : x &&& (cap - 1) = x % cap := by
  obtain ⟨m, rfl⟩ := h
  exact Nat.and_pow_two_sub_one_eq_mod x m

theorem cdist_lt (cap a b : Nat) (ha : a < cap) (hb : b < cap) : cdist cap a b < cap := by
  unfold cdist
  split <;> omega

theorem cdist_self (cap a : Nat) : cdist cap a a = 0 := by
  unfold cdist
  simp

theorem cdist_eq_zero_iff (cap a b : Nat) (ha : a < cap) (hb : b < cap) :
    cdist cap a b = 0 ↔ a = b := by
  unfold cdist
  split <;> omega

/-- Two slots at different forward distances from the same origin are
different slots. -/
theorem cdist_inj (cap h a b : Nat) (ha : a < cap) (hb : b < cap)
    (hne : cdist cap h a ≠ cdist cap h b) : a ≠ b := by
  intro rfl2
  subst rfl2
  exact hne rfl

theorem mod_two_cap (cap x : Nat) (hc : 0 < cap) (h : x < 2 * cap) :
    x % cap = if x < cap then x else x - cap := by
  split
  · exact Nat.mod_eq_of_lt (by omega)
  · rw [Nat.mod_eq_sub_mod (by omega)]
    exact Nat.mod_eq_of_lt (by omega)

/-- The slot scanned at step `i` from home `h` is at circular distance `i`. -/
theorem cdist_scan (cap h i : Nat) (hh : h < cap) (hi : i < cap) :
    cdist cap h ((h + i) % cap) = i := by
  have hmod := mod_two_cap cap (h + i) (by omega) (by omega)
  by_cases hlt : h + i < cap
  · rw [hmod, if_pos hlt]
    unfold cdist
    split <;> omega
  · rw [hmod, if_neg hlt]
    unfold cdist
    split <;> omega

/-- Conversely, the slot at distance `cdist h c` is `c` itself. -/
theorem scan_cdist (cap h c : Nat) (hh : h < cap) (hc : c < cap) :
    (h + cdist cap h c) % cap = c := by
  unfold cdist
  split
  · rw [show h + (c - h) = c by omega]
    exact Nat.mod_eq_of_lt hc
  · rw [show h + (c + cap - h) = c + cap by omega]
    rw [Nat.add_mod_right]
    exact Nat.mod_eq_of_lt hc

/-! ### Probe-scan characterization -/

theorem cap_spec_of_entry {ν : Type} (t : JObjT ν) (hinv : TInv t)
    (hd : 0 < t.names.length) : ∃ m, 4 ≤ m ∧ t.cells.length = 2 ^ m := by
  rcases hinv.cap_pow with h0 | h
  · have := hinv.count_le
    rw [hinv.icap, h0] at this
    omega
  · exact h

theorem cap_pos_of_entry {ν : Type} (t : JObjT ν) (hinv : TInv t)
    (hd : 0 < t.names.length) : 0 < t.cells.length := by
  obtain ⟨m, _, hm⟩ := cap_spec_of_entry t hinv hd
  rw [hm]
  exact Nat.pos_pow_of_pos m (by omega)

/-- The scan, started at counter `i`, finds the entry `d` whose key is
scanned for, provided `i` has not yet passed `d`'s slot. -/
theorem cellLoop_finds {ν : Type} (t : JObjT ν) (hinv : TInv t) (d : Nat)
    (hd : d < t.names.length) :
    ∀ r i, i + r = t.cells.length →
      i ≤ cdist t.cells.length (homeOf t d) (t.cell_ixs.getD d 0) →
      cellLoop t (t.names.getD d []) (t.hashes.getD d 0) (homeOf t d) i r
        = .foundAt (t.cell_ixs.getD d 0) := by
  obtain ⟨m, hm4, hm⟩ := cap_spec_of_entry t hinv (by omega)
  have hcap : 0 < t.cells.length := by rw [hm]; exact Nat.pos_pow_of_pos m (by omega)
  have hhome : homeOf t d < t.cells.length := Nat.mod_lt _ hcap
  have hcx := hinv.cx_lt d hd
  have hD : cdist t.cells.length (homeOf t d) (t.cell_ixs.getD d 0) < t.cells.length :=
    cdist_lt _ _ _ hhome hcx
  intro r
  induction r with
  | zero => omega
  | succ r ih =>
    intro i hir hiD
    rw [cellLoop]
    rw [show (homeOf t d + i) &&& (t.cells.length - 1) = (homeOf t d + i) % t.cells.length
      from mask_eq_mod _ _ ⟨m, hm⟩]
    by_cases hieq : i = cdist t.cells.length (homeOf t d) (t.cell_ixs.getD d 0)
    · rw [hieq, scan_cdist _ _ _ hhome hcx]
      rw [hinv.cells_cx d hd]
      simp
    · have hilt : i < cdist t.cells.length (homeOf t d) (t.cell_ixs.getD d 0) := by omega
      have hixlt : (homeOf t d + i) % t.cells.length < t.cells.length := Nat.mod_lt _ hcap
      have hdist : cdist t.cells.length (homeOf t d) ((homeOf t d + i) % t.cells.length)
          = i := cdist_scan _ _ _ hhome (by omega)
      have hocc : t.cells.getD ((homeOf t d + i) % t.cells.length) none ≠ none := by
        apply hinv.reach d hd _ hixlt
        unfold inCircIcc
        omega
      obtain ⟨e, he⟩ : ∃ e, t.cells.getD ((homeOf t d + i) % t.cells.length) none
          = some e := by
        cases hcell : t.cells.getD ((homeOf t d + i) % t.cells.length) none with
        | none => exact absurd hcell hocc
        | some e => exact ⟨e, rfl⟩
      have hecx := hinv.cx_cells _ hixlt e he
      have hnomatch : ¬ (t.hashes.getD e 0 = t.hashes.getD d 0
          ∧ t.names.getD e [] = t.names.getD d []) := by
        rintro ⟨-, hname⟩
        have hed : e = d := nodup_getD_inj t.names hinv.names_nodup e d [] hecx.1 hd hname
        rw [hed] at hecx
        rw [hecx.2] at hilt
        omega
      simp only [he]
      rw [if_neg hnomatch]
      exact ih (i + 1) (by omega) (by omega)

/-- `json_object_get_cell_ix` at the key and cached hash of dense entry `d`
finds exactly `d`'s slot. -/
theorem get_cell_ix_found {ν : Type} (t : JObjT ν) (hinv : TInv t) (d : Nat)
    (hd : d < t.names.length) :
    json_object_get_cell_ix t (t.names.getD d []) (t.hashes.getD d 0)
      = .foundAt (t.cell_ixs.getD d 0) := by
  obtain ⟨m, hm4, hm⟩ := cap_spec_of_entry t hinv (by omega)
  have hcap : 0 < t.cells.length := by rw [hm]; exact Nat.pos_pow_of_pos m (by omega)
  unfold json_object_get_cell_ix
  rw [show t.hashes.getD d 0 &&& (t.cells.length - 1) = t.hashes.getD d 0 % t.cells.length
    from mask_eq_mod _ _ ⟨m, hm⟩]
  exact cellLoop_finds t hinv d hd t.cells.length 0 (by omega) (by omega)

/-- A scan for an absent key never reports `foundAt`. -/
theorem cellLoop_absent {ν : Type} (t : JObjT ν) (hinv : TInv t) (key : List Nat)
    (hk : key ∉ t.names) (hash home : Nat) :
    ∀ r i, (∃ e, cellLoop t key hash home i r = .emptyAt e)
      ∨ cellLoop t key hash home i r = .invalid := by
  intro r
  induction r with
  | zero => exact fun i => Or.inr rfl
  | succ r ih =>
    intro i
    rw [cellLoop]
    cases hcell : t.cells.getD ((home + i) &&& (t.cells.length - 1)) none with
    | none => exact Or.inl ⟨_, rfl⟩
    | some e =>
      have hixlt : (home + i) &&& (t.cells.length - 1) < t.cells.length := by
        by_contra hge
        rw [getD_oob _ _ _ (by omega)] at hcell
        exact Option.noConfusion hcell
      have hecx := hinv.cx_cells _ hixlt e hcell
      have hnomatch : ¬ (t.hashes.getD e 0 = hash ∧ t.names.getD e [] = key) := by
        rintro ⟨-, hname⟩
        exact hk (hname ▸ getD_mem t.names e [] hecx.1)
      dsimp only
      rw [if_neg hnomatch]
      exact ih (i + 1)

/-- If the scan reports the empty slot `e`, then `e` is empty and every slot
strictly before `e` on the probe path from `home` is occupied. -/
theorem cellLoop_empty_run {ν : Type} (t : JObjT ν) (hpow : ∃ m, t.cells.length = 2 ^ m)
    (hcap : 0 < t.cells.length) (key : List Nat) (hash home : Nat)
    (hhome : home < t.cells.length) (e : Nat) :
    ∀ r i, i + r = t.cells.length →
      cellLoop t key hash home i r = .emptyAt e →
      e < t.cells.length ∧ t.cells.getD e none = none ∧
        i ≤ cdist t.cells.length home e ∧
        ∀ x, x < t.cells.length → i ≤ cdist t.cells.length home x →
          cdist t.cells.length home x < cdist t.cells.length home e →
          t.cells.getD x none ≠ none := by
  intro r
  induction r with
  | zero => intro i hir h; exact absurd h (by simp [cellLoop])
  | succ r ih =>
    intro i hir h
    rw [cellLoop] at h
    rw [show (home + i) &&& (t.cells.length - 1) = (home + i) % t.cells.length
      from mask_eq_mod _ _ hpow] at h
    have hixlt : (home + i) % t.cells.length < t.cells.length := Nat.mod_lt _ hcap
    have hdist : cdist t.cells.length home ((home + i) % t.cells.length)
        = i % t.cells.length := by
      by_cases hi : i < t.cells.length
      · rw [cdist_scan _ _ _ hhome hi, Nat.mod_eq_of_lt hi]
      · omega
    cases hcell : t.cells.getD ((home + i) % t.cells.length) none with
    | none =>
      rw [hcell] at h
      dsimp only at h
      cases h
      refine ⟨hixlt, hcell, ?_, ?_⟩
      · rw [hdist, Nat.mod_eq_of_lt (by omega)]
      · intro x hx hge hlt
        rw [hdist, Nat.mod_eq_of_lt (by omega)] at hlt
        omega
    | some d =>
      rw [hcell] at h
      dsimp only at h
      by_cases hmatch : t.hashes.getD d 0 = hash ∧ t.names.getD d [] = key
      · rw [if_pos hmatch] at h
        exact absurd h (by simp)
      · rw [if_neg hmatch] at h
        obtain ⟨he1, he2, he3, he4⟩ := ih (i + 1) (by omega) h
        refine ⟨he1, he2, by omega, ?_⟩
        intro x hx hge hlt
        by_cases hxi : cdist t.cells.length home x = i
        · have hxeq : x = (home + i) % t.cells.length := by
            have := scan_cdist t.cells.length home x hhome hx
            rw [hxi] at this
            omega
          rw [hxeq, hcell]
          simp
        · exact he4 x hx (by omega) hlt

/-- Every slot scanned by a loop that returns `invalid` is occupied; since a
table satisfying the invariant always has an empty slot, `invalid` cannot be
returned. -/
theorem cellLoop_invalid_occ {ν : Type} (t : JObjT ν) (hpow : ∃ m, t.cells.length = 2 ^ m)
    (hcap : 0 < t.cells.length) (key : List Nat) (hash home : Nat)
    (hhome : home < t.cells.length) :
    ∀ r i, i + r = t.cells.length →
      cellLoop t key hash home i r = .invalid →
      ∀ x, x < t.cells.length → i ≤ cdist t.cells.length home x →
        t.cells.getD x none ≠ none := by
  intro r
  induction r with
  | zero =>
    intro i hir _ x hx hge
    have := cdist_lt t.cells.length home x hhome hx
    omega
  | succ r ih =>
    intro i hir h
    rw [cellLoop] at h
    rw [show (home + i) &&& (t.cells.length - 1) = (home + i) % t.cells.length
      from mask_eq_mod _ _ hpow] at h
    cases hcell : t.cells.getD ((home + i) % t.cells.length) none with
    | none => rw [hcell] at h; exact absurd h (by simp)
    | some d =>
      rw [hcell] at h
      dsimp only at h
      by_cases hmatch : t.hashes.getD d 0 = hash ∧ t.names.getD d [] = key
      · rw [if_pos hmatch] at h
        exact absurd h (by simp)
      · rw [if_neg hmatch] at h
        intro x hx hge
        by_cases hxi : cdist t.cells.length home x = i
        · have hxeq : x = (home + i) % t.cells.length := by
            have := scan_cdist t.cells.length home x hhome hx
            rw [hxi] at this
            omega
          rw [hxeq, hcell]
          simp
        · exact ih (i + 1) (by omega) h x hx (by omega)

/-! ### Lookup correctness -/

theorem get_cell_ix_absent {ν : Type} (t : JObjT ν) (hinv : TInv t) (key : List Nat)
    (hk : key ∉ t.names) (hash : Nat) :
    (∃ e, json_object_get_cell_ix t key hash = .emptyAt e)
      ∨ json_object_get_cell_ix t key hash = .invalid :=
  cellLoop_absent t hinv key hk hash _ t.cells.length 0

theorem get_cell_ix_empty {ν : Type} (t : JObjT ν) (hpow : ∃ m, t.cells.length = 2 ^ m)
    (hcap : 0 < t.cells.length) (key : List Nat) (hash e : Nat)
    (h : json_object_get_cell_ix t key hash = .emptyAt e) :
    e < t.cells.length ∧ t.cells.getD e none = none ∧
      ∀ x, x < t.cells.length →
        cdist t.cells.length (hash % t.cells.length) x
          < cdist t.cells.length (hash % t.cells.length) e →
        t.cells.getD x none ≠ none := by
  unfold json_object_get_cell_ix at h
  rw [mask_eq_mod _ _ hpow] at h
  obtain ⟨h1, h2, _, h4⟩ := cellLoop_empty_run t hpow hcap key hash _
    (Nat.mod_lt _ hcap) e t.cells.length 0 (by omega) h
  exact ⟨h1, h2, fun x hx hlt => h4 x hx (by omega) hlt⟩

theorem get_cell_ix_ne_invalid {ν : Type} (t : JObjT ν) (hinv : TInv t)
    (hpow : ∃ m, t.cells.length = 2 ^ m) (hcap : 0 < t.cells.length)
    (hcnt : t.names.length < t.cells.length) (key : List Nat) (hash : Nat) :
    json_object_get_cell_ix t key hash ≠ .invalid := by
  intro h
  unfold json_object_get_cell_ix at h
  rw [mask_eq_mod _ _ hpow] at h
  have hocc : ∀ x, x < t.cells.length → t.cells.getD x none ≠ none := by
    intro x hx
    exact cellLoop_invalid_occ t hpow hcap key hash _ (Nat.mod_lt _ hcap)
      t.cells.length 0 (by omega) h x hx (by omega)
  have hmaps : ∀ c ∈ Finset.range t.cells.length,
      (t.cells.getD c none).getD 0 ∈ Finset.range t.names.length := by
    intro c hc
    rw [Finset.mem_range] at hc ⊢
    cases hcell : t.cells.getD c none with
    | none => exact absurd hcell (hocc c hc)
    | some d =>
      simpa using (hinv.cx_cells c hc d hcell).1
  have hinj : Set.InjOn (fun c => (t.cells.getD c none).getD 0)
      (Finset.range t.cells.length) := by
    intro c1 hc1 c2 hc2 heq
    rw [Finset.coe_range, Set.mem_Iio] at hc1 hc2
    cases hcell1 : t.cells.getD c1 none with
    | none => exact absurd hcell1 (hocc c1 hc1)
    | some d1 =>
      cases hcell2 : t.cells.getD c2 none with
      | none => exact absurd hcell2 (hocc c2 hc2)
      | some d2 =>
        simp only [hcell1, hcell2, Option.getD_some] at heq
        subst heq
        have e1 := (hinv.cx_cells c1 hc1 d1 hcell1).2
        have e2 := (hinv.cx_cells c2 hc2 d1 hcell2).2
        omega
  have := Finset.card_le_card_of_injOn _ hmaps hinj
  simp only [Finset.card_range] at this
  omega

theorem mem_getD_index {α : Type} (l : List α) (a d : α) (h : a ∈ l) :
    ∃ i, i < l.length ∧ l.getD i d = a := by
  induction l with
  | nil => simp at h
  | cons b l ih =>
    rcases List.mem_cons.1 h with rfl | h2
    · exact ⟨0, by simp, rfl⟩
    · obtain ⟨i, hi, hg⟩ := ih h2
      exact ⟨i + 1, by simpa using hi, hg⟩

theorem assocFind_zip_at {α : Type} (ns : List (List Nat)) (vs : List α) (hn : ns.Nodup)
    (d : Nat) (hd : d < ns.length) (hlen : vs.length = ns.length) :
    assocFind (ns.zip vs) (ns.getD d []) = vs.get? d := by
  induction ns generalizing vs d with
  | nil => simp at hd
  | cons k ns ih =>
    cases vs with
    | nil => simp at hlen
    | cons v vs =>
      cases d with
      | zero => simp [assocFind, getD_cons_zero]
      | succ d =>
        have hdlt : d < ns.length := by simpa using hd
        have hne : k ≠ ns.getD d [] := by
          intro hkey
          exact (List.nodup_cons.1 hn).1 (hkey ▸ getD_mem ns d [] hdlt)
        simp only [List.zip_cons_cons, assocFind, getD_cons_succ, if_neg hne]
        exact ih vs (List.nodup_cons.1 hn).2 d hdlt (by simpa using hlen)

theorem assocFind_not_mem {α : Type} (ns : List (List Nat)) (vs : List α) (key : List Nat)
    (h : key ∉ ns) : assocFind (ns.zip vs) key = none := by
  induction ns generalizing vs with
  | nil => simp [assocFind]
  | cons k ns ih =>
    cases vs with
    | nil => simp [assocFind]
    | cons v vs =>
      have hne : k ≠ key := fun hk => h (hk ▸ List.mem_cons_self k ns)
      simp only [List.zip_cons_cons, assocFind, if_neg hne]
      exact ih vs (fun h2 => h (List.mem_cons_of_mem k h2))

/-- Under the invariant, the hash-table lookup agrees with first-match
association lookup on the dense entries, for every key. -/
theorem table_lookup_agrees {ν : Type} (t : JObjT ν) (hinv : TInv t) (key : List Nat) :
    json_object_getn_value t key = assocFind (ENTRIES t) key := by
  by_cases hmem : key ∈ t.names
  · obtain ⟨d, hd, hkey⟩ := mem_getD_index t.names key [] hmem
    have hhash : hash_string key = t.hashes.getD d 0 := by
      rw [hinv.hash_ok d hd, hkey]
    unfold json_object_getn_value
    rw [hhash, ← hkey, get_cell_ix_found t hinv d hd]
    dsimp only
    rw [hinv.cells_cx d hd]
    dsimp only
    unfold ENTRIES
    rw [assocFind_zip_at t.names t.values hinv.names_nodup d hd hinv.len_v]
  · unfold ENTRIES
    rw [assocFind_not_mem t.names t.values key hmem]
    unfold json_object_getn_value
    rcases get_cell_ix_absent t hinv key hmem (hash_string key) with ⟨e, he⟩ | he <;>
      rw [he]

/-! ### Insertion preserves the invariant -/

theorem get?_set_self {α : Type} (l : List α) (i : Nat) (a : α) (h : i < l.length) :
    (l.set i a).get? i = some a := by
  rw [get?_eq_some_getD (l.set i a) i a (by simpa using h)]
  rw [getD_set_self l i a a h]

theorem assocFind_append {α : Type} (es fs : List (List Nat × α)) (key : List Nat) :
    assocFind (es ++ fs) key
      = match assocFind es key with
        | some v => some v
        | none => assocFind fs key := by
  induction es with
  | nil => simp [assocFind]
  | cons kv es ih =>
    obtain ⟨k, v⟩ := kv
    by_cases hk : k = key
    · simp [assocFind, hk]
    · simpa [assocFind, hk] using ih

theorem assocFind_zip_set_ne {α : Type} (ns : List (List Nat)) (vs : List α) (d : Nat)
    (v : α) (k2 : List Nat) (hne : ns.getD d [] ≠ k2) :
    assocFind (ns.zip (vs.set d v)) k2 = assocFind (ns.zip vs) k2 := by
  induction ns generalizing vs d with
  | nil => simp
  | cons k ns ih =>
    cases vs with
    | nil => simp
    | cons v0 vs =>
      cases d with
      | zero =>
        rw [getD_cons_zero] at hne
        simp [assocFind, if_neg hne]
      | succ d =>
        rw [getD_cons_succ] at hne
        by_cases hk : k = k2
        · simp [assocFind, hk]
        · simp only [List.set, List.zip_cons_cons, assocFind, if_neg hk]
          exact ih vs d hne

theorem nodup_append_singleton {α : Type} (l : List α) (a : α) (hl : l.Nodup)
    (ha : a ∉ l) : (l ++ [a]).Nodup := by
  simp [List.nodup_append, hl, ha]

/-- The slot-claim of `json_object_add` / `json_object_set_value` preserves
the invariant when the key is fresh and the scan reported the empty slot
`e`. -/
theorem tableClaim_inv {ν : Type} (t : JObjT ν) (hinv : TInv t) (key : List Nat) (v : ν)
    (e : Nat) (hkmem : key ∉ t.names) (hkvalid : 0 ∉ key)
    (hcount : t.names.length < t.item_capacity)
    (hres : json_object_get_cell_ix t key (hash_string key) = .emptyAt e) :
    TInv (tableClaim t e key v (hash_string key)) := by
  have hcap : 0 < t.cells.length := by
    rcases hinv.cap_pow with h0 | ⟨m, _, hm⟩
    · rw [hinv.icap, h0] at hcount
      omega
    · rw [hm]
      exact Nat.pos_pow_of_pos m (by omega)
  have hpow : ∃ m, t.cells.length = 2 ^ m := by
    rcases hinv.cap_pow with h0 | ⟨m, _, hm⟩
    · omega
    · exact ⟨m, hm⟩
  obtain ⟨helt, hempty, hrun⟩ := get_cell_ix_empty t hpow hcap key (hash_string key) e hres
  have hcxne : ∀ d, d < t.names.length → t.cell_ixs.getD d 0 ≠ e := by
    intro d hd habs
    have := hinv.cells_cx d hd
    rw [habs, hempty] at this
    exact Option.noConfusion this
  refine ⟨?_, ?_, ?_, ?_, ?_, ?_, ?_, ?_, ?_, ?_, ?_, ?_, ?_⟩
  · simpa [tableClaim] using hinv.cap_pow
  · simpa [tableClaim] using hinv.icap
  · simp [tableClaim, hinv.len_h]
  · simp [tableClaim, hinv.len_v]
  · simp [tableClaim, hinv.len_cx]
  · simp only [tableClaim, List.length_append, List.length_singleton]
    omega
  · intro d hd
    simp only [tableClaim, List.length_append, List.length_singleton] at hd
    by_cases hdc : d < t.names.length
    · have hb1 : d < t.hashes.length := by rw [hinv.len_h]; omega
      simp only [tableClaim]
      rw [getD_append_left t.hashes _ d 0 hb1, getD_append_left t.names _ d [] (by omega)]
      exact hinv.hash_ok d hdc
    · have hde : d = t.names.length := by omega
      subst hde
      simp only [tableClaim]
      rw [getD_append_len t.names key []]
      rw [show t.names.length = t.hashes.length from hinv.len_h.symm]
      rw [getD_append_len t.hashes (hash_string key) 0]
  · intro d hd
    simp only [tableClaim, List.length_append, List.length_singleton] at hd
    simp only [tableClaim, List.length_set]
    by_cases hdc : d < t.names.length
    · rw [getD_append_left t.cell_ixs _ d 0 (by rw [hinv.len_cx]; omega)]
      exact hinv.cx_lt d hdc
    · have hde : d = t.names.length := by omega
      subst hde
      rw [show t.names.length = t.cell_ixs.length from hinv.len_cx.symm]
      rw [getD_append_len t.cell_ixs e 0]
      exact helt
  · intro d hd
    simp only [tableClaim, List.length_append, List.length_singleton] at hd
    simp only [tableClaim]
    by_cases hdc : d < t.names.length
    · rw [getD_append_left t.cell_ixs _ d 0 (by rw [hinv.len_cx]; omega)]
      rw [getD_set_ne _ _ _ _ _ (fun habs => hcxne d hdc habs.symm)]
      exact hinv.cells_cx d hdc
    · have hde : d = t.names.length := by omega
      subst hde
      rw [show t.names.length = t.cell_ixs.length from hinv.len_cx.symm]
      rw [getD_append_len t.cell_ixs e 0]
      rw [getD_set_self t.cells e _ none helt]
  · intro c hc d hcell
    simp only [tableClaim, List.length_set] at hc
    simp only [tableClaim] at hcell
    simp only [tableClaim, List.length_append, List.length_singleton]
    by_cases hce : c = e
    · subst hce
      rw [getD_set_self _ _ _ _ helt] at hcell
      cases hcell
      constructor
      · omega
      · rw [show t.names.length = t.cell_ixs.length from hinv.len_cx.symm]
        rw [getD_append_len t.cell_ixs c 0]
    · rw [getD_set_ne _ _ _ _ _ (fun habs => hce habs.symm)] at hcell
      obtain ⟨hd1, hd2⟩ := hinv.cx_cells c hc d hcell
      constructor
      · omega
      · rw [getD_append_left t.cell_ixs _ d 0 (by rw [hinv.len_cx]; omega)]
        exact hd2
  · intro d hd x hx hchain
    simp only [tableClaim, List.length_append, List.length_singleton] at hd
    simp only [tableClaim, List.length_set] at hx hchain ⊢
    by_cases hxe : x = e
    · subst hxe
      rw [getD_set_self _ _ _ _ helt]
      simp
    · rw [getD_set_ne _ _ _ _ _ (fun habs => hxe habs.symm)]
      by_cases hdc : d < t.names.length
      · apply hinv.reach d hdc x hx
        unfold inCircIcc homeOf at hchain ⊢
        rw [getD_append_left t.hashes _ d 0 (by rw [hinv.len_h]; omega)] at hchain
        rw [getD_append_left t.cell_ixs _ d 0 (by rw [hinv.len_cx]; omega)] at hchain
        simp only [tableClaim, List.length_set] at hchain
        exact hchain
      · have hde : d = t.names.length := by omega
        subst hde
        unfold inCircIcc homeOf at hchain
        rw [show t.names.length = t.hashes.length from hinv.len_h.symm] at hchain
        rw [getD_append_len t.hashes (hash_string key) 0] at hchain
        rw [show t.hashes.length = t.cell_ixs.length by rw [hinv.len_h, hinv.len_cx]]
            at hchain
        rw [getD_append_len t.cell_ixs e 0] at hchain
        simp only [List.length_set] at hchain
        apply hrun x hx
        have hxne : x ≠ e := hxe
        have hne2 : cdist t.cells.length (hash_string key % t.cells.length) x
            ≠ cdist t.cells.length (hash_string key % t.cells.length) e := by
          intro habs
          apply hxne
          have hx2 := scan_cdist t.cells.length (hash_string key % t.cells.length) x
            (Nat.mod_lt _ hcap) hx
          have he2 := scan_cdist t.cells.length (hash_string key % t.cells.length) e
            (Nat.mod_lt _ hcap) helt
          rw [← hx2, ← he2, habs]
        omega
  · exact nodup_append_singleton t.names key hinv.names_nodup hkmem
  · intro k hk
    simp only [tableClaim] at hk
    rcases List.mem_append.1 hk with h2 | h2
    · exact hinv.names_valid k h2
    · rw [List.mem_singleton.1 h2]
      exact hkvalid

/-! ### Effect of add, grow and set-value on the entries -/

theorem init_inv {ν : Type} (capacity : Nat)
    (hcap : capacity = 0 ∨ ∃ m, 4 ≤ m ∧ capacity = 2 ^ m) :
    TInv (json_object_init capacity : JObjT ν) := by
  refine ⟨?_, ?_, rfl, rfl, rfl, Nat.zero_le _, ?_, ?_, ?_, ?_, ?_, List.nodup_nil, ?_⟩
  · simpa [json_object_init] using hcap
  · simp [json_object_init]
  · intro d hd
    simp [json_object_init] at hd
  · intro d hd
    simp [json_object_init] at hd
  · intro d hd
    simp [json_object_init] at hd
  · intro c hc d hcell
    simp only [json_object_init, List.length_replicate] at hc
    rw [show (json_object_init capacity : JObjT ν).cells = List.replicate capacity none
      from rfl] at hcell
    rw [getD_replicate_none capacity c hc] at hcell
    exact Option.noConfusion hcell
  · intro d hd
    simp [json_object_init] at hd
  · intro k hk
    simp [json_object_init] at hk

theorem entries_tableClaim {ν : Type} (t : JObjT ν)
    (hlen : t.values.length = t.names.length) (e : Nat) (key : List Nat) (v : ν)
    (h : Nat) : ENTRIES (tableClaim t e key v h) = ENTRIES t ++ [(key, v)] := by
  unfold ENTRIES tableClaim
  dsimp only
  rw [List.zip_append hlen.symm]
  rfl

/-- Under the invariant with spare item capacity, adding a fresh valid key
succeeds and appends the entry, keeping the slot table's size. -/
theorem json_object_add_ok {ν : Type} (fuel : Nat) (t : JObjT ν) (hinv : TInv t)
    (key : List Nat) (v : ν) (hmem : key ∉ t.names) (hvalid : 0 ∉ key)
    (hcount : t.names.length < t.item_capacity) :
    ∃ t2, json_object_add (fuel + 1) t key v = some t2 ∧ TInv t2
      ∧ t2.names = t.names ++ [key] ∧ ENTRIES t2 = ENTRIES t ++ [(key, v)]
      ∧ t2.cells.length = t.cells.length ∧ t2.item_capacity = t.item_capacity := by
  have hcap : 0 < t.cells.length := by
    rcases hinv.cap_pow with h0 | ⟨m, _, hm⟩
    · rw [hinv.icap, h0] at hcount
      omega
    · rw [hm]
      exact Nat.pos_pow_of_pos m (by omega)
  have hpow : ∃ m, t.cells.length = 2 ^ m := by
    rcases hinv.cap_pow with h0 | ⟨m, _, hm⟩
    · omega
    · exact ⟨m, hm⟩
  have hcnt : t.names.length < t.cells.length := by
    have h1 := hinv.icap
    omega
  rcases get_cell_ix_absent t hinv key hmem (hash_string key) with ⟨e, he⟩ | he
  · refine ⟨tableClaim t e key v (hash_string key), ?_,
      tableClaim_inv t hinv key v e hmem hvalid hcount he, rfl,
      entries_tableClaim t hinv.len_v e key v _, by simp [tableClaim], rfl⟩
    rw [json_object_add]
    dsimp only
    rw [he]
    dsimp only
    rw [if_neg (by omega)]
    rfl
  · exact absurd he (get_cell_ix_ne_invalid t hinv hpow hcap hcnt key _)

/-- Re-inserting a list of fresh entries one by one preserves the invariant
and appends the entries in order. -/
theorem rehashFold_ok {ν : Type} (fuel : Nat) (es : List (List Nat × ν)) :
    ∀ t : JObjT ν, TInv t →
    (∀ p ∈ es, (p : List Nat × ν).1 ∉ t.names ∧ 0 ∉ p.1) →
    (es.map Prod.fst).Nodup →
    t.names.length + es.length ≤ t.item_capacity →
    ∃ t2, rehashFold (json_object_add (fuel + 1)) t es = some t2 ∧ TInv t2
      ∧ t2.names = t.names ++ es.map Prod.fst ∧ ENTRIES t2 = ENTRIES t ++ es
      ∧ t2.cells.length = t.cells.length ∧ t2.item_capacity = t.item_capacity := by
  induction es with
  | nil =>
    intro t hinv _ _ _
    exact ⟨t, rfl, hinv, by simp, by simp, rfl, rfl⟩
  | cons p rest ih =>
    intro t hinv hfresh hnodup hroom
    obtain ⟨k, v⟩ := p
    have hnodup2 : (k :: rest.map Prod.fst).Nodup := by
      simpa only [List.map_cons] using hnodup
    have hnd := List.nodup_cons.1 hnodup2
    obtain ⟨t1, hadd, hinv1, hnames1, hent1, hcap1, hicap1⟩ :=
      json_object_add_ok fuel t hinv k v (hfresh (k, v) (List.mem_cons_self _ _)).1
        (hfresh (k, v) (List.mem_cons_self _ _)).2 (by simp at hroom; omega)
    have hfresh1 : ∀ p ∈ rest, (p : List Nat × ν).1 ∉ t1.names ∧ 0 ∉ p.1 := by
      intro q hq
      refine ⟨?_, (hfresh q (List.mem_cons_of_mem _ hq)).2⟩
      rw [hnames1]
      intro hmem2
      rcases List.mem_append.1 hmem2 with h2 | h2
      · exact (hfresh q (List.mem_cons_of_mem _ hq)).1 h2
      · rw [List.mem_singleton] at h2
        exact hnd.1 (h2 ▸ List.mem_map_of_mem Prod.fst hq)
    obtain ⟨t2, hrest, hinv2, hnames2, hent2, hcap2, hicap2⟩ :=
      ih t1 hinv1 hfresh1 hnd.2
        (by rw [hnames1, hicap1]; simp only [List.length_append, List.length_singleton]
            simp only [List.length_cons] at hroom; omega)
    refine ⟨t2, ?_, hinv2, ?_, ?_, by rw [hcap2, hcap1], by rw [hicap2, hicap1]⟩
    · rw [rehashFold, hadd]
      exact hrest
    · rw [hnames2, hnames1]
      simp
    · rw [hent2, hent1]
      simp

/-- Growing re-creates the table at capacity `max(2C, 16)` with the same
entries in the same order, and leaves spare room both in item capacity and
in the slot table. -/
theorem grow_ok {ν : Type} (fuel : Nat) (t : JObjT ν) (hinv : TInv t)
    (hfull : t.names.length = t.item_capacity) :
    ∃ t2, json_object_grow_and_rehash (fuel + 1) t = some t2 ∧ TInv t2
      ∧ t2.names = t.names ∧ ENTRIES t2 = ENTRIES t
      ∧ t2.names.length < t2.item_capacity
      ∧ t2.names.length < t2.cells.length := by
  have hcapspec : max (t.cells.length * 2) STARTING_CAPACITY = 0
      ∨ ∃ m, 4 ≤ m ∧ max (t.cells.length * 2) STARTING_CAPACITY = 2 ^ m := by
    rcases hinv.cap_pow with h0 | ⟨m, hm4, hm⟩
    · right
      exact ⟨4, le_refl 4, by rw [h0]; rfl⟩
    · right
      refine ⟨m + 1, by omega, ?_⟩
      rw [hm, STARTING_CAPACITY]
      have h16 : (16 : Nat) ≤ 2 ^ m := by
        calc (16 : Nat) = 2 ^ 4 := rfl
        _ ≤ 2 ^ m := Nat.pow_le_pow_right (by omega) hm4
      rw [Nat.max_eq_left (by omega)]
      ring
  have hkeys : (t.names.zip t.values).map Prod.fst = t.names :=
    List.map_fst_zip t.names t.values (le_of_eq hinv.len_v.symm)
  have hfresh0 : ∀ p ∈ t.names.zip t.values,
      (p : List Nat × ν).1 ∉ (json_object_init (max (t.cells.length * 2)
        STARTING_CAPACITY) : JObjT ν).names ∧ 0 ∉ p.1 := by
    intro p hp
    refine ⟨by simp [json_object_init], ?_⟩
    exact hinv.names_valid p.1 (hkeys ▸ List.mem_map_of_mem Prod.fst hp)
  have hlenzip : (t.names.zip t.values).length = t.names.length := by
    rw [List.length_zip, hinv.len_v, Nat.min_self]
  have hroom : (json_object_init (max (t.cells.length * 2) STARTING_CAPACITY)
        : JObjT ν).names.length + (t.names.zip t.values).length
      ≤ (json_object_init (max (t.cells.length * 2) STARTING_CAPACITY)
        : JObjT ν).item_capacity := by
    simp only [json_object_init, List.length_nil, Nat.zero_add, hlenzip]
    rw [hfull, hinv.icap]
    rcases hinv.cap_pow with h0 | ⟨m, hm4, hm⟩
    · rw [h0]
      simp [STARTING_CAPACITY]
    · have h16 : (16 : Nat) ≤ t.cells.length := by
        calc (16 : Nat) = 2 ^ 4 := rfl
        _ ≤ 2 ^ m := Nat.pow_le_pow_right (by omega) hm4
        _ = t.cells.length := hm.symm
      rw [STARTING_CAPACITY, Nat.max_eq_left (by omega)]
      omega
  obtain ⟨t2, hfold, hinv2, hnames2, hent2, hcap2, hicap2⟩ :=
    rehashFold_ok fuel (t.names.zip t.values)
      (json_object_init (max (t.cells.length * 2) STARTING_CAPACITY))
      (init_inv _ hcapspec) hfresh0 (by rw [hkeys]; exact hinv.names_nodup) hroom
  have hnames2t : t2.names = t.names := by
    rw [hnames2, hkeys]
    simp [json_object_init]
  refine ⟨t2, hfold, hinv2, hnames2t, ?_, ?_, ?_⟩
  · rw [hent2]
    simp only [json_object_init]
    rw [show ENTRIES (⟨List.replicate (max (t.cells.length * 2) STARTING_CAPACITY) none,
      [], [], [], [], max (t.cells.length * 2) STARTING_CAPACITY * 7 / 10⟩ : JObjT ν)
      = [] from rfl]
    rfl
  · rw [hnames2t, hicap2, hfull, hinv.icap]
    simp only [json_object_init]
    rcases hinv.cap_pow with h0 | ⟨m, hm4, hm⟩
    · rw [h0]
      simp [STARTING_CAPACITY]
    · have h16 : (16 : Nat) ≤ t.cells.length := by
        calc (16 : Nat) = 2 ^ 4 := rfl
        _ ≤ 2 ^ m := Nat.pow_le_pow_right (by omega) hm4
        _ = t.cells.length := hm.symm
      rw [STARTING_CAPACITY, Nat.max_eq_left (by omega)]
      omega
  · rw [hnames2t, hcap2, hfull, hinv.icap]
    simp only [json_object_init, List.length_replicate]
    rcases hinv.cap_pow with h0 | ⟨m, hm4, hm⟩
    · rw [h0]
      simp [STARTING_CAPACITY]
    · have h16 : (16 : Nat) ≤ t.cells.length := by
        calc (16 : Nat) = 2 ^ 4 := rfl
        _ ≤ 2 ^ m := Nat.pow_le_pow_right (by omega) hm4
        _ = t.cells.length := hm.symm
      rw [STARTING_CAPACITY, Nat.max_eq_left (by omega)]
      omega

theorem assocFind_snoc_fresh {ν : Type} (es : List (List Nat × ν)) (name : List Nat)
    (v : ν) (hmem : assocFind es name = none) (k2 : List Nat) :
    assocFind (es ++ [(name, v)]) k2
      = if k2 = name then some v else assocFind es k2 := by
  rw [assocFind_append]
  by_cases hk : k2 = name
  · subst hk
    rw [hmem, if_pos rfl]
    simp [assocFind]
  · rw [if_neg hk]
    cases hfind : assocFind es k2 with
    | some w => rfl
    | none =>
      simp only [assocFind, if_neg (Ne.symm hk)]

/-- Effect of the table layer of `json_object_set_value` at fuel 2: under the
invariant and for a NUL-free key it always succeeds, preserves the
invariant, overwrites in place on an existing key and appends a fresh key. -/
theorem set_value_effect {ν : Type} (t : JObjT ν) (hinv : TInv t) (name : List Nat)
    (v : ν) (hvalid : 0 ∉ name) :
    ∃ t2, json_object_set_value 2 t name v = some t2 ∧ TInv t2
      ∧ t2.names = (if name ∈ t.names then t.names else t.names ++ [name])
      ∧ ∀ k2, assocFind (ENTRIES t2) k2
          = if k2 = name then some v else assocFind (ENTRIES t) k2 := by
  by_cases hmem : name ∈ t.names
  · obtain ⟨d, hd, hkey⟩ := mem_getD_index t.names name [] hmem
    have hfound : json_object_get_cell_ix t name (hash_string name)
        = .foundAt (t.cell_ixs.getD d 0) := by
      rw [show hash_string name = t.hashes.getD d 0 from by rw [hinv.hash_ok d hd, hkey],
        ← hkey]
      exact get_cell_ix_found t hinv d hd
    refine ⟨{ t with values := t.values.set d v }, ?_, ?_, by rw [if_pos hmem], ?_⟩
    · unfold json_object_set_value
      dsimp only
      rw [hfound]
      dsimp only
      rw [hinv.cells_cx d hd]
    · exact ⟨hinv.cap_pow, hinv.icap, hinv.len_h, by simpa using hinv.len_v, hinv.len_cx,
        hinv.count_le, hinv.hash_ok, hinv.cx_lt, hinv.cells_cx, hinv.cx_cells, hinv.reach,
        hinv.names_nodup, hinv.names_valid⟩
    · intro k2
      by_cases hk : k2 = name
      · subst hk
        rw [if_pos rfl]
        unfold ENTRIES
        dsimp only
        rw [← hkey, assocFind_zip_at t.names (t.values.set d v) hinv.names_nodup d hd
          (by simpa using hinv.len_v)]
        exact get?_set_self t.values d v (by rw [hinv.len_v]; exact hd)
      · rw [if_neg hk]
        unfold ENTRIES
        dsimp only
        exact assocFind_zip_set_ne t.names t.values d v k2 (by rw [hkey]; exact hk ∘ Eq.symm)
  · have habs0 : assocFind (ENTRIES t) name = none := by
      unfold ENTRIES
      exact assocFind_not_mem t.names t.values name hmem
    rcases Nat.lt_or_ge t.names.length t.item_capacity with hlt | hge
    · have hcap : 0 < t.cells.length := by
        rcases hinv.cap_pow with h0 | ⟨m, _, hm⟩
        · rw [hinv.icap, h0] at hlt
          omega
        · rw [hm]
          exact Nat.pos_pow_of_pos m (by omega)
      have hpow : ∃ m, t.cells.length = 2 ^ m := by
        rcases hinv.cap_pow with h0 | ⟨m, _, hm⟩
        · omega
        · exact ⟨m, hm⟩
      have hcnt : t.names.length < t.cells.length := by
        have h1 := hinv.icap
        omega
      rcases get_cell_ix_absent t hinv name hmem (hash_string name) with ⟨e, he⟩ | he
      · refine ⟨tableClaim t e name v (hash_string name), ?_,
          tableClaim_inv t hinv name v e hmem hvalid hlt he,
          by rw [if_neg hmem]; rfl, ?_⟩
        · unfold json_object_set_value
          dsimp only
          rw [he]
          dsimp only
          rw [if_neg (by omega)]
          rfl
        · intro k2
          rw [entries_tableClaim t hinv.len_v e name v _]
          exact assocFind_snoc_fresh (ENTRIES t) name v habs0 k2
      · exact absurd he (get_cell_ix_ne_invalid t hinv hpow hcap hcnt name _)
    · have hfull : t.names.length = t.item_capacity :=
        le_antisymm hinv.count_le hge
      obtain ⟨t2, hgrow, hinv2, hnames2, hent2, hroom2, hcnt2⟩ := grow_ok 1 t hinv hfull
      have hmem2 : name ∉ t2.names := by rw [hnames2]; exact hmem
      have hcap2 : 0 < t2.cells.length := by omega
      have hpow2 : ∃ m, t2.cells.length = 2 ^ m := by
        rcases hinv2.cap_pow with h0 | ⟨m, _, hm⟩
        · omega
        · exact ⟨m, hm⟩
      rcases get_cell_ix_absent t2 hinv2 name hmem2 (hash_string name) with ⟨e, he⟩ | he
      · refine ⟨tableClaim t2 e name v (hash_string name), ?_,
          tableClaim_inv t2 hinv2 name v e hmem2 hvalid hroom2 he, ?_, ?_⟩
        · unfold json_object_set_value
          dsimp only
          rcases get_cell_ix_absent t hinv name hmem (hash_string name) with ⟨e0, he0⟩ | he0
            <;> rw [he0]
          · dsimp only
            rw [if_pos hge, hgrow]
            dsimp only
            rw [he]
            rfl
          · dsimp only
            rw [if_pos hge, hgrow]
            dsimp only
            rw [he]
            rfl
        · rw [show (tableClaim t2 e name v (hash_string name)).names = t2.names ++ [name]
            from rfl, hnames2, if_neg hmem]
        · intro k2
          rw [entries_tableClaim t2 hinv2.len_v e name v _, hent2]
          exact assocFind_snoc_fresh (ENTRIES t) name v habs0 k2
      · exact absurd he (get_cell_ix_ne_invalid t2 hinv2 hpow2 hcap2 hcnt2 name _)


/-! ### Circular-interval arithmetic for the backward-shift loop -/

theorem cdist_comp (cap a b c : Nat) (ha : a < cap) (hb : b < cap) (hc : c < cap)
    (h : cdist cap a b + cdist cap b c < cap) :
    cdist cap a c = cdist cap a b + cdist cap b c := by
  unfold cdist at h ⊢
  split_ifs at h ⊢ <;> omega

theorem cdist_sub (cap a b c : Nat) (ha : a < cap) (hb : b < cap) (hc : c < cap)
    (h : cdist cap a b ≤ cdist cap a c) :
    cdist cap b c = cdist cap a c - cdist cap a b := by
  unfold cdist at h ⊢
  split_ifs at h ⊢ <;> omega

theorem cdist_symm (cap a b : Nat) (ha : a < cap) (hb : b < cap) (hne : a ≠ b) :
    cdist cap a b + cdist cap b a = cap := by
  unfold cdist
  split_ifs <;> omega

theorem cdist_succ (cap a b : Nat) (ha : a < cap) (hb : b < cap)
    (h : cdist cap a b < cap - 1) : cdist cap a ((b + 1) % cap) = cdist cap a b + 1 := by
  rcases Nat.lt_or_ge (b + 1) cap with hb1 | hb1
  · rw [Nat.mod_eq_of_lt hb1]
    unfold cdist at h ⊢
    split_ifs at h ⊢ <;> omega
  · have hbe : b + 1 = cap := by omega
    rw [hbe, Nat.mod_self]
    unfold cdist at h ⊢
    split_ifs at h ⊢ <;> omega

/-- The loop condition of the backward-shift repair is exactly the statement
that the entry's home slot `k` lies outside the circular interval
`(i, j2]`. -/
theorem shift_cond_iff (cap i j2 k : Nat) (hi : i < cap) (hj : j2 < cap) (hk : k < cap)
    (hne : j2 ≠ i) :
    ((j2 > i ∧ (k ≤ i ∨ k > j2)) ∨ (j2 < i ∧ k ≤ i ∧ k > j2))
      ↔ ¬ inCircIoc cap i j2 k := by
  unfold inCircIoc cdist
  split_ifs <;> omega

theorem cdist_right_cancel (cap h a b : Nat) (hh : h < cap) (ha : a < cap) (hb : b < cap)
    (he : cdist cap h a = cdist cap h b) : a = b := by
  unfold cdist at he
  split_ifs at he <;> omega

/-- A full slot table is impossible while the entry count respects the load
factor: the off-hole slots embed into the dense entries. -/
theorem shift_full_absurd (cap cnt : Nat) (cells : List (Option Nat)) (cxs : List Nat)
    (i : Nat) (hcap : 0 < cap) (hcnt : cnt + 1 ≤ cap * 7 / 10) (hi : i < cap)
    (hocc : ∀ s, s < cap → cells.getD s none ≠ none)
    (hcx : ∀ c, c < cap → c ≠ i → ∀ e, cells.getD c none = some e →
      e < cnt ∧ cxs.getD e 0 = c) : False := by
  have hmaps : ∀ c ∈ (Finset.range cap).erase i,
      (cells.getD c none).getD 0 ∈ Finset.range cnt := by
    intro c hc
    rw [Finset.mem_erase, Finset.mem_range] at hc
    rw [Finset.mem_range]
    cases hcell : cells.getD c none with
    | none => exact absurd hcell (hocc c hc.2)
    | some e => simpa using (hcx c hc.2 hc.1 e hcell).1
  have hinj : Set.InjOn (fun c => (cells.getD c none).getD 0)
      ((Finset.range cap).erase i) := by
    intro c1 hc1 c2 hc2 heq
    have h1 := Finset.mem_coe.1 hc1
    have h2 := Finset.mem_coe.1 hc2
    rw [Finset.mem_erase, Finset.mem_range] at h1 h2
    cases hcell1 : cells.getD c1 none with
    | none => exact absurd hcell1 (hocc c1 h1.2)
    | some e1 =>
      cases hcell2 : cells.getD c2 none with
      | none => exact absurd hcell2 (hocc c2 h2.2)
      | some e2 =>
        simp only [hcell1, hcell2, Option.getD_some] at heq
        subst heq
        have g1 := (hcx c1 h1.2 h1.1 e1 hcell1).2
        have g2 := (hcx c2 h2.2 h2.1 e1 hcell2).2
        omega
  have hcard := Finset.card_le_card_of_injOn _ hmaps hinj
  rw [Finset.card_erase_of_mem (Finset.mem_range.2 hi), Finset.card_range,
    Finset.card_range] at hcard
  omega

theorem shiftLoop_step_empty (hashes : List Nat) (cap : Nat) (hpow : ∃ m, cap = 2 ^ m)
    (cells : List (Option Nat)) (cxs : List Nat) (i j x : Nat)
    (hc : cells.getD ((j + 1) % cap) none = none) :
    shiftLoop hashes cap cells cxs i j (x + 1) = (cells, cxs, i) := by
  rw [shiftLoop]
  dsimp only
  rw [mask_eq_mod cap (j + 1) hpow, hc]

theorem shiftLoop_step_move (hashes : List Nat) (cap : Nat) (hpow : ∃ m, cap = 2 ^ m)
    (cells : List (Option Nat)) (cxs : List Nat) (i j x d : Nat)
    (hc : cells.getD ((j + 1) % cap) none = some d)
    (hcond : ((j + 1) % cap > i
        ∧ (hashes.getD d 0 % cap ≤ i ∨ hashes.getD d 0 % cap > (j + 1) % cap))
      ∨ ((j + 1) % cap < i ∧ hashes.getD d 0 % cap ≤ i
        ∧ hashes.getD d 0 % cap > (j + 1) % cap)) :
    shiftLoop hashes cap cells cxs i j (x + 1)
      = shiftLoop hashes cap (cells.set i (some d)) (cxs.set d i) ((j + 1) % cap)
        ((j + 1) % cap) x := by
  rw [shiftLoop]
  dsimp only
  rw [mask_eq_mod cap (j + 1) hpow, hc]
  dsimp only
  rw [mask_eq_mod cap (hashes.getD d 0) hpow]
  rw [if_pos hcond]

theorem shiftLoop_step_stay (hashes : List Nat) (cap : Nat) (hpow : ∃ m, cap = 2 ^ m)
    (cells : List (Option Nat)) (cxs : List Nat) (i j x d : Nat)
    (hc : cells.getD ((j + 1) % cap) none = some d)
    (hcond : ¬ (((j + 1) % cap > i
        ∧ (hashes.getD d 0 % cap ≤ i ∨ hashes.getD d 0 % cap > (j + 1) % cap))
      ∨ ((j + 1) % cap < i ∧ hashes.getD d 0 % cap ≤ i
        ∧ hashes.getD d 0 % cap > (j + 1) % cap))) :
    shiftLoop hashes cap cells cxs i j (x + 1)
      = shiftLoop hashes cap cells cxs i ((j + 1) % cap) x := by
  rw [shiftLoop]
  dsimp only
  rw [mask_eq_mod cap (j + 1) hpow, hc]
  dsimp only
  rw [mask_eq_mod cap (hashes.getD d 0) hpow]
  rw [if_neg hcond]

/-- An empty scan cell ends the repair: the invariant then shows no
surviving probe run crosses the hole. -/
theorem shiftOut_of_empty (hashes : List Nat) (cap cell cnt : Nat) (hcap : 0 < cap)
    (cells : List (Option Nat)) (cxs : List Nat) (i j x : Nat)
    (inv : ShiftInv hashes cap cell cnt cells cxs i j (x + 1))
    (hc : cells.getD ((j + 1) % cap) none = none) :
    ShiftOut hashes cap cnt cells cxs i := by
  have hJlt : (j + 1) % cap < cap := Nat.mod_lt _ hcap
  have hcdij : cdist cap i j < cap - 1 := by
    have h1 := cdist_sub cap cell i j inv.hcell inv.hi inv.hj inv.hij
    have h2 := inv.hpos
    have h3 := inv.hx
    omega
  have hcdiJ : cdist cap i ((j + 1) % cap) = cdist cap i j + 1 :=
    cdist_succ cap i j inv.hi inv.hj hcdij
  refine ⟨inv.len_cells, inv.len_cxs, inv.hi, inv.hole, inv.cx_lt, inv.cells_cx,
    inv.cx_cells, ?_⟩
  intro e he y hy hrun
  refine ⟨?_, inv.reach e he y hy hrun⟩
  intro hyi
  subst hyi
  have hs := inv.cx_lt e he
  have hh : hashes.getD e 0 % cap < cap := Nat.mod_lt _ hcap
  have hja := inv.ahead e he hrun
  unfold inCircIcc at hrun
  have h1 := cdist_sub cap (hashes.getD e 0 % cap) y (cxs.getD e 0) hh hy hs hrun
  have h2 := cdist_lt cap (hashes.getD e 0 % cap) (cxs.getD e 0) hh hs
  have h4 := cdist_comp cap (hashes.getD e 0 % cap) y ((j + 1) % cap) hh hy hJlt
    (by omega)
  exact inv.reach e he ((j + 1) % cap) hJlt (by unfold inCircIcc; omega) hc

/-- Moving the scanned entry into the hole keeps the loop invariant, with the
hole re-established at the scanned slot. -/
theorem shiftInv_move (hashes : List Nat) (cap cell cnt : Nat) (hcap : 0 < cap)
    (cells : List (Option Nat)) (cxs : List Nat) (i j x d : Nat)
    (inv : ShiftInv hashes cap cell cnt cells cxs i j (x + 1))
    (hc : cells.getD ((j + 1) % cap) none = some d)
    (hnotin : ¬ inCircIoc cap i ((j + 1) % cap) (hashes.getD d 0 % cap)) :
    ShiftInv hashes cap cell cnt (cells.set i (some d)) (cxs.set d i)
      ((j + 1) % cap) ((j + 1) % cap) x := by
  have hcap2 : 2 ≤ cap := by have h1 := inv.hx; omega
  have hcdj : cdist cap cell j < cap - 1 := by
    have h1 := inv.hpos
    have h2 := inv.hx
    omega
  have hJlt : (j + 1) % cap < cap := Nat.mod_lt _ hcap
  have hcdJ : cdist cap cell ((j + 1) % cap) = cdist cap cell j + 1 :=
    cdist_succ cap cell j inv.hcell inv.hj hcdj
  have hJne_i : (j + 1) % cap ≠ i := by
    intro habs
    have h3 := inv.hij
    rw [← habs] at h3
    omega
  obtain ⟨hdlt, hdcx⟩ := inv.cx_cells ((j + 1) % cap) hJlt hJne_i d hc
  have hklt : hashes.getD d 0 % cap < cap := Nat.mod_lt _ hcap
  have hole2 : ∀ e, e < cnt → (cxs.set d i).getD e 0 ≠ (j + 1) % cap := by
    intro e he
    by_cases hed : e = d
    · subst hed
      rw [getD_set_self cxs e i 0 (by rw [inv.len_cxs]; exact he)]
      exact Ne.symm hJne_i
    · rw [getD_set_ne cxs d e i 0 (fun h2 => hed h2.symm)]
      intro habs
      have h4 := inv.cells_cx e he
      rw [habs, hc] at h4
      exact hed (Option.some.inj h4).symm
  have hcx_lt2 : ∀ e, e < cnt → (cxs.set d i).getD e 0 < cap := by
    intro e he
    by_cases hed : e = d
    · subst hed
      rw [getD_set_self cxs e i 0 (by rw [inv.len_cxs]; exact he)]
      exact inv.hi
    · rw [getD_set_ne cxs d e i 0 (fun h2 => hed h2.symm)]
      exact inv.cx_lt e he
  refine ⟨by simpa using inv.len_cells, by simpa using inv.len_cxs, inv.hcell, hJlt,
    hJlt, ?_, by have h5 := inv.hx; omega, le_refl _, hole2, hcx_lt2, ?_, ?_, ?_, ?_,
    ?_, ?_, ?_⟩
  · rw [hcdJ, inv.hpos]
    have h5 := inv.hx
    omega
  · intro e he
    by_cases hed : e = d
    · subst hed
      rw [getD_set_self cxs e i 0 (by rw [inv.len_cxs]; exact he)]
      rw [getD_set_self cells i (some e) none (by rw [inv.len_cells]; exact inv.hi)]
    · rw [getD_set_ne cxs d e i 0 (fun h2 => hed h2.symm)]
      rw [getD_set_ne cells i (cxs.getD e 0) (some d) none
        (fun h2 => inv.hole e he h2.symm)]
      exact inv.cells_cx e he
  · intro c hclt hcne e hcell
    by_cases hci : c = i
    · rw [hci] at hcell ⊢
      rw [getD_set_self cells i (some d) none (by rw [inv.len_cells]; exact inv.hi)]
        at hcell
      obtain rfl := Option.some.inj hcell
      refine ⟨hdlt, ?_⟩
      rw [getD_set_self cxs d i 0 (by rw [inv.len_cxs]; exact hdlt)]
    · rw [getD_set_ne cells i c (some d) none (fun h2 => hci h2.symm)] at hcell
      obtain ⟨he1, he2⟩ := inv.cx_cells c hclt hci e hcell
      have hed : e ≠ d := by
        intro h2
        rw [h2, hdcx] at he2
        exact hcne he2.symm
      refine ⟨he1, ?_⟩
      rw [getD_set_ne cxs d e i 0 (fun h2 => hed h2.symm)]
      exact he2
  · rw [getD_set_ne cells i ((j + 1) % cap) (some d) none (Ne.symm hJne_i), hc]
    intro h2
    exact Option.noConfusion h2
  · intro e he y hy hrun
    by_cases hed : e = d
    · subst hed
      rw [getD_set_self cxs e i 0 (by rw [inv.len_cxs]; exact he)] at hrun
      by_cases hyi : y = i
      · subst hyi
        rw [getD_set_self cells y (some e) none (by rw [inv.len_cells]; exact hy)]
        intro h2
        exact Option.noConfusion h2
      · rw [getD_set_ne cells i y (some e) none (fun h2 => hyi h2.symm)]
        apply inv.reach e he y hy
        rw [hdcx]
        unfold inCircIcc at hrun ⊢
        unfold inCircIoc at hnotin
        push_neg at hnotin
        by_cases hki : hashes.getD e 0 % cap = i
        · rw [hki] at hrun
          rw [cdist_self] at hrun
          have h0 : cdist cap i y = 0 := by omega
          exact absurd ((cdist_eq_zero_iff cap i y inv.hi hy).1 h0).symm hyi
        · have hk0 : 0 < cdist cap i (hashes.getD e 0 % cap) := by
            rcases Nat.eq_zero_or_pos (cdist cap i (hashes.getD e 0 % cap)) with h0 | h0
            · exact absurd ((cdist_eq_zero_iff cap i _ inv.hi hklt).1 h0).symm hki
            · exact h0
          have hkJ := hnotin hk0
          have hsym := cdist_symm cap (hashes.getD e 0 % cap) i hklt inv.hi hki
          have hcomp := cdist_comp cap (hashes.getD e 0 % cap) i ((j + 1) % cap)
            hklt inv.hi hJlt (by omega)
          omega
    · rw [getD_set_ne cxs d e i 0 (fun h2 => hed h2.symm)] at hrun
      have hold := inv.reach e he y hy hrun
      by_cases hyi : y = i
      · subst hyi
        rw [getD_set_self cells y (some d) none (by rw [inv.len_cells]; exact hy)]
        intro h2
        exact Option.noConfusion h2
      · rw [getD_set_ne cells i y (some d) none (fun h2 => hyi h2.symm)]
        exact hold
  · intro e he hio
    unfold inCircIoc at hio
    rw [cdist_self] at hio
    exact absurd hio (by omega)
  · intro e he hrun
    rw [cdist_self]
    rcases Nat.eq_zero_or_pos (cdist cap ((j + 1) % cap) ((cxs.set d i).getD e 0))
      with h0 | h0
    · exact absurd ((cdist_eq_zero_iff cap _ _ hJlt (hcx_lt2 e he)).1 h0).symm
        (hole2 e he)
    · exact h0
  · intro s hs hcd
    rw [hcdJ] at hcd
    rcases Nat.lt_or_ge (cdist cap cell s) (cdist cap cell j + 1) with hlt | hge
    · have hold := inv.occ_run s hs (by omega)
      by_cases hsi : s = i
      · subst hsi
        rw [getD_set_self cells s (some d) none (by rw [inv.len_cells]; exact hs)]
        intro h2
        exact Option.noConfusion h2
      · rw [getD_set_ne cells i s (some d) none (fun h2 => hsi h2.symm)]
        exact hold
    · have hsJ : s = (j + 1) % cap := by
        apply cdist_right_cancel cap cell s ((j + 1) % cap) inv.hcell hs hJlt
        rw [hcdJ]
        omega
      rw [hsJ]
      rw [getD_set_ne cells i ((j + 1) % cap) (some d) none (Ne.symm hJne_i)]
      rw [hc]
      intro h2
      exact Option.noConfusion h2

/-- Leaving the scanned entry in place keeps the loop invariant with the
cursor advanced. -/
theorem shiftInv_stay (hashes : List Nat) (cap cell cnt : Nat) (hcap : 0 < cap)
    (cells : List (Option Nat)) (cxs : List Nat) (i j x d : Nat)
    (inv : ShiftInv hashes cap cell cnt cells cxs i j (x + 1))
    (hc : cells.getD ((j + 1) % cap) none = some d)
    (hin : inCircIoc cap i ((j + 1) % cap) (hashes.getD d 0 % cap)) :
    ShiftInv hashes cap cell cnt cells cxs i ((j + 1) % cap) x := by
  have hcap2 : 2 ≤ cap := by have h1 := inv.hx; omega
  have hcdj : cdist cap cell j < cap - 1 := by
    have h1 := inv.hpos
    have h2 := inv.hx
    omega
  have hJlt : (j + 1) % cap < cap := Nat.mod_lt _ hcap
  have hcdJ : cdist cap cell ((j + 1) % cap) = cdist cap cell j + 1 :=
    cdist_succ cap cell j inv.hcell inv.hj hcdj
  have hcdij : cdist cap i j < cap - 1 := by
    have h1 := cdist_sub cap cell i j inv.hcell inv.hi inv.hj inv.hij
    have h2 := inv.hpos
    have h3 := inv.hx
    omega
  have hcdiJ : cdist cap i ((j + 1) % cap) = cdist cap i j + 1 :=
    cdist_succ cap i j inv.hi inv.hj hcdij
  have hklt : hashes.getD d 0 % cap < cap := Nat.mod_lt _ hcap
  refine ⟨inv.len_cells, inv.len_cxs, inv.hcell, inv.hi, hJlt, ?_,
    by have h5 := inv.hx; omega, ?_, inv.hole, inv.cx_lt, inv.cells_cx, inv.cx_cells,
    inv.stale, inv.reach, ?_, ?_, ?_⟩
  · rw [hcdJ, inv.hpos]
    have h5 := inv.hx
    omega
  · rw [hcdJ]
    have h5 := inv.hij
    omega
  · intro e he hio
    unfold inCircIoc at hio
    rcases Nat.lt_or_ge (cdist cap i (cxs.getD e 0)) (cdist cap i ((j + 1) % cap))
      with hlt | hge
    · exact inv.scanned e he (by unfold inCircIoc; omega)
    · have hEJ : cxs.getD e 0 = (j + 1) % cap :=
        cdist_right_cancel cap i _ _ inv.hi (inv.cx_lt e he) hJlt (by omega)
      have hed : e = d := by
        have h2 := inv.cells_cx e he
        rw [hEJ, hc] at h2
        exact (Option.some.inj h2).symm
      subst hed
      rw [hEJ]
      exact hin
  · intro e he hrun
    have hold := inv.ahead e he hrun
    by_cases hEJ : cxs.getD e 0 = (j + 1) % cap
    · exfalso
      have hed : e = d := by
        have h2 := inv.cells_cx e he
        rw [hEJ, hc] at h2
        exact (Option.some.inj h2).symm
      subst hed
      rw [hEJ] at hrun
      unfold inCircIcc at hrun
      unfold inCircIoc at hin
      have hkne_i : hashes.getD e 0 % cap ≠ i := by
        intro h2
        rw [h2, cdist_self] at hin
        omega
      have hsym := cdist_symm cap (hashes.getD e 0 % cap) i hklt inv.hi hkne_i
      have hsub := cdist_sub cap i (hashes.getD e 0 % cap) ((j + 1) % cap)
        inv.hi hklt hJlt hin.2
      have hJcap := cdist_lt cap i ((j + 1) % cap) inv.hi hJlt
      omega
    · have hne2 : cdist cap i (cxs.getD e 0) ≠ cdist cap i ((j + 1) % cap) := by
        intro h2
        exact hEJ (cdist_right_cancel cap i _ _ inv.hi (inv.cx_lt e he) hJlt h2)
      omega
  · intro s hs hcd
    rw [hcdJ] at hcd
    rcases Nat.lt_or_ge (cdist cap cell s) (cdist cap cell j + 1) with hlt | hge
    · exact inv.occ_run s hs (by omega)
    · have hsJ : s = (j + 1) % cap := by
        apply cdist_right_cancel cap cell s ((j + 1) % cap) inv.hcell hs hJlt
        rw [hcdJ]
        omega
      rw [hsJ, hc]
      intro h2
      exact Option.noConfusion h2

/-- The backward-shift loop, started in the invariant, ends in a state where
clearing the returned hole leaves a consistent table. -/
theorem shiftLoop_ok (hashes : List Nat) (cap cell cnt : Nat)
    (hpow : ∃ m, cap = 2 ^ m) (hcap : 0 < cap) (hcnt : cnt + 1 ≤ cap * 7 / 10) :
    ∀ x cells cxs i j, ShiftInv hashes cap cell cnt cells cxs i j x →
      ShiftOut hashes cap cnt (shiftLoop hashes cap cells cxs i j x).1
        (shiftLoop hashes cap cells cxs i j x).2.1
        (shiftLoop hashes cap cells cxs i j x).2.2 := by
  intro x
  induction x with
  | zero =>
    intro cells cxs i j inv
    exfalso
    have hocc : ∀ s, s < cap → cells.getD s none ≠ none := by
      intro s hs
      apply inv.occ_run s hs
      rw [inv.hpos]
      have h1 := cdist_lt cap cell s inv.hcell hs
      omega
    exact shift_full_absurd cap cnt cells cxs i hcap hcnt inv.hi hocc inv.cx_cells
  | succ x ih =>
    intro cells cxs i j inv
    have hcap2 : 2 ≤ cap := by have h1 := inv.hx; omega
    have hJlt : (j + 1) % cap < cap := Nat.mod_lt _ hcap
    have hcdj : cdist cap cell j < cap - 1 := by
      have h1 := inv.hpos
      have h2 := inv.hx
      omega
    have hcdJ : cdist cap cell ((j + 1) % cap) = cdist cap cell j + 1 :=
      cdist_succ cap cell j inv.hcell inv.hj hcdj
    have hJne_i : (j + 1) % cap ≠ i := by
      intro habs
      have h3 := inv.hij
      rw [← habs] at h3
      omega
    cases hc : cells.getD ((j + 1) % cap) none with
    | none =>
      rw [shiftLoop_step_empty hashes cap hpow cells cxs i j x hc]
      exact shiftOut_of_empty hashes cap cell cnt hcap cells cxs i j x inv hc
    | some d =>
      have hklt : hashes.getD d 0 % cap < cap := Nat.mod_lt _ hcap
      have hiff := shift_cond_iff cap i ((j + 1) % cap) (hashes.getD d 0 % cap)
        inv.hi hJlt hklt hJne_i
      by_cases hcond : ((j + 1) % cap > i
          ∧ (hashes.getD d 0 % cap ≤ i ∨ hashes.getD d 0 % cap > (j + 1) % cap))
        ∨ ((j + 1) % cap < i ∧ hashes.getD d 0 % cap ≤ i
          ∧ hashes.getD d 0 % cap > (j + 1) % cap)
      · rw [shiftLoop_step_move hashes cap hpow cells cxs i j x d hc hcond]
        exact ih _ _ _ _
          (shiftInv_move hashes cap cell cnt hcap cells cxs i j x d inv hc
            (hiff.1 hcond))
      · rw [shiftLoop_step_stay hashes cap hpow cells cxs i j x d hc hcond]
        exact ih _ _ _ _
          (shiftInv_stay hashes cap cell cnt hcap cells cxs i j x d inv hc
            (not_not.1 (mt hiff.2 hcond)))

theorem getD_set_dropLast {α : Type} (l : List α) (d : Nat) (x : α) (e : Nat) (dflt : α)
    (he : e + 1 < l.length) :
    ((l.set d x).dropLast).getD e dflt = if e = d then x else l.getD e dflt := by
  rw [getD_dropLast _ _ _ (by simpa using he)]
  by_cases hed : e = d
  · subst hed
    rw [if_pos rfl, getD_set_self l e x dflt (by omega)]
  · rw [if_neg hed, getD_set_ne l d e x dflt (fun h2 => hed h2.symm)]

theorem nodup_of_getD_inj {α : Type} (l : List α) (d0 : α)
    (h : ∀ i j, i < l.length → j < l.length → l.getD i d0 = l.getD j d0 → i = j) :
    l.Nodup := by
  rw [List.nodup_iff_injective_get]
  intro a b hab
  have ha : l.get a = l.getD a.1 d0 := by
    have h2 := get?_eq_some_getD l a.1 d0 a.2
    rw [List.get?_eq_get a.2] at h2
    exact Option.some.inj h2
  have hb : l.get b = l.getD b.1 d0 := by
    have h2 := get?_eq_some_getD l b.1 d0 b.2
    rw [List.get?_eq_get b.2] at h2
    exact Option.some.inj h2
  exact Fin.ext (h a.1 b.1 a.2 b.2 (by rw [← ha, ← hb, hab]))

/-- Pointwise description of the swap-remove compaction: lengths shrink by
one, entry `e` reads through the index map sending `d` to the last entry,
and the slot table is touched only at the last entry's slot. -/
theorem removeCompact_init {ν : Type} [Inhabited ν] (t : JObjT ν) (hinv : TInv t)
    (d : Nat) (hd : d < t.names.length) :
    (removeCompact t d).hashes.length = t.names.length - 1
    ∧ (removeCompact t d).names.length = t.names.length - 1
    ∧ (removeCompact t d).values.length = t.names.length - 1
    ∧ (removeCompact t d).cell_ixs.length = t.names.length - 1
    ∧ (removeCompact t d).cells.length = t.cells.length
    ∧ (removeCompact t d).item_capacity = t.item_capacity
    ∧ (∀ e, e < t.names.length - 1 →
        (removeCompact t d).hashes.getD e 0
          = t.hashes.getD (if e = d then t.names.length - 1 else e) 0
        ∧ (removeCompact t d).names.getD e []
          = t.names.getD (if e = d then t.names.length - 1 else e) []
        ∧ (removeCompact t d).values.getD e default
          = t.values.getD (if e = d then t.names.length - 1 else e) default
        ∧ (removeCompact t d).cell_ixs.getD e 0
          = t.cell_ixs.getD (if e = d then t.names.length - 1 else e) 0)
    ∧ (∀ c, (removeCompact t d).cells.getD c none
        = if d < t.names.length - 1 ∧ c = t.cell_ixs.getD (t.names.length - 1) 0
          then some d else t.cells.getD c none) := by
  unfold removeCompact
  by_cases hdlt : d < t.names.length - 1
  · rw [if_pos hdlt]
    have hcxlast : (t.cell_ixs.set d (t.cell_ixs.getD (t.names.length - 1) 0)).getD d 0
        = t.cell_ixs.getD (t.names.length - 1) 0 :=
      getD_set_self t.cell_ixs d _ 0 (by rw [hinv.len_cx]; omega)
    refine ⟨by simp [hinv.len_h], by simp, by simp [hinv.len_v], by simp [hinv.len_cx],
      by simp, rfl, ?_, ?_⟩
    · intro e he
      dsimp only
      refine ⟨?_, ?_, ?_, ?_⟩
      · rw [getD_set_dropLast t.hashes d _ e 0 (by rw [hinv.len_h]; omega)]
        by_cases hed : e = d <;> simp [hed]
      · rw [getD_set_dropLast t.names d _ e [] (by omega)]
        by_cases hed : e = d <;> simp [hed]
      · rw [getD_set_dropLast t.values d _ e default (by rw [hinv.len_v]; omega)]
        by_cases hed : e = d <;> simp [hed]
      · rw [getD_set_dropLast t.cell_ixs d _ e 0 (by rw [hinv.len_cx]; omega)]
        by_cases hed : e = d <;> simp [hed]
    · intro c
      dsimp only
      rw [hcxlast]
      by_cases hcl : c = t.cell_ixs.getD (t.names.length - 1) 0
      · rw [if_pos ⟨hdlt, hcl⟩, hcl]
        exact getD_set_self t.cells _ _ none (hinv.cx_lt (t.names.length - 1) (by omega))
      · rw [if_neg (fun h2 => hcl h2.2)]
        exact getD_set_ne t.cells _ c _ none (fun h2 => hcl h2.symm)
  · rw [if_neg hdlt]
    refine ⟨by simp [hinv.len_h], by simp, by simp [hinv.len_v], by simp [hinv.len_cx],
      rfl, rfl, ?_, ?_⟩
    · intro e he
      have hed : e ≠ d := by omega
      rw [if_neg hed]
      exact ⟨getD_dropLast t.hashes e 0 (by rw [hinv.len_h]; omega),
        getD_dropLast t.names e [] (by omega),
        getD_dropLast t.values e default (by rw [hinv.len_v]; omega),
        getD_dropLast t.cell_ixs e 0 (by rw [hinv.len_cx]; omega)⟩
    · intro c
      rw [if_neg (fun h2 => hdlt h2.1)]

/-- After swap-remove compaction the backward-shift loop's invariant holds,
with the hole at the removed entry's slot. -/
theorem remove_shiftInv {ν : Type} [Inhabited ν] (t : JObjT ν) (hinv : TInv t) (d : Nat)
    (hd : d < t.names.length) :
    ShiftInv (removeCompact t d).hashes t.cells.length (t.cell_ixs.getD d 0)
      (t.names.length - 1) (removeCompact t d).cells (removeCompact t d).cell_ixs
      (t.cell_ixs.getD d 0) (t.cell_ixs.getD d 0) (t.cells.length - 1) := by
  obtain ⟨lh, ln, lv, lx, lc, lic, hcomp, hcells⟩ := removeCompact_init t hinv d hd
  have hcap : 0 < t.cells.length := cap_pos_of_entry t hinv (by omega)
  have hcell_lt : t.cell_ixs.getD d 0 < t.cells.length := hinv.cx_lt d hd
  have hσlt : ∀ e, e < t.names.length - 1 →
      (if e = d then t.names.length - 1 else e) < t.names.length := by
    intro e he
    by_cases hed : e = d <;> simp [hed] <;> omega
  have hσned : ∀ e, e < t.names.length - 1 →
      (if e = d then t.names.length - 1 else e) ≠ d := by
    intro e he
    by_cases hed : e = d <;> simp [hed] <;> omega
  have hcx_inj : ∀ e1 e2, e1 < t.names.length → e2 < t.names.length →
      t.cell_ixs.getD e1 0 = t.cell_ixs.getD e2 0 → e1 = e2 := by
    intro e1 e2 h1 h2 heq
    have g1 := hinv.cells_cx e1 h1
    have g2 := hinv.cells_cx e2 h2
    rw [heq, g2] at g1
    exact (Option.some.inj g1).symm
  have hhole : ∀ e, e < t.names.length - 1 →
      (removeCompact t d).cell_ixs.getD e 0 ≠ t.cell_ixs.getD d 0 := by
    intro e he habs
    rw [(hcomp e he).2.2.2] at habs
    exact hσned e he (hcx_inj _ d (hσlt e he) hd habs)
  have hcx_lt2 : ∀ e, e < t.names.length - 1 →
      (removeCompact t d).cell_ixs.getD e 0 < t.cells.length := by
    intro e he
    rw [(hcomp e he).2.2.2]
    exact hinv.cx_lt _ (hσlt e he)
  have hcells_cx2 : ∀ e, e < t.names.length - 1 →
      (removeCompact t d).cells.getD ((removeCompact t d).cell_ixs.getD e 0) none
        = some e := by
    intro e he
    by_cases hed : e = d
    · rw [(hcomp e he).2.2.2, if_pos hed, hcells]
      rw [if_pos ⟨by omega, rfl⟩, hed]
    · rw [(hcomp e he).2.2.2, if_neg hed, hcells]
      rw [if_neg (fun h2 => absurd
        (hcx_inj e (t.names.length - 1) (by omega) (by omega) h2.2) (by omega))]
      exact hinv.cells_cx e (by omega)
  have hcx_cells2 : ∀ c, c < t.cells.length → c ≠ t.cell_ixs.getD d 0 →
      ∀ e, (removeCompact t d).cells.getD c none = some e →
        e < t.names.length - 1 ∧ (removeCompact t d).cell_ixs.getD e 0 = c := by
    intro c hc hcne e hcell
    rw [hcells] at hcell
    by_cases hcl : d < t.names.length - 1 ∧ c = t.cell_ixs.getD (t.names.length - 1) 0
    · rw [if_pos hcl] at hcell
      obtain rfl := Option.some.inj hcell
      refine ⟨hcl.1, ?_⟩
      rw [(hcomp d hcl.1).2.2.2, if_pos rfl]
      exact hcl.2.symm
    · rw [if_neg hcl] at hcell
      obtain ⟨he1, he2⟩ := hinv.cx_cells c hc e hcell
      have hed : e ≠ d := fun h2 => hcne (h2 ▸ he2).symm
      have hecnt : e < t.names.length - 1 := by
        rcases Nat.lt_or_ge e (t.names.length - 1) with h3 | h3
        · exact h3
        · have hec : e = t.names.length - 1 := by omega
          rcases Nat.lt_or_ge d (t.names.length - 1) with h4 | h4
          · exact absurd ⟨h4, by rw [← hec]; exact he2.symm⟩ hcl
          · exact absurd (by omega : e = d) hed
      refine ⟨hecnt, ?_⟩
      rw [(hcomp e hecnt).2.2.2, if_neg hed]
      exact he2
  have hstale : (removeCompact t d).cells.getD (t.cell_ixs.getD d 0) none ≠ none := by
    rw [hcells]
    by_cases hcl : d < t.names.length - 1
      ∧ t.cell_ixs.getD d 0 = t.cell_ixs.getD (t.names.length - 1) 0
    · exact absurd (hcx_inj d (t.names.length - 1) hd (by omega) hcl.2) (by omega)
    · rw [if_neg hcl, hinv.cells_cx d hd]
      intro h2
      exact Option.noConfusion h2
  have hreach2 : ∀ e, e < t.names.length - 1 → ∀ y, y < t.cells.length →
      inCircIcc t.cells.length ((removeCompact t d).hashes.getD e 0 % t.cells.length)
        ((removeCompact t d).cell_ixs.getD e 0) y →
      (removeCompact t d).cells.getD y none ≠ none := by
    intro e he y hy hrun
    rw [(hcomp e he).1, (hcomp e he).2.2.2] at hrun
    have hold := hinv.reach _ (hσlt e he) y hy (by unfold homeOf; exact hrun)
    rw [hcells]
    by_cases hcl : d < t.names.length - 1 ∧ y = t.cell_ixs.getD (t.names.length - 1) 0
    · rw [if_pos hcl]
      intro h2
      exact Option.noConfusion h2
    · rw [if_neg hcl]
      exact hold
  refine ⟨lc, lx, hcell_lt, hcell_lt, hcell_lt, ?_, by omega, le_refl _, hhole,
    hcx_lt2, hcells_cx2, hcx_cells2, hstale, hreach2, ?_, ?_, ?_⟩
  · rw [cdist_self]
    omega
  · intro e he hio
    unfold inCircIoc at hio
    rw [cdist_self] at hio
    exact absurd hio (by omega)
  · intro e he hrun
    rw [cdist_self]
    rcases Nat.eq_zero_or_pos (cdist t.cells.length (t.cell_ixs.getD d 0)
      ((removeCompact t d).cell_ixs.getD e 0)) with h0 | h0
    · exact absurd ((cdist_eq_zero_iff _ _ _ hcell_lt (hcx_lt2 e he)).1 h0).symm
        (hhole e he)
    · exact h0
  · intro s hs hcd
    rw [cdist_self] at hcd
    have hs0 : t.cell_ixs.getD d 0 = s :=
      (cdist_eq_zero_iff _ _ _ hcell_lt hs).1 (by omega)
    rw [← hs0]
    exact hstale

theorem remove_absent {ν : Type} [Inhabited ν] (t : JObjT ν) (hinv : TInv t)
    (name : List Nat) (hmem : name ∉ t.names) :
    json_object_remove_internal t name = none := by
  unfold json_object_remove_internal
  rcases get_cell_ix_absent t hinv name hmem (hash_string name) with ⟨e, he⟩ | he <;>
    rw [he]

/-- Effect of `json_object_remove_internal` on a present key: it succeeds,
the invariant is preserved, exactly that key disappears from the entries,
and the capacities are unchanged. -/
theorem remove_effect {ν : Type} [Inhabited ν] (t : JObjT ν) (hinv : TInv t)
    (name : List Nat) (hmem : name ∈ t.names) :
    ∃ t2, json_object_remove_internal t name = some t2 ∧ TInv t2
      ∧ (∀ k2, assocFind (ENTRIES t2) k2
          = if k2 = name then none else assocFind (ENTRIES t) k2)
      ∧ t2.cells.length = t.cells.length ∧ t2.item_capacity = t.item_capacity := by
  obtain ⟨d, hd, hkey⟩ := mem_getD_index t.names name [] hmem
  have hfound : json_object_get_cell_ix t name (hash_string name)
      = .foundAt (t.cell_ixs.getD d 0) := by
    rw [show hash_string name = t.hashes.getD d 0 from by rw [hinv.hash_ok d hd, hkey],
      ← hkey]
    exact get_cell_ix_found t hinv d hd
  have hcells_cell := hinv.cells_cx d hd
  obtain ⟨lh, ln, lv, lx, lc, lic, hcomp, hcells⟩ := removeCompact_init t hinv d hd
  obtain ⟨m, hm4, hm⟩ := cap_spec_of_entry t hinv (by omega)
  have hcap : 0 < t.cells.length := by
    rw [hm]
    exact Nat.pos_pow_of_pos m (by omega)
  have hcnt2 : t.names.length - 1 + 1 ≤ t.cells.length * 7 / 10 := by
    have h1 := hinv.count_le
    have h2 := hinv.icap
    omega
  have hσlt : ∀ e, e < t.names.length - 1 →
      (if e = d then t.names.length - 1 else e) < t.names.length := by
    intro e he
    by_cases hed : e = d <;> simp [hed] <;> omega
  have hσned : ∀ e, e < t.names.length - 1 →
      (if e = d then t.names.length - 1 else e) ≠ d := by
    intro e he
    by_cases hed : e = d <;> simp [hed] <;> omega
  have hnodup1 : (removeCompact t d).names.Nodup := by
    apply nodup_of_getD_inj (removeCompact t d).names []
    intro i j hi hj hij
    rw [ln] at hi hj
    rw [(hcomp i hi).2.1, (hcomp j hj).2.1] at hij
    have hσ := nodup_getD_inj t.names hinv.names_nodup _ _ [] (hσlt i hi) (hσlt j hj) hij
    by_cases hi2 : i = d <;> by_cases hj2 : j = d <;> simp [hi2, hj2] at hσ <;> omega
  have hout := shiftLoop_ok (removeCompact t d).hashes t.cells.length
    (t.cell_ixs.getD d 0) (t.names.length - 1) ⟨m, hm⟩ hcap hcnt2
    (t.cells.length - 1) (removeCompact t d).cells (removeCompact t d).cell_ixs
    (t.cell_ixs.getD d 0) (t.cell_ixs.getD d 0) (remove_shiftInv t hinv d hd)
  set r := shiftLoop (removeCompact t d).hashes t.cells.length (removeCompact t d).cells
    (removeCompact t d).cell_ixs (t.cell_ixs.getD d 0) (t.cell_ixs.getD d 0)
    (t.cells.length - 1) with hr
  have hi_lt : r.2.2 < r.1.length := by
    rw [hout.len_cells]
    exact hout.hi
  refine ⟨{ removeCompact t d with cells := r.1.set r.2.2 none, cell_ixs := r.2.1 },
    ?_, ?_, ?_, ?_, ?_⟩
  · unfold json_object_remove_internal
    rw [hfound]
    dsimp only
    rw [hcells_cell]
    dsimp only
    rw [lc]
  · refine ⟨?_, ?_, ?_, ?_, ?_, ?_, ?_, ?_, ?_, ?_, ?_, ?_, ?_⟩
    · dsimp only
      rw [List.length_set, hout.len_cells]
      exact hinv.cap_pow
    · dsimp only
      rw [List.length_set, hout.len_cells, lic]
      exact hinv.icap
    · dsimp only
      rw [lh, ln]
    · dsimp only
      rw [lv, ln]
    · dsimp only
      rw [hout.len_cxs, ln]
    · dsimp only
      rw [ln, lic]
      have h1 := hinv.count_le
      omega
    · dsimp only
      intro e he
      rw [ln] at he
      rw [(hcomp e he).1, (hcomp e he).2.1]
      exact hinv.hash_ok _ (hσlt e he)
    · dsimp only
      intro e he
      rw [ln] at he
      rw [List.length_set, hout.len_cells]
      exact hout.cx_lt e he
    · dsimp only
      intro e he
      rw [ln] at he
      rw [getD_set_ne r.1 r.2.2 (r.2.1.getD e 0) none none
        (fun h2 => hout.hole e he h2.symm)]
      exact hout.cells_cx e he
    · dsimp only
      intro c hc e hcell
      rw [List.length_set, hout.len_cells] at hc
      by_cases hci : c = r.2.2
      · rw [hci, getD_set_self r.1 r.2.2 none none hi_lt] at hcell
        exact Option.noConfusion hcell
      · rw [getD_set_ne r.1 r.2.2 c none none (fun h2 => hci h2.symm)] at hcell
        obtain ⟨h1, h2⟩ := hout.cx_cells c hc hci e hcell
        refine ⟨?_, h2⟩
        rw [ln]
        exact h1
    · unfold TReach
      dsimp only
      intro e he y hy hrun
      rw [ln] at he
      rw [List.length_set, hout.len_cells] at hy hrun
      unfold homeOf at hrun
      dsimp only at hrun
      rw [List.length_set, hout.len_cells] at hrun
      obtain ⟨hyne, hocc⟩ := hout.reach e he y hy hrun
      rw [getD_set_ne r.1 r.2.2 y none none (fun h2 => hyne h2.symm)]
      exact hocc
    · exact hnodup1
    · dsimp only
      intro k hk
      obtain ⟨e, he, hg⟩ := mem_getD_index (removeCompact t d).names k [] hk
      rw [ln] at he
      rw [(hcomp e he).2.1] at hg
      exact hinv.names_valid k (hg ▸ getD_mem t.names _ [] (hσlt e he))
  · intro k2
    by_cases hk : k2 = name
    · rw [if_pos hk]
      unfold ENTRIES
      dsimp only
      refine assocFind_not_mem _ _ _ ?_
      intro hkmem
      obtain ⟨e, he, hg⟩ := mem_getD_index (removeCompact t d).names k2 [] hkmem
      rw [ln] at he
      rw [(hcomp e he).2.1] at hg
      have hσd := nodup_getD_inj t.names hinv.names_nodup _ d [] (hσlt e he) hd
        (hg.trans (hk.trans hkey.symm))
      exact hσned e he hσd
    · rw [if_neg hk]
      by_cases hkt : k2 ∈ t.names
      · obtain ⟨f, hf, hgf⟩ := mem_getD_index t.names k2 [] hkt
        have hfd : f ≠ d := by
          intro h2
          rw [h2, hkey] at hgf
          exact hk hgf.symm
        have hecnt : (if f = t.names.length - 1 then d else f) < t.names.length - 1 := by
          by_cases hfl : f = t.names.length - 1 <;> simp [hfl] <;> omega
        have hσe : (if (if f = t.names.length - 1 then d else f) = d
            then t.names.length - 1 else (if f = t.names.length - 1 then d else f))
              = f := by
          by_cases hfl : f = t.names.length - 1 <;> simp [hfl] <;> omega
        have hge : (removeCompact t d).names.getD
            (if f = t.names.length - 1 then d else f) [] = k2 := by
          rw [(hcomp _ hecnt).2.1, hσe]
          exact hgf
        unfold ENTRIES
        dsimp only
        have hL : assocFind ((removeCompact t d).names.zip (removeCompact t d).values) k2
            = (removeCompact t d).values.get? (if f = t.names.length - 1 then d else f) := by
          rw [← hge]
          exact assocFind_zip_at _ _ hnodup1 _ (by rw [ln]; exact hecnt) (by rw [lv, ln])
        have hR : assocFind (t.names.zip t.values) k2 = t.values.get? f := by
          rw [← hgf]
          exact assocFind_zip_at _ _ hinv.names_nodup f hf hinv.len_v
        rw [hL, hR]
        rw [get?_eq_some_getD (removeCompact t d).values _ default
          (by rw [lv]; exact hecnt)]
        rw [get?_eq_some_getD t.values f default (by rw [hinv.len_v]; exact hf)]
        rw [(hcomp _ hecnt).2.2.1, hσe]
      · rw [show assocFind (ENTRIES t) k2 = none from by
          unfold ENTRIES
          exact assocFind_not_mem _ _ _ hkt]
        unfold ENTRIES
        dsimp only
        refine assocFind_not_mem _ _ _ ?_
        intro hkmem
        obtain ⟨e, he, hg⟩ := mem_getD_index (removeCompact t d).names k2 [] hkmem
        rw [ln] at he
        rw [(hcomp e he).2.1] at hg
        exact hkt (hg ▸ getD_mem t.names _ [] (hσlt e he))
  · dsimp only
    rw [List.length_set, hout.len_cells]
  · exact lic

/-- Any sequence of valid-key mutations, started from a table satisfying the
invariant, preserves it, and the entries track the functional model. -/
theorem runOps_from {ν : Type} [Inhabited ν] (ops : List (TOp ν)) :
    ∀ (t : JObjT ν) (m : List Nat → Option ν), TInv t →
    (∀ op ∈ ops, ValidKey (TOp.key op)) →
    (∀ k, assocFind (ENTRIES t) k = m k) →
    TInv (ops.foldl applyOp t)
      ∧ ∀ k, assocFind (ENTRIES (ops.foldl applyOp t)) k
          = (ops.foldl
              (fun m2 op =>
                match op with
                | .ins k2 v => fun k3 => if k3 = k2 then some v else m2 k3
                | .del k2 => fun k3 => if k3 = k2 then none else m2 k3) m) k := by
  induction ops with
  | nil =>
    intro t m hinv _ hm
    exact ⟨hinv, by simpa using hm⟩
  | cons op rest ih =>
    intro t m hinv hvalid hm
    cases op with
    | ins k v =>
      obtain ⟨t1, hset, hinv1, hnames1, hfind1⟩ :=
        set_value_effect t hinv k v (hvalid (.ins k v) (List.mem_cons_self _ _))
      have happ : applyOp t (.ins k v) = t1 := by
        unfold applyOp
        dsimp only
        rw [hset]
        rfl
      simp only [List.foldl_cons, happ]
      apply ih t1 _ hinv1 (fun op2 hop => hvalid op2 (List.mem_cons_of_mem _ hop))
      intro k3
      rw [hfind1 k3]
      by_cases hk3 : k3 = k
      · rw [if_pos hk3, if_pos hk3]
      · rw [if_neg hk3, if_neg hk3, hm k3]
    | del k =>
      by_cases hmem : k ∈ t.names
      · obtain ⟨t1, hdel, hinv1, hfind1, _, _⟩ := remove_effect t hinv k hmem
        have happ : applyOp t (.del k) = t1 := by
          unfold applyOp
          dsimp only
          rw [hdel]
          rfl
        simp only [List.foldl_cons, happ]
        apply ih t1 _ hinv1 (fun op2 hop => hvalid op2 (List.mem_cons_of_mem _ hop))
        intro k3
        rw [hfind1 k3]
        by_cases hk3 : k3 = k
        · rw [if_pos hk3, if_pos hk3]
        · rw [if_neg hk3, if_neg hk3, hm k3]
      · have happ : applyOp t (.del k) = t := by
          unfold applyOp
          dsimp only
          rw [remove_absent t hinv k hmem]
          rfl
        simp only [List.foldl_cons, happ]
        apply ih t _ hinv (fun op2 hop => hvalid op2 (List.mem_cons_of_mem _ hop))
        intro k3
        by_cases hk3 : k3 = k
        · rw [if_pos hk3, hk3]
          unfold ENTRIES
          exact assocFind_not_mem _ _ _ hmem
        · rw [if_neg hk3]
          exact hm k3

theorem runOps_inv {ν : Type} [Inhabited ν] (ops : List (TOp ν))
    (hvalid : ∀ op ∈ ops, ValidKey (TOp.key op)) :
    TInv (runOps ops) ∧ ∀ k, assocFind (ENTRIES (runOps ops)) k = modelOf ops k := by
  have h0 : TInv (json_object_init 0 : JObjT ν) := init_inv 0 (Or.inl rfl)
  have hmain := runOps_from ops (json_object_init 0) (fun _ => none) h0 hvalid
    (fun k => rfl)
  unfold runOps modelOf
  exact hmain

/-- C2: for every sequence of inserts and removes on an object's backing
table (the public set-value and remove operations applied to a fresh
object, with NUL-free keys), every remaining entry stays reachable by a
contiguous occupied probe run from its home slot (its cached hash reduced
modulo the power-of-two cell capacity), and lookup agrees with the
functional key-value model: it finds every present key and reports absence
for every removed or never-inserted key. -/
theorem c2_probe_reachability_and_lookup {ν : Type} [Inhabited ν] (ops : List (TOp ν))
    (hvalid : ∀ op ∈ ops, ValidKey (TOp.key op)) :
    TReach (runOps ops)
      ∧ ∀ k, json_object_getn_value (runOps ops) k = modelOf ops k := by
  obtain ⟨hinv, hfind⟩ := runOps_inv ops hvalid
  refine ⟨hinv.reach, ?_⟩
  intro k
  rw [table_lookup_agrees (runOps ops) hinv k]
  exact hfind k

theorem c2_witness :
    TReach (runOps [TOp.ins [97] 1, TOp.del [97], TOp.ins [98] (2 : Nat)])
      ∧ ∀ k, json_object_getn_value
          (runOps [TOp.ins [97] 1, TOp.del [97], TOp.ins [98] (2 : Nat)]) k
        = modelOf [TOp.ins [97] 1, TOp.del [97], TOp.ins [98] (2 : Nat)] k :=
  c2_probe_reachability_and_lookup [TOp.ins [97] 1, TOp.del [97], TOp.ins [98] (2 : Nat)]
    (by intro op hop; fin_cases hop <;> simp [TOp.key, ValidKey])

theorem runOps_names_from {ν : Type} [Inhabited ν] (ops : List (TOp ν)) :
    ∀ t : JObjT ν, TInv t → (∀ op ∈ ops, ValidKey (TOp.key op)) →
    (∀ op ∈ ops, TOp.isIns op = true) →
    (ops.foldl applyOp t).names = insOrderKeys t.names ops := by
  induction ops with
  | nil =>
    intro t _ _ _
    rfl
  | cons op rest ih =>
    intro t hinv hvalid hins
    cases op with
    | ins k v =>
      obtain ⟨t1, hset, hinv1, hnames1, _⟩ :=
        set_value_effect t hinv k v (hvalid _ (List.mem_cons_self _ _))
      have happ : applyOp t (.ins k v) = t1 := by
        unfold applyOp
        dsimp only
        rw [hset]
        rfl
      simp only [List.foldl_cons, happ]
      rw [insOrderKeys]
      rw [ih t1 hinv1 (fun op2 h2 => hvalid op2 (List.mem_cons_of_mem _ h2))
        (fun op2 h2 => hins op2 (List.mem_cons_of_mem _ h2)), hnames1]
    | del k =>
      exact Bool.noConfusion (hins _ (List.mem_cons_self _ _))

/-- C4 counterexample: after inserting the keys a, b, c and removing a, the
iteration order is c then b — the removal moved the last dense entry into
the freed index, so the remaining entries are no longer in insertion
order. -/
theorem c4_counterexample_remove_breaks_order :
    json_object_get_name (runOps [TOp.ins [97] (1 : Nat), TOp.ins [98] 2,
        TOp.ins [99] 3, TOp.del [97]]) 0 = some [99]
      ∧ json_object_get_name (runOps [TOp.ins [97] (1 : Nat), TOp.ins [98] 2,
        TOp.ins [99] 3, TOp.del [97]]) 1 = some [98] := by
  exact ⟨rfl, rfl⟩

/-- C4 (amended): for removal-free mutation sequences with NUL-free keys,
iterating the object by index enumerates the keys in first-insertion
order; a removal may reorder the survivors (see the counterexample). -/
theorem c4_insertion_order_without_removes {ν : Type} [Inhabited ν]
    (ops : List (TOp ν)) (hvalid : ∀ op ∈ ops, ValidKey (TOp.key op))
    (hins : ∀ op ∈ ops, TOp.isIns op = true) :
    (runOps ops).names = insOrderKeys [] ops := by
  have h := runOps_names_from ops (json_object_init 0) (init_inv 0 (Or.inl rfl))
    hvalid hins
  unfold runOps
  exact h

theorem c4_witness :
    (runOps [TOp.ins [97] (1 : Nat), TOp.ins [98] 2, TOp.ins [97] 3]).names
      = insOrderKeys [] [TOp.ins [97] (1 : Nat), TOp.ins [98] 2, TOp.ins [97] 3] :=
  c4_insertion_order_without_removes
    [TOp.ins [97] (1 : Nat), TOp.ins [98] 2, TOp.ins [97] 3]
    (by intro op hop; fin_cases hop <;> simp [TOp.key, ValidKey])
    (by intro op hop; fin_cases hop <;> rfl)

/-- C7: a value already owned by a container cannot be attached to a second
container: `json_array_append_value`, `json_array_replace_value` and
`json_object_set_value` all test the parent pointer before any mutation,
return failure, and leave the heap — in particular both containers —
unchanged. -/
theorem c7_ownership_guard (st : Heap) (vid : Nat)
    (hparent : st.parents.getD vid none ≠ none) :
    (∀ aid, json_array_append_value_h st aid vid = (false, st))
      ∧ (∀ aid ix, json_array_replace_value_h st aid ix vid = (false, st))
      ∧ (∀ oid name, json_object_set_value_h st oid name vid = (false, st)) := by
  refine ⟨?_, ?_, ?_⟩
  · intro aid
    unfold json_array_append_value_h
    rw [if_pos (Or.inr (Or.inr hparent))]
  · intro aid ix
    unfold json_array_replace_value_h
    rw [if_pos (Or.inr (Or.inr (Or.inl hparent)))]
  · intro oid name
    unfold json_object_set_value_h
    rw [if_pos (Or.inr (Or.inr hparent))]

theorem c7_witness :
    (∀ aid, json_array_append_value_h ⟨[some 0], [[0]], []⟩ aid 0
        = (false, ⟨[some 0], [[0]], []⟩))
      ∧ (∀ aid ix, json_array_replace_value_h ⟨[some 0], [[0]], []⟩ aid ix 0
        = (false, ⟨[some 0], [[0]], []⟩))
      ∧ (∀ oid name, json_object_set_value_h ⟨[some 0], [[0]], []⟩ oid name 0
        = (false, ⟨[some 0], [[0]], []⟩)) :=
  c7_ownership_guard ⟨[some 0], [[0]], []⟩ 0 (by decide)

/-! ### String serialization round-trips through the parser -/

theorem hexDigit_range (x : Nat) (h : x < 16) :
    (48 ≤ hexDigit x ∧ hexDigit x ≤ 57) ∨ (97 ≤ hexDigit x ∧ hexDigit x ≤ 102) := by
  unfold hexDigit
  split <;> omega

theorem hex_char_to_int_hexDigit (x : Nat) (h : x < 16) :
    hex_char_to_int (hexDigit x) = (x : Int) := by
  unfold hexDigit hex_char_to_int
  split_ifs <;> omega

theorem serStrBytes_out_nil (esc : Bool) : (serStrBytes esc true []).out = [] := rfl

theorem serStrBytes_out_cons (esc : Bool) (c : Nat) (cs : List Nat) :
    (serStrBytes esc true (c :: cs)).out = escByte esc c ++ (serStrBytes esc true cs).out := by
  simp [serStrBytes, ecat, app, e0]

theorem json_serialize_string_out (esc : Bool) (s : List Nat) :
    (json_serialize_string esc true s).out = 34 :: (serStrBytes esc true s).out ++ [34] := by
  simp [json_serialize_string, ecat, app, e0]

/-- The escape emitted for a control byte parses back to that byte. -/
theorem parse_utf16_escape (c : Nat) (hc : c < 32) (rest : List Nat) :
    parse_utf16 (117 :: 48 :: 48 :: hexDigit (c / 16) :: hexDigit (c % 16) :: rest)
      = some ([c], 5) := by
  interval_cases c <;> simp [parse_utf16, parse_utf16_hex, hex_char_to_int, hexDigit]

theorem sqLoop_quote (tail : List Nat) : sqLoop (34 :: tail) = some tail := by
  rw [sqLoop.eq_def]
  norm_num

theorem sqLoop_backslash (d : Nat) (hd : d ≠ 0) (rest : List Nat) :
    sqLoop (92 :: d :: rest) = sqLoop rest := by
  rw [sqLoop.eq_def]
  norm_num
  intro h2
  exact absurd h2 hd

theorem sqLoop_skip (c : Nat) (h34 : c ≠ 34) (h0 : c ≠ 0) (h92 : c ≠ 92)
    (rest : List Nat) : sqLoop (c :: rest) = sqLoop rest := by
  rw [sqLoop.eq_def]
  dsimp only
  rw [if_neg h34, if_neg h0, if_neg h92]

/-- The closing-quote scan steps over every emitted escape. -/
theorem sqLoop_ser (esc : Bool) (s tail : List Nat) :
    sqLoop ((serStrBytes esc true s).out ++ 34 :: tail) = some tail := by
  induction s with
  | nil =>
    rw [serStrBytes_out_nil, List.nil_append]
    exact sqLoop_quote tail
  | cons c cs ih =>
    rw [serStrBytes_out_cons, List.append_assoc]
    unfold escByte
    by_cases h34 : c = 34
    · rw [if_pos h34]
      simp only [List.cons_append, List.nil_append]
      rw [sqLoop_backslash 34 (by omega)]
      exact ih
    · rw [if_neg h34]
      by_cases h92 : c = 92
      · rw [if_pos h92]
        simp only [List.cons_append, List.nil_append]
        rw [sqLoop_backslash 92 (by omega)]
        exact ih
      · rw [if_neg h92]
        by_cases h8 : c = 8
        · rw [if_pos h8]
          simp only [List.cons_append, List.nil_append]
          rw [sqLoop_backslash 98 (by omega)]
          exact ih
        · rw [if_neg h8]
          by_cases h12 : c = 12
          · rw [if_pos h12]
            simp only [List.cons_append, List.nil_append]
            rw [sqLoop_backslash 102 (by omega)]
            exact ih
          · rw [if_neg h12]
            by_cases h10 : c = 10
            · rw [if_pos h10]
              simp only [List.cons_append, List.nil_append]
              rw [sqLoop_backslash 110 (by omega)]
              exact ih
            · rw [if_neg h10]
              by_cases h13 : c = 13
              · rw [if_pos h13]
                simp only [List.cons_append, List.nil_append]
                rw [sqLoop_backslash 114 (by omega)]
                exact ih
              · rw [if_neg h13]
                by_cases h9 : c = 9
                · rw [if_pos h9]
                  simp only [List.cons_append, List.nil_append]
                  rw [sqLoop_backslash 116 (by omega)]
                  exact ih
                · rw [if_neg h9]
                  by_cases hctl : c < 32
                  · rw [if_pos hctl]
                    have h1r := hexDigit_range (c / 16) (by omega)
                    have h2r := hexDigit_range (c % 16) (by omega)
                    simp only [List.cons_append, List.nil_append]
                    rw [sqLoop_backslash 117 (by omega)]
                    rw [sqLoop_skip 48 (by omega) (by omega) (by omega)]
                    rw [sqLoop_skip 48 (by omega) (by omega) (by omega)]
                    rw [sqLoop_skip (hexDigit (c / 16)) (by omega) (by omega) (by omega)]
                    rw [sqLoop_skip (hexDigit (c % 16)) (by omega) (by omega) (by omega)]
                    exact ih
                  · rw [if_neg hctl]
                    by_cases h47 : c = 47
                    · rw [if_pos h47]
                      by_cases hesc : esc
                      · rw [if_pos hesc]
                        simp only [List.cons_append, List.nil_append]
                        rw [sqLoop_backslash 47 (by omega)]
                        exact ih
                      · rw [if_neg hesc]
                        simp only [List.cons_append, List.nil_append]
                        rw [sqLoop_skip 47 (by omega) (by omega) (by omega)]
                        exact ih
                    · rw [if_neg h47]
                      simp only [List.cons_append, List.nil_append]
                      rw [sqLoop_skip c h34 (by omega) h92]
                      exact ih

theorem psLoop_rem_zero (inp : List Nat) (fuel : Nat) : psLoop inp 0 fuel = some [] := by
  cases fuel with
  | zero =>
    rw [psLoop]
    rw [if_pos (Or.inr rfl)]
  | succ f =>
    rw [psLoop]
    rw [if_pos (Or.inr rfl)]

theorem psLoop_step_bs (x p : Nat)
    (h : ((x = 34 ∨ x = 92 ∨ x = 47) ∧ p = x) ∨ (x = 98 ∧ p = 8) ∨ (x = 102 ∧ p = 12)
      ∨ (x = 110 ∧ p = 10) ∨ (x = 114 ∧ p = 13) ∨ (x = 116 ∧ p = 9))
    (R : List Nat) (rem f : Nat) (hrem : 2 ≤ rem) :
    psLoop (92 :: x :: R) rem (f + 1) = (psLoop R (rem - 2) f).map (p :: ·) := by
  rw [psLoop]
  dsimp only
  rw [if_neg (by rw [peek_cons]; omega)]
  rw [if_pos (by rw [peek_cons])]
  rw [getD_cons_succ, getD_cons_zero]
  rcases h with ⟨hx, hp⟩ | ⟨hx, hp⟩ | ⟨hx, hp⟩ | ⟨hx, hp⟩ | ⟨hx, hp⟩ | ⟨hx, hp⟩ <;>
    subst hp <;> (try subst hx) <;> norm_num <;>
    rcases hx with hx | hx | hx <;> subst hx <;> norm_num

theorem psLoop_step_u (c : Nat) (hc : c < 32) (R : List Nat) (rem f : Nat)
    (hrem : 6 ≤ rem) :
    psLoop (92 :: 117 :: 48 :: 48 :: hexDigit (c / 16) :: hexDigit (c % 16) :: R)
      rem (f + 1) = (psLoop R (rem - 6) f).map (c :: ·) := by
  rw [psLoop]
  dsimp only
  rw [if_neg (by rw [peek_cons]; omega)]
  rw [if_pos (by rw [peek_cons])]
  rw [getD_cons_succ, getD_cons_zero]
  norm_num
  rw [parse_utf16_escape c hc]
  rfl

theorem psLoop_step_plain (c : Nat) (h92 : c ≠ 92) (hctl : ¬ c < 32) (R : List Nat)
    (rem f : Nat) (hrem : 1 ≤ rem) :
    psLoop (c :: R) rem (f + 1) = (psLoop R (rem - 1) f).map (c :: ·) := by
  rw [psLoop]
  dsimp only
  rw [if_neg (by rw [peek_cons]; omega)]
  rw [if_neg (by rw [peek_cons]; exact h92)]
  rw [if_neg (by rw [peek_cons]; exact hctl)]
  rw [peek_cons]
  rfl

/-- Unescaping inverts the serializer's escaping, byte group by byte
group. -/
theorem psLoop_ser (esc : Bool) (s : List Nat) :
    ∀ fuel tail, s.length ≤ fuel →
    psLoop ((serStrBytes esc true s).out ++ tail)
      (serStrBytes esc true s).out.length fuel = some s := by
  induction s with
  | nil =>
    intro fuel tail _
    rw [serStrBytes_out_nil, List.nil_append, List.length_nil]
    exact psLoop_rem_zero tail fuel
  | cons c cs ih =>
    intro fuel tail hfuel
    obtain ⟨f, rfl⟩ : ∃ f, fuel = f + 1 := ⟨fuel - 1, by simp at hfuel; omega⟩
    have hcs : cs.length ≤ f := by simp at hfuel; omega
    rw [serStrBytes_out_cons, List.append_assoc]
    unfold escByte
    by_cases h34 : c = 34
    · rw [if_pos h34]
      simp only [List.cons_append, List.nil_append, List.length_cons]
      rw [psLoop_step_bs 34 c (Or.inl ⟨Or.inl rfl, h34⟩) _ _ f (by omega)]
      rw [show (serStrBytes esc true cs).out.length + 1 + 1 - 2
        = (serStrBytes esc true cs).out.length from by omega]
      rw [ih f tail hcs]
      rfl
    · rw [if_neg h34]
      by_cases h92 : c = 92
      · rw [if_pos h92]
        simp only [List.cons_append, List.nil_append, List.length_cons]
        rw [psLoop_step_bs 92 c (Or.inl ⟨Or.inr (Or.inl rfl), h92⟩) _ _ f (by omega)]
        rw [show (serStrBytes esc true cs).out.length + 1 + 1 - 2
          = (serStrBytes esc true cs).out.length from by omega]
        rw [ih f tail hcs]
        rfl
      · rw [if_neg h92]
        by_cases h8 : c = 8
        · rw [if_pos h8]
          simp only [List.cons_append, List.nil_append, List.length_cons]
          rw [psLoop_step_bs 98 c (Or.inr (Or.inl ⟨rfl, h8⟩)) _ _ f (by omega)]
          rw [show (serStrBytes esc true cs).out.length + 1 + 1 - 2
            = (serStrBytes esc true cs).out.length from by omega]
          rw [ih f tail hcs]
          rfl
        · rw [if_neg h8]
          by_cases h12 : c = 12
          · rw [if_pos h12]
            simp only [List.cons_append, List.nil_append, List.length_cons]
            rw [psLoop_step_bs 102 c (Or.inr (Or.inr (Or.inl ⟨rfl, h12⟩))) _ _ f
              (by omega)]
            rw [show (serStrBytes esc true cs).out.length + 1 + 1 - 2
              = (serStrBytes esc true cs).out.length from by omega]
            rw [ih f tail hcs]
            rfl
          · rw [if_neg h12]
            by_cases h10 : c = 10
            · rw [if_pos h10]
              simp only [List.cons_append, List.nil_append, List.length_cons]
              rw [psLoop_step_bs 110 c (Or.inr (Or.inr (Or.inr (Or.inl ⟨rfl, h10⟩)))) _ _
                f (by omega)]
              rw [show (serStrBytes esc true cs).out.length + 1 + 1 - 2
                = (serStrBytes esc true cs).out.length from by omega]
              rw [ih f tail hcs]
              rfl
            · rw [if_neg h10]
              by_cases h13 : c = 13
              · rw [if_pos h13]
                simp only [List.cons_append, List.nil_append, List.length_cons]
                rw [psLoop_step_bs 114 c
                  (Or.inr (Or.inr (Or.inr (Or.inr (Or.inl ⟨rfl, h13⟩))))) _ _ f (by omega)]
                rw [show (serStrBytes esc true cs).out.length + 1 + 1 - 2
                  = (serStrBytes esc true cs).out.length from by omega]
                rw [ih f tail hcs]
                rfl
              · rw [if_neg h13]
                by_cases h9 : c = 9
                · rw [if_pos h9]
                  simp only [List.cons_append, List.nil_append, List.length_cons]
                  rw [psLoop_step_bs 116 c
                    (Or.inr (Or.inr (Or.inr (Or.inr (Or.inr ⟨rfl, h9⟩))))) _ _ f
                    (by omega)]
                  rw [show (serStrBytes esc true cs).out.length + 1 + 1 - 2
                    = (serStrBytes esc true cs).out.length from by omega]
                  rw [ih f tail hcs]
                  rfl
                · rw [if_neg h9]
                  by_cases hctl : c < 32
                  · rw [if_pos hctl]
                    simp only [List.cons_append, List.nil_append, List.length_cons]
                    rw [psLoop_step_u c hctl _ _ f (by omega)]
                    rw [show (serStrBytes esc true cs).out.length + 1 + 1 + 1 + 1 + 1 + 1
                      - 6 = (serStrBytes esc true cs).out.length from by omega]
                    rw [ih f tail hcs]
                    rfl
                  · rw [if_neg hctl]
                    by_cases h47 : c = 47
                    · rw [if_pos h47]
                      by_cases hesc : esc
                      · rw [if_pos hesc]
                        simp only [List.cons_append, List.nil_append, List.length_cons]
                        rw [psLoop_step_bs 47 c (Or.inl ⟨Or.inr (Or.inr rfl), h47⟩) _ _ f
                          (by omega)]
                        rw [show (serStrBytes esc true cs).out.length + 1 + 1 - 2
                          = (serStrBytes esc true cs).out.length from by omega]
                        rw [ih f tail hcs]
                        rfl
                      · rw [if_neg hesc]
                        simp only [List.cons_append, List.nil_append, List.length_cons]
                        rw [h47]
                        rw [psLoop_step_plain 47 (by omega) (by omega) _ _ f (by omega)]
                        rw [show (serStrBytes esc true cs).out.length + 1 - 1
                          = (serStrBytes esc true cs).out.length from by omega]
                        rw [ih f tail hcs]
                        rfl
                    · rw [if_neg h47]
                      simp only [List.cons_append, List.nil_append, List.length_cons]
                      rw [psLoop_step_plain c h92 hctl _ _ f (by omega)]
                      rw [show (serStrBytes esc true cs).out.length + 1 - 1
                        = (serStrBytes esc true cs).out.length from by omega]
                      rw [ih f tail hcs]
                      rfl

theorem escByte_length_pos (esc : Bool) (c : Nat) : 1 ≤ (escByte esc c).length := by
  unfold escByte
  split_ifs <;> simp

theorem serStrBytes_length_ge (esc : Bool) (s : List Nat) :
    s.length ≤ (serStrBytes esc true s).out.length := by
  induction s with
  | nil => simp [serStrBytes_out_nil]
  | cons c cs ih =>
    rw [serStrBytes_out_cons]
    have h1 := escByte_length_pos esc c
    simp only [List.length_append, List.length_cons]
    omega

/-- A serialized string literal parses back to the original bytes, leaving
the input after the closing quote. -/
theorem get_quoted_string_ser (esc : Bool) (s tail : List Nat) :
    get_quoted_string (34 :: ((serStrBytes esc true s).out ++ 34 :: tail))
      = some (s, tail) := by
  unfold get_quoted_string skip_quotes
  rw [if_neg (by rw [peek_cons]; omega)]
  rw [show (34 :: ((serStrBytes esc true s).out ++ 34 :: tail)).drop 1
    = (serStrBytes esc true s).out ++ 34 :: tail from rfl]
  rw [sqLoop_ser esc s tail]
  dsimp only
  rw [show (34 :: ((serStrBytes esc true s).out ++ 34 :: tail)).length - tail.length - 2
    = (serStrBytes esc true s).out.length from by
      simp only [List.length_cons, List.length_append]
      omega]
  unfold process_string
  rw [psLoop_ser esc s (serStrBytes esc true s).out.length (34 :: tail)
    (serStrBytes_length_ge esc s)]

/-! ### Shape of the compact serializer output -/

theorem serV_out_arr {ν : Type} (fmt : ν → List Nat) (esc : Bool) (xs : List (JVal ν))
    (lvl : Nat) :
    (serV fmt esc true false (.jarr xs) lvl).out
      = 91 :: ((serArrItems fmt esc true false xs lvl).out ++ [93]) := by
  rw [serV]
  simp [app, ecat, e0]

theorem serV_out_obj {ν : Type} (fmt : ν → List Nat) (esc : Bool)
    (es : List (List Nat × JVal ν)) (lvl : Nat) :
    (serV fmt esc true false (.jobj es) lvl).out
      = 123 :: ((serObjItems fmt esc true false es lvl).out ++ [125]) := by
  rw [serV]
  simp [app, ecat, e0]

theorem serArrItems_out_nil {ν : Type} (fmt : ν → List Nat) (esc : Bool) (lvl : Nat) :
    (serArrItems fmt esc true false ([] : List (JVal ν)) lvl).out = [] := rfl

theorem serObjItems_out_nil {ν : Type} (fmt : ν → List Nat) (esc : Bool) (lvl : Nat) :
    (serObjItems fmt esc true false ([] : List (List Nat × JVal ν)) lvl).out = [] := rfl

theorem serArrItems_out_cons {ν : Type} (fmt : ν → List Nat) (esc : Bool) (x : JVal ν)
    (xs : List (JVal ν)) (lvl : Nat) :
    (serArrItems fmt esc true false (x :: xs) lvl).out
      = (serV fmt esc true false x (lvl + 1)).out
        ++ ((if xs.length > 0 then [44] else [])
          ++ (serArrItems fmt esc true false xs lvl).out) := by
  rw [serArrItems]
  by_cases h : xs.length > 0 <;> simp [h, app, ecat, e0]

theorem serObjItems_out_cons {ν : Type} (fmt : ν → List Nat) (esc : Bool)
    (k : List Nat) (v : JVal ν) (es : List (List Nat × JVal ν)) (lvl : Nat) :
    (serObjItems fmt esc true false ((k, v) :: es) lvl).out
      = 34 :: (((serStrBytes esc true (k.takeWhile (· ≠ 0))).out ++ [34])
        ++ (58 :: ((serV fmt esc true false v (lvl + 1)).out
          ++ ((if es.length > 0 then [44] else [])
            ++ (serObjItems fmt esc true false es lvl).out)))) := by
  rw [serObjItems]
  by_cases h : es.length > 0 <;>
    simp [h, app, ecat, e0, json_serialize_string]

/-- The first byte of a serialized value classifies the value; it is never
whitespace, NUL, a comma, a closing bracket or a closing brace. -/
theorem serV_out_head {ν : Type} (fmt : ν → List Nat) (esc : Bool)
    (H3 : ∀ n, (fmt n).headD 0 = 45 ∨ (48 ≤ (fmt n).headD 0 ∧ (fmt n).headD 0 ≤ 57))
    (T : JVal ν) (lvl : Nat) :
    ∃ c r2, (serV fmt esc true false T lvl).out = c :: r2
      ∧ (c = 123 ∨ c = 91 ∨ c = 34 ∨ c = 116 ∨ c = 102 ∨ c = 110 ∨ c = 45
        ∨ (48 ≤ c ∧ c ≤ 57)) := by
  cases T with
  | jnull => exact ⟨110, [117, 108, 108], by rw [serV]; simp [app, e0], by omega⟩
  | jbool b =>
    by_cases hb : (b : Int) = 0
    · refine ⟨102, [97, 108, 115, 101], ?_, by omega⟩
      rw [serV]
      rw [if_neg (by simp [json_value_get_boolean, hb])]
      simp [app, e0]
    · refine ⟨116, [114, 117, 101], ?_, by omega⟩
      rw [serV]
      rw [if_pos (by simp [json_value_get_boolean, hb])]
      simp [app, e0]
  | jnum n =>
    cases hf : fmt n with
    | nil =>
      exfalso
      have h3 := H3 n
      rw [hf] at h3
      simp [List.headD] at h3
    | cons c r2 =>
      refine ⟨c, r2, ?_, ?_⟩
      · rw [serV]
        simp [app, e0, hf]
      · have h3 := H3 n
        rw [hf] at h3
        simp at h3
        omega
  | jstr s =>
    exact ⟨34, (serStrBytes esc true s).out ++ [34],
      by rw [serV]; simp [json_serialize_string_out], by omega⟩
  | jarr xs => exact ⟨91, _, serV_out_arr fmt esc xs lvl, by omega⟩
  | jobj es => exact ⟨123, _, serV_out_obj fmt esc es lvl, by omega⟩

/-! ### Keys -/

theorem nodupKeys_not_contains (A B : List (List Nat)) (x : List Nat)
    (h : nodupKeys (A ++ x :: B) = true) : A.contains x = false := by
  induction A with
  | nil => rfl
  | cons a A ih =>
    rw [List.cons_append, nodupKeys, Bool.and_eq_true] at h
    have h1 : a ∉ A ++ x :: B := by simpa using h.1
    have h2 : x ∉ A := by simpa using ih h.2
    have hax : x ≠ a := by
      intro hax
      exact h1 (by rw [← hax]; exact List.mem_append_right A (List.mem_cons_self x B))
    simpa using ⟨hax, h2⟩

theorem takeWhile_ne_zero_eq (k : List Nat) (h : 0 ∉ k) : k.takeWhile (· ≠ 0) = k := by
  induction k with
  | nil => rfl
  | cons c cs ih =>
    have hc : c ≠ 0 := fun h2 => h (h2 ▸ List.mem_cons_self c cs)
    simp [List.takeWhile_cons, hc]
    intro x hx h2
    exact h (h2 ▸ List.mem_cons_of_mem c hx)

theorem strlenC_eq (k : List Nat) (h : 0 ∉ k) : strlenC k = k.length := by
  unfold strlenC
  rw [takeWhile_ne_zero_eq k h]

theorem objLookup_self {ν : Type} (es : List (List Nat × JVal ν))
    (hnd : nodupKeys (es.map Prod.fst) = true) :
    ∀ p ∈ es, objLookup es p.1 = some p.2 := by
  induction es with
  | nil =>
    intro p hp
    simp at hp
  | cons q es ih =>
    obtain ⟨k, v⟩ := q
    rw [List.map_cons, nodupKeys, Bool.and_eq_true] at hnd
    intro p hp
    rcases List.mem_cons.1 hp with rfl | hp2
    · simp [objLookup]
    · have hkp : k ≠ p.1 := by
        intro h2
        have h3 : p.1 ∈ es.map Prod.fst := List.mem_map_of_mem Prod.fst hp2
        rw [← h2] at h3
        have h4 : k ∉ es.map Prod.fst := by simpa using hnd.1
        exact h4 h3
      rw [show objLookup ((k, v) :: es) p.1
        = if k = p.1 then some v else objLookup es p.1 from rfl, if_neg hkp]
      exact ih hnd.2 p hp2

/-! ### Reflexivity of `json_value_equals` on well-formed trees -/

mutual
theorem jeq_refl_v {ν : Type} (numEq : ν → ν → Bool) (H4 : ∀ n, numEq n n = true)
    (v : JVal ν) : wfV v = true → ∀ fuel, jdepth v + 1 ≤ fuel →
    jeqF numEq fuel (some v) (some v) = true := by
  intro hwf fuel hfuel
  obtain ⟨f, rfl⟩ : ∃ f, fuel = f + 1 := ⟨fuel - 1, by omega⟩
  cases v with
  | jnull =>
    rw [jeqF]
    rw [if_neg (fun h2 => h2 rfl)]
  | jbool b =>
    rw [jeqF]
    rw [if_neg (fun h2 => h2 rfl)]
    simp
  | jnum n =>
    rw [jeqF]
    rw [if_neg (fun h2 => h2 rfl)]
    exact H4 n
  | jstr s =>
    rw [jeqF]
    rw [if_neg (fun h2 => h2 rfl)]
    simp
  | jarr xs =>
    rw [jeqF]
    rw [if_neg (fun h2 => h2 rfl)]
    rw [Bool.and_eq_true]
    refine ⟨by simp, ?_⟩
    apply jeq_refl_l numEq H4 xs (by simpa [wfV] using hwf) f
    simp only [jdepth] at hfuel
    omega
  | jobj es =>
    rw [jeqF]
    rw [if_neg (fun h2 => h2 rfl)]
    rw [Bool.and_eq_true]
    refine ⟨by simp, ?_⟩
    have hw2 : (nodupKeys (es.map Prod.fst) && wfE es) = true := by
      simpa [wfV] using hwf
    rw [Bool.and_eq_true] at hw2
    apply jeq_refl_e numEq H4 es hw2.2 f es
      (by simp only [jdepth] at hfuel; omega)
      (objLookup_self es hw2.1)

theorem jeq_refl_l {ν : Type} (numEq : ν → ν → Bool) (H4 : ∀ n, numEq n n = true)
    (xs : List (JVal ν)) : wfL xs = true → ∀ fuel, jdepthL xs + 1 ≤ fuel →
    jeqL (jeqF numEq fuel) xs xs = true := by
  intro hwf fuel hfuel
  cases xs with
  | nil => rfl
  | cons x xs =>
    rw [show wfL (x :: xs) = (wfV x && wfL xs) from rfl, Bool.and_eq_true] at hwf
    rw [show jeqL (jeqF numEq fuel) (x :: xs) (x :: xs)
      = (jeqF numEq fuel (some x) (some x) && jeqL (jeqF numEq fuel) xs xs) from rfl]
    rw [Bool.and_eq_true]
    simp only [jdepthL] at hfuel
    exact ⟨jeq_refl_v numEq H4 x hwf.1 fuel (by omega),
      jeq_refl_l numEq H4 xs hwf.2 fuel (by omega)⟩

theorem jeq_refl_e {ν : Type} (numEq : ν → ν → Bool) (H4 : ∀ n, numEq n n = true)
    (es : List (List Nat × JVal ν)) : wfE es = true → ∀ fuel
    (esFull : List (List Nat × JVal ν)), jdepthE es + 1 ≤ fuel →
    (∀ p ∈ es, objLookup esFull p.1 = some p.2) →
    jeqE (jeqF numEq fuel) esFull es esFull = true := by
  intro hwf fuel esFull hfuel hlook
  cases es with
  | nil => rfl
  | cons q es =>
    obtain ⟨k, v⟩ := q
    rw [show wfE ((k, v) :: es) = (k.all (· ≠ 0) && wfV v && wfE es) from rfl,
      Bool.and_eq_true, Bool.and_eq_true] at hwf
    rw [show jeqE (jeqF numEq fuel) esFull ((k, v) :: es) esFull
      = (jeqF numEq fuel (objLookup esFull k) (objLookup esFull k)
        && jeqE (jeqF numEq fuel) esFull es esFull) from rfl]
    rw [Bool.and_eq_true]
    rw [hlook (k, v) (List.mem_cons_self _ _)]
    simp only [jdepthE] at hfuel
    exact ⟨jeq_refl_v numEq H4 v hwf.1.2 fuel (by omega),
      jeq_refl_e numEq H4 es hwf.2 fuel esFull (by omega)
        (fun p hp => hlook p (List.mem_cons_of_mem _ hp))⟩
end

/-! ### Object parser step lemmas -/

theorem parse_object_value_empty {ν : Type} (scan : List Nat → Option (ν × Nat))
    (fuel : Nat) (s : List Nat) (n : Nat) (h123 : peek s = 123)
    (h : peek (skipWs s.tail) = 125) :
    parse_object_value scan (fuel + 1) s n
      = some ((.jobj [] : JVal ν), (skipWs s.tail).tail) := by
  rw [parse_object_value]
  simp [h123, h, List.drop_one]

theorem parse_object_value_go {ν : Type} (scan : List Nat → Option (ν × Nat))
    (fuel : Nat) (s : List Nat) (n : Nat) (h123 : peek s = 123)
    (h : peek (skipWs s.tail) ≠ 125) :
    parse_object_value scan (fuel + 1) s n
      = parse_object_loop scan fuel (skipWs s.tail) n [] := by
  rw [parse_object_value]
  simp [h123, h, List.drop_one]

theorem parse_object_loop_last {ν : Type} (scan : List Nat → Option (ν × Nat))
    (fuel : Nat) (s s2 s4 : List Nat) (n : Nat) (acc : List (List Nat × JVal ν))
    (key : List Nat) (v : JVal ν) (h0 : peek s ≠ 0)
    (hkey : get_quoted_string s = some (key, s2)) (hlen : strlenC key = key.length)
    (h58 : peek (skipWs s2) = 58)
    (hpv : parse_value scan fuel ((skipWs s2).tail) n = some (v, s4))
    (hdup : (acc.map Prod.fst).contains key = false) (hc : peek (skipWs s4) ≠ 44) :
    parse_object_loop scan (fuel + 1) s n acc
      = finish_object (skipWs s4) (acc ++ [(key, v)]) := by
  rw [parse_object_loop]
  simp [h0, hkey, hlen, h58, hpv, hdup, hc, List.drop_one]
  intro x hx
  exact absurd (List.mem_map_of_mem Prod.fst hx) (by simpa using hdup)

theorem parse_object_loop_comma {ν : Type} (scan : List Nat → Option (ν × Nat))
    (fuel : Nat) (s s2 s4 : List Nat) (n : Nat) (acc : List (List Nat × JVal ν))
    (key : List Nat) (v : JVal ν) (h0 : peek s ≠ 0)
    (hkey : get_quoted_string s = some (key, s2)) (hlen : strlenC key = key.length)
    (h58 : peek (skipWs s2) = 58)
    (hpv : parse_value scan fuel ((skipWs s2).tail) n = some (v, s4))
    (hdup : (acc.map Prod.fst).contains key = false) (hc : peek (skipWs s4) = 44)
    (hb : peek (skipWs (skipWs s4).tail) ≠ 125) :
    parse_object_loop scan (fuel + 1) s n acc
      = parse_object_loop scan fuel (skipWs (skipWs s4).tail) n (acc ++ [(key, v)]) := by
  rw [parse_object_loop]
  simp [h0, hkey, hlen, h58, hpv, hdup, hc, hb, List.drop_one]
  intro x hx
  exact absurd (List.mem_map_of_mem Prod.fst hx) (by simpa using hdup)

theorem finish_object_ok {ν : Type} (s : List Nat) (acc : List (List Nat × JVal ν))
    (h : peek (skipWs s) = 125) :
    finish_object s acc = some (.jobj acc, (skipWs s).tail) := by
  rw [finish_object]
  simp [h, List.drop_one]

theorem bytes_true : bytesOfAscii "true" = [116, 114, 117, 101] := by decide

theorem bytes_false : bytesOfAscii "false" = [102, 97, 108, 115, 101] := by decide

theorem bytes_null : bytesOfAscii "null" = [110, 117, 108, 108] := by decide

theorem serHead_facts (c : Nat)
    (h : c = 123 ∨ c = 91 ∨ c = 34 ∨ c = 116 ∨ c = 102 ∨ c = 110 ∨ c = 45
      ∨ (48 ≤ c ∧ c ≤ 57)) :
    isspaceC c = false ∧ c ≠ 0 ∧ c ≠ 44 ∧ c ≠ 93 ∧ c ≠ 125 := by
  refine ⟨?_, by omega, by omega, by omega, by omega⟩
  simp only [isspaceC, Bool.or_eq_false_iff, Bool.and_eq_false_iff,
    decide_eq_false_iff_not]
  omega

/-! ### The compact serializer output parses back to the original tree -/

/-- Combined round-trip induction on fuel: a compact-serialized value, array
item list, or object entry list parses back to the original tree when the
nesting budget and fuel suffice. -/
theorem parse_ser_main {ν : Type} (fmt : ν → List Nat)
    (scan : List Nat → Option (ν × Nat)) (esc : Bool)
    (H1 : ∀ n rest, (peek rest = 0 ∨ peek rest = 44 ∨ peek rest = 93 ∨ peek rest = 125)
      → scan (fmt n ++ rest) = some (n, (fmt n).length))
    (H2 : ∀ n, is_decimal (fmt n) = true)
    (H3 : ∀ n, (fmt n).headD 0 = 45 ∨ (48 ≤ (fmt n).headD 0 ∧ (fmt n).headD 0 ≤ 57)) :
    ∀ fuel : Nat,
      (∀ T : JVal ν, wfV T = true →
        ∀ lvl n rest, n + jlvl T ≤ 2048 →
          2 * (serV fmt esc true false T lvl).out.length ≤ fuel →
          (peek rest = 0 ∨ peek rest = 44 ∨ peek rest = 93 ∨ peek rest = 125) →
          parse_value scan fuel ((serV fmt esc true false T lvl).out ++ rest) n
            = some (T, rest))
      ∧ (∀ xs : List (JVal ν), wfL xs = true → xs ≠ [] →
          ∀ lvl n rest acc, n + jlvlL xs ≤ 2049 →
            2 * (serArrItems fmt esc true false xs lvl).out.length + 1 ≤ fuel →
            (peek rest = 0 ∨ peek rest = 44 ∨ peek rest = 93 ∨ peek rest = 125) →
            parse_array_loop scan fuel
              ((serArrItems fmt esc true false xs lvl).out ++ 93 :: rest) n acc
              = some (.jarr (acc ++ xs), rest))
      ∧ (∀ es : List (List Nat × JVal ν), wfE es = true → es ≠ [] →
          ∀ lvl n rest acc, n + jlvlE es ≤ 2049 →
            2 * (serObjItems fmt esc true false es lvl).out.length + 1 ≤ fuel →
            (peek rest = 0 ∨ peek rest = 44 ∨ peek rest = 93 ∨ peek rest = 125) →
            nodupKeys (acc.map Prod.fst ++ es.map Prod.fst) = true →
            parse_object_loop scan fuel
              ((serObjItems fmt esc true false es lvl).out ++ 125 :: rest) n acc
              = some (.jobj (acc ++ es), rest)) := by
  intro fuel
  induction fuel using Nat.strong_induction_on with
  | _ fuel IH =>
    refine ⟨?_, ?_, ?_⟩
    · intro T hwf lvl n rest hlvl hfuel hrest
      have hn : ¬ n > MAX_NESTING := by
        rw [MAX_NESTING]
        omega
      cases T with
      | jnull =>
        have hout : (serV fmt esc true false (.jnull : JVal ν) lvl).out
            = [110, 117, 108, 108] := by
          rw [serV]
          simp [app, e0]
        rw [hout] at hfuel ⊢
        obtain ⟨f, rfl⟩ : ∃ f, fuel = f + 1 := ⟨fuel - 1, by simp at hfuel; omega⟩
        rw [parse_value_null scan f _ n hn
          (by rw [List.cons_append, skipWs_cons _ _ (by rfl), peek_cons])]
        rw [List.cons_append, skipWs_cons _ _ (by rfl)]
        rw [parse_null_value]
        rw [if_pos (by
          rw [bytes_null]
          exact List.isPrefixOf_iff_prefix.2 ⟨rest, rfl⟩)]
        rfl
      | jbool b =>
        have hb : b = 0 ∨ b = 1 := by
          simp only [wfV, Bool.or_eq_true, decide_eq_true_eq] at hwf
          exact hwf
        rcases hb with rfl | rfl
        · have hout : (serV fmt esc true false (.jbool 0 : JVal ν) lvl).out
              = [102, 97, 108, 115, 101] := by
            rw [serV]
            rw [if_neg (by simp [json_value_get_boolean])]
            simp [app, e0]
          rw [hout] at hfuel ⊢
          obtain ⟨f, rfl⟩ : ∃ f, fuel = f + 1 := ⟨fuel - 1, by simp at hfuel; omega⟩
          rw [parse_value_bool scan f _ n hn
            (Or.inl (by rw [List.cons_append, skipWs_cons _ _ (by rfl), peek_cons]))]
          rw [List.cons_append, skipWs_cons _ _ (by rfl)]
          rw [parse_boolean_value]
          rw [if_neg (by rw [bytes_true]; simp [List.isPrefixOf])]
          rw [if_pos (by
            rw [bytes_false]
            exact List.isPrefixOf_iff_prefix.2 ⟨rest, rfl⟩)]
          rfl
        · have hout : (serV fmt esc true false (.jbool 1 : JVal ν) lvl).out
              = [116, 114, 117, 101] := by
            rw [serV]
            rw [if_pos (by simp [json_value_get_boolean])]
            simp [app, e0]
          rw [hout] at hfuel ⊢
          obtain ⟨f, rfl⟩ : ∃ f, fuel = f + 1 := ⟨fuel - 1, by simp at hfuel; omega⟩
          rw [parse_value_bool scan f _ n hn
            (Or.inr (by rw [List.cons_append, skipWs_cons _ _ (by rfl), peek_cons]))]
          rw [List.cons_append, skipWs_cons _ _ (by rfl)]
          rw [parse_boolean_value]
          rw [if_pos (by
            rw [bytes_true]
            exact List.isPrefixOf_iff_prefix.2 ⟨rest, rfl⟩)]
          rfl
      | jnum m =>
        have hout : (serV fmt esc true false (.jnum m : JVal ν) lvl).out = fmt m := by
          rw [serV]
          simp [app, e0]
        rw [hout] at hfuel ⊢
        obtain ⟨c, r2, hf, hclass⟩ : ∃ c r2, fmt m = c :: r2
            ∧ (c = 45 ∨ (48 ≤ c ∧ c ≤ 57)) := by
          cases hf : fmt m with
          | nil =>
            have h3 := H3 m
            rw [hf] at h3
            simp at h3
          | cons c r2 =>
            have h3 := H3 m
            rw [hf] at h3
            simp at h3
            exact ⟨c, r2, rfl, h3⟩
        obtain ⟨f, rfl⟩ : ∃ f, fuel = f + 1 := ⟨fuel - 1, by rw [hf] at hfuel; simp at hfuel; omega⟩
        have hsp : isspaceC c = false := by
          simp only [isspaceC, Bool.or_eq_false_iff, Bool.and_eq_false_iff,
            decide_eq_false_iff_not]
          omega
        rw [parse_value_num scan f _ n hn
          (by rw [hf, List.cons_append, skipWs_cons _ _ hsp, peek_cons]; omega)]
        rw [hf, List.cons_append, skipWs_cons _ _ hsp, ← List.cons_append, ← hf]
        rw [parse_number_value, H1 m rest hrest]
        dsimp only
        rw [List.take_left, if_pos (H2 m), List.drop_left]
      | jstr s =>
        have hout : (serV fmt esc true false (.jstr s : JVal ν) lvl).out
            = 34 :: ((serStrBytes esc true s).out ++ [34]) := by
          rw [serV]
          simp [json_serialize_string_out]
        rw [hout] at hfuel ⊢
        obtain ⟨f, rfl⟩ : ∃ f, fuel = f + 1 := ⟨fuel - 1, by simp at hfuel; omega⟩
        rw [parse_value_str scan f _ n hn
          (by rw [List.cons_append, skipWs_cons _ _ (by rfl), peek_cons])]
        rw [List.cons_append, skipWs_cons _ _ (by rfl)]
        rw [parse_string_value]
        rw [show (serStrBytes esc true s).out ++ [34] ++ rest
          = (serStrBytes esc true s).out ++ 34 :: rest from by simp]
        rw [get_quoted_string_ser esc s rest]
      | jarr xs =>
        have hwf2 : wfL xs = true := by simpa [wfV] using hwf
        have hout := serV_out_arr fmt esc xs lvl
        have hlen : (serV fmt esc true false (.jarr xs) lvl).out.length
            = (serArrItems fmt esc true false xs lvl).out.length + 2 := by
          rw [hout]
          simp only [List.length_cons, List.length_append, List.length_singleton, List.length_nil]
        obtain ⟨f, rfl⟩ : ∃ f, fuel = f + 1 := ⟨fuel - 1, by rw [hlen] at hfuel; omega⟩
        have hs : (serV fmt esc true false (.jarr xs) lvl).out ++ rest
            = 91 :: ((serArrItems fmt esc true false xs lvl).out ++ 93 :: rest) := by
          rw [hout]
          simp
        rw [hs]
        rw [parse_value_arr scan f _ n hn (by rw [skipWs_cons _ _ (by rfl), peek_cons])]
        rw [skipWs_cons _ _ (by rfl)]
        obtain ⟨f2, rfl⟩ : ∃ f2, f = f2 + 1 := ⟨f - 1, by rw [hlen] at hfuel; omega⟩
        cases xs with
        | nil =>
          rw [serArrItems_out_nil, List.nil_append]
          rw [parse_array_value_empty scan f2 _ (n + 1) (by rfl)
            (by rw [List.tail_cons, skipWs_cons _ _ (by rfl), peek_cons])]
          rw [List.tail_cons, skipWs_cons _ _ (by rfl), List.tail_cons]
        | cons x xs2 =>
          obtain ⟨c, r2, hcx, hclass⟩ := serV_out_head fmt esc H3 x (lvl + 1)
          obtain ⟨hcsp, hc0, hc44, hc93, hc125⟩ := serHead_facts c hclass
          have hitems : (serArrItems fmt esc true false (x :: xs2) lvl).out
              = c :: (r2 ++ ((if xs2.length > 0 then [44] else [])
                ++ (serArrItems fmt esc true false xs2 lvl).out)) := by
            rw [serArrItems_out_cons, hcx]
            simp
          rw [parse_array_value_go scan f2 _ (n + 1) (by rfl)
            (by rw [List.tail_cons, hitems, List.cons_append, skipWs_cons _ _ hcsp,
              peek_cons]; exact hc93)]
          rw [List.tail_cons, hitems, List.cons_append, skipWs_cons _ _ hcsp,
            ← List.cons_append, ← hitems]
          exact (IH f2 (by omega)).2.1 (x :: xs2) hwf2 (by simp)
            lvl (n + 1) rest []
            (by simp only [jlvl] at hlvl; omega)
            (by rw [hlen] at hfuel; omega)
            hrest
      | jobj es =>
        have hw2 : (nodupKeys (es.map Prod.fst) && wfE es) = true := by
          simpa [wfV] using hwf
        rw [Bool.and_eq_true] at hw2
        have hout := serV_out_obj fmt esc es lvl
        have hlen : (serV fmt esc true false (.jobj es) lvl).out.length
            = (serObjItems fmt esc true false es lvl).out.length + 2 := by
          rw [hout]
          simp only [List.length_cons, List.length_append, List.length_singleton, List.length_nil]
        obtain ⟨f, rfl⟩ : ∃ f, fuel = f + 1 := ⟨fuel - 1, by rw [hlen] at hfuel; omega⟩
        have hs : (serV fmt esc true false (.jobj es) lvl).out ++ rest
            = 123 :: ((serObjItems fmt esc true false es lvl).out ++ 125 :: rest) := by
          rw [hout]
          simp
        rw [hs]
        rw [parse_value_obj scan f _ n hn (by rw [skipWs_cons _ _ (by rfl), peek_cons])]
        rw [skipWs_cons _ _ (by rfl)]
        obtain ⟨f2, rfl⟩ : ∃ f2, f = f2 + 1 := ⟨f - 1, by rw [hlen] at hfuel; omega⟩
        cases es with
        | nil =>
          rw [show (serObjItems fmt esc true false ([] : List (List Nat × JVal ν)) lvl).out
            = [] from rfl, List.nil_append]
          rw [parse_object_value_empty scan f2 _ (n + 1) (by rfl)
            (by rw [List.tail_cons, skipWs_cons _ _ (by rfl), peek_cons])]
          rw [List.tail_cons, skipWs_cons _ _ (by rfl), List.tail_cons]
        | cons q es2 =>
          obtain ⟨k, v⟩ := q
          have hitems := serObjItems_out_cons fmt esc k v es2 lvl
          rw [parse_object_value_go scan f2 _ (n + 1) (by rfl)
            (by rw [List.tail_cons, hitems, List.cons_append, skipWs_cons _ _ (by rfl),
              peek_cons]; omega)]
          rw [List.tail_cons, hitems, List.cons_append, skipWs_cons _ _ (by rfl),
            ← List.cons_append, ← hitems]
          exact (IH f2 (by omega)).2.2 ((k, v) :: es2) hw2.2 (by simp)
            lvl (n + 1) rest []
            (by simp only [jlvl] at hlvl; omega)
            (by rw [hlen] at hfuel; omega)
            hrest
            (by simpa using hw2.1)
    · intro xs hwf hne lvl n rest acc hlvl hfuel hrest
      cases xs with
      | nil => exact absurd rfl hne
      | cons x xs2 =>
        simp only [wfL, Bool.and_eq_true] at hwf
        obtain ⟨c, r2, hcx, hclass⟩ := serV_out_head fmt esc H3 x (lvl + 1)
        obtain ⟨hcsp, hc0, hc44, hc93, hc125⟩ := serHead_facts c hclass
        obtain ⟨f, rfl⟩ : ∃ f, fuel = f + 1 := ⟨fuel - 1, by omega⟩
        have hitems := serArrItems_out_cons fmt esc x xs2 lvl
        have hl : (serArrItems fmt esc true false (x :: xs2) lvl).out.length
            = (serV fmt esc true false x (lvl + 1)).out.length
              + ((if xs2.length > 0 then ([44] : List Nat) else []).length
                + (serArrItems fmt esc true false xs2 lvl).out.length) := by
          rw [hitems]
          simp only [List.length_append]
        have hxpos : 1 ≤ (serV fmt esc true false x (lvl + 1)).out.length := by
          rw [hcx]
          simp
        cases xs2 with
        | nil =>
          have hin : (serArrItems fmt esc true false [x] lvl).out ++ 93 :: rest
              = (serV fmt esc true false x (lvl + 1)).out ++ 93 :: rest := by
            rw [hitems]
            simp [serArrItems_out_nil]
          have hpv := (IH f (by omega)).1 x hwf.1 (lvl + 1) n (93 :: rest)
            (by simp only [jlvlL] at hlvl; omega)
            (by rw [hl] at hfuel; omega)
            (Or.inr (Or.inr (Or.inl rfl)))
          rw [hin]
          rw [parse_array_loop_last scan f _ (93 :: rest) n acc x
            (by rw [hcx, List.cons_append, peek_cons]; exact hc0)
            hpv
            (by rw [skipWs_cons 93 rest (by rfl), peek_cons]; omega)]
          rw [skipWs_cons 93 rest (by rfl)]
          rw [finish_array_ok (93 :: rest) (acc ++ [x])
            (by rw [skipWs_cons 93 rest (by rfl), peek_cons]) (by simp)]
          rw [skipWs_cons 93 rest (by rfl), List.tail_cons]
        | cons y ys =>
          have hin : (serArrItems fmt esc true false (x :: y :: ys) lvl).out ++ 93 :: rest
              = (serV fmt esc true false x (lvl + 1)).out
                ++ 44 :: ((serArrItems fmt esc true false (y :: ys) lvl).out
                  ++ 93 :: rest) := by
            rw [hitems]
            simp
          have hpv := (IH f (by omega)).1 x hwf.1 (lvl + 1) n
            (44 :: ((serArrItems fmt esc true false (y :: ys) lvl).out ++ 93 :: rest))
            (by simp only [jlvlL] at hlvl; omega)
            (by rw [hl] at hfuel; omega)
            (Or.inr (Or.inl rfl))
          obtain ⟨c2, r3, hcy, hclass2⟩ := serV_out_head fmt esc H3 y (lvl + 1)
          obtain ⟨hcsp2, hc02, hc442, hc932, hc1252⟩ := serHead_facts c2 hclass2
          have hitems2 : (serArrItems fmt esc true false (y :: ys) lvl).out
              = c2 :: (r3 ++ ((if ys.length > 0 then ([44] : List Nat) else [])
                ++ (serArrItems fmt esc true false ys lvl).out)) := by
            rw [serArrItems_out_cons, hcy]
            simp
          rw [hin]
          rw [parse_array_loop_comma scan f _
            (44 :: ((serArrItems fmt esc true false (y :: ys) lvl).out ++ 93 :: rest))
            n acc x
            (by rw [hcx, List.cons_append, peek_cons]; exact hc0)
            hpv
            (by rw [skipWs_cons 44 _ (by rfl), peek_cons])
            (by rw [skipWs_cons 44 _ (by rfl), List.tail_cons, hitems2, List.cons_append,
              skipWs_cons _ _ hcsp2, peek_cons]; exact hc932)]
          rw [skipWs_cons 44 _ (by rfl), List.tail_cons, hitems2, List.cons_append,
            skipWs_cons _ _ hcsp2, ← List.cons_append, ← hitems2]
          rw [(IH f (by omega)).2.1 (y :: ys) hwf.2 (by simp)
            lvl n rest (acc ++ [x])
            (by simp only [jlvlL] at hlvl ⊢; omega)
            (by rw [hl] at hfuel; omega)
            hrest]
          simp
    · intro es hwf hne lvl n rest acc hlvl hfuel hrest hnodup
      cases es with
      | nil => exact absurd rfl hne
      | cons q es2 =>
        obtain ⟨k, v⟩ := q
        simp only [wfE, Bool.and_eq_true] at hwf
        have hk0 : 0 ∉ k := by
          intro hmem
          have hall := hwf.1.1
          rw [List.all_eq_true] at hall
          have h0 := hall 0 hmem
          simp at h0
        obtain ⟨f, rfl⟩ : ∃ f, fuel = f + 1 := ⟨fuel - 1, by omega⟩
        have hitems := serObjItems_out_cons fmt esc k v es2 lvl
        rw [takeWhile_ne_zero_eq k hk0] at hitems
        have hl : (serObjItems fmt esc true false ((k, v) :: es2) lvl).out.length
            = (serStrBytes esc true k).out.length + 3
              + ((serV fmt esc true false v (lvl + 1)).out.length
                + ((if es2.length > 0 then ([44] : List Nat) else []).length
                  + (serObjItems fmt esc true false es2 lvl).out.length)) := by
          rw [hitems]
          simp only [List.length_cons, List.length_append, List.length_singleton, List.length_nil]
          ring
        have hnodup2 : nodupKeys (acc.map Prod.fst ++ k :: es2.map Prod.fst) = true := by
          simpa using hnodup
        have hdup : (acc.map Prod.fst).contains k = false :=
          nodupKeys_not_contains _ _ k hnodup2
        cases es2 with
        | nil =>
          have hin : (serObjItems fmt esc true false [(k, v)] lvl).out ++ 125 :: rest
              = 34 :: ((serStrBytes esc true k).out
                ++ 34 :: (58 :: ((serV fmt esc true false v (lvl + 1)).out
                  ++ 125 :: rest))) := by
            rw [hitems]
            simp [serObjItems_out_nil]
          have hpv : parse_value scan f
              ((skipWs (58 :: ((serV fmt esc true false v (lvl + 1)).out
                ++ 125 :: rest))).tail) n = some (v, 125 :: rest) := by
            rw [skipWs_cons 58 _ (by rfl), List.tail_cons]
            exact (IH f (by omega)).1 v hwf.1.2 (lvl + 1) n (125 :: rest)
              (by simp only [jlvlE] at hlvl; omega)
              (by rw [hl] at hfuel; omega)
              (Or.inr (Or.inr (Or.inr rfl)))
          rw [hin]
          rw [parse_object_loop_last scan f _
            (58 :: ((serV fmt esc true false v (lvl + 1)).out ++ 125 :: rest))
            (125 :: rest) n acc k v
            (by rw [peek_cons]; omega)
            (get_quoted_string_ser esc k _)
            (strlenC_eq k hk0)
            (by rw [skipWs_cons 58 _ (by rfl), peek_cons])
            hpv
            hdup
            (by rw [skipWs_cons 125 rest (by rfl), peek_cons]; omega)]
          rw [skipWs_cons 125 rest (by rfl)]
          rw [finish_object_ok (125 :: rest) (acc ++ [(k, v)])
            (by rw [skipWs_cons 125 rest (by rfl), peek_cons])]
          rw [skipWs_cons 125 rest (by rfl), List.tail_cons]
        | cons w es3 =>
          obtain ⟨k2, v2⟩ := w
          have hin : (serObjItems fmt esc true false ((k, v) :: (k2, v2) :: es3) lvl).out
                ++ 125 :: rest
              = 34 :: ((serStrBytes esc true k).out
                ++ 34 :: (58 :: ((serV fmt esc true false v (lvl + 1)).out
                  ++ 44 :: ((serObjItems fmt esc true false ((k2, v2) :: es3) lvl).out
                    ++ 125 :: rest)))) := by
            rw [hitems]
            simp
          have hpv : parse_value scan f
              ((skipWs (58 :: ((serV fmt esc true false v (lvl + 1)).out
                ++ 44 :: ((serObjItems fmt esc true false ((k2, v2) :: es3) lvl).out
                  ++ 125 :: rest)))).tail) n
              = some (v, 44 :: ((serObjItems fmt esc true false ((k2, v2) :: es3) lvl).out
                ++ 125 :: rest)) := by
            rw [skipWs_cons 58 _ (by rfl), List.tail_cons]
            exact (IH f (by omega)).1 v hwf.1.2 (lvl + 1) n
              (44 :: ((serObjItems fmt esc true false ((k2, v2) :: es3) lvl).out
                ++ 125 :: rest))
              (by simp only [jlvlE] at hlvl; omega)
              (by rw [hl] at hfuel; omega)
              (Or.inr (Or.inl rfl))
          have hitems2 := serObjItems_out_cons fmt esc k2 v2 es3 lvl
          rw [hin]
          rw [parse_object_loop_comma scan f _
            (58 :: ((serV fmt esc true false v (lvl + 1)).out
              ++ 44 :: ((serObjItems fmt esc true false ((k2, v2) :: es3) lvl).out
                ++ 125 :: rest)))
            (44 :: ((serObjItems fmt esc true false ((k2, v2) :: es3) lvl).out
              ++ 125 :: rest))
            n acc k v
            (by rw [peek_cons]; omega)
            (get_quoted_string_ser esc k _)
            (strlenC_eq k hk0)
            (by rw [skipWs_cons 58 _ (by rfl), peek_cons])
            hpv
            hdup
            (by rw [skipWs_cons 44 _ (by rfl), peek_cons])
            (by rw [skipWs_cons 44 _ (by rfl), List.tail_cons, hitems2, List.cons_append,
              skipWs_cons 34 _ (by rfl), peek_cons]; omega)]
          rw [skipWs_cons 44 _ (by rfl), List.tail_cons, hitems2, List.cons_append,
            skipWs_cons 34 _ (by rfl), ← List.cons_append, ← hitems2]
          rw [(IH f (by omega)).2.2 ((k2, v2) :: es3) hwf.2 (by simp)
            lvl n rest (acc ++ [(k, v)])
            (by simp only [jlvlE] at hlvl ⊢; omega)
            (by rw [hl] at hfuel; omega)
            hrest
            (by simpa using hnodup2)]
          simp

/-- A compact-serialized well-formed tree whose deepest nesting level fits the
budget parses back to the original tree, given enough fuel and a follower byte
that terminates number scanning. -/
theorem parse_ser_v {ν : Type} (fmt : ν → List Nat)
    (scan : List Nat → Option (ν × Nat)) (esc : Bool)
    (H1 : ∀ n rest, (peek rest = 0 ∨ peek rest = 44 ∨ peek rest = 93 ∨ peek rest = 125)
      → scan (fmt n ++ rest) = some (n, (fmt n).length))
    (H2 : ∀ n, is_decimal (fmt n) = true)
    (H3 : ∀ n, (fmt n).headD 0 = 45 ∨ (48 ≤ (fmt n).headD 0 ∧ (fmt n).headD 0 ≤ 57))
    (T : JVal ν) (hwf : wfV T = true) (lvl fuel n : Nat) (rest : List Nat)
    (hlvl : n + jlvl T ≤ 2048)
    (hfuel : 2 * (serV fmt esc true false T lvl).out.length ≤ fuel)
    (hrest : peek rest = 0 ∨ peek rest = 44 ∨ peek rest = 93 ∨ peek rest = 125) :
    parse_value scan fuel ((serV fmt esc true false T lvl).out ++ rest) n
      = some (T, rest) :=
  (parse_ser_main fmt scan esc H1 H2 H3 fuel).1 T hwf lvl n rest hlvl hfuel hrest

/-! ### Claim C1 -/

theorem serV_nestedArray {ν : Type} (fmt : ν → List Nat) (esc : Bool) :
    ∀ k, 1 ≤ k → ∀ lvl,
      (serV fmt esc true false (nestedArray k : JVal ν) lvl).out = nestedBrackets k := by
  intro k
  induction k with
  | zero => intro h; omega
  | succ m ih =>
    intro _ lvl
    cases m with
    | zero =>
      rw [show (nestedArray 1 : JVal ν) = .jarr [] from rfl, serV_out_arr,
        serArrItems_out_nil]
      rfl
    | succ m2 =>
      rw [show (nestedArray (m2 + 2) : JVal ν) = .jarr [nestedArray (m2 + 1)] from rfl,
        serV_out_arr, serArrItems_out_cons, serArrItems_out_nil]
      rw [ih (by omega) (lvl + 1)]
      have h2 := nestedBrackets_succ (m2 + 1) ([] : List Nat)
      rw [List.append_nil] at h2
      rw [h2]
      simp

theorem jeq_none_some {ν : Type} (numEq : ν → ν → Bool) (fuel : Nat) (v : JVal ν) :
    jeqF numEq fuel none (some v) = false := by
  cases fuel with
  | zero => rfl
  | succ f => cases v <;> simp [jeqF, json_value_get_type]

/-- C1, counterexample: the round trip fails on trees that exceed the parser
nesting ceiling even though the serializer handles them: the 2050-level
nested array serializes to 2050 nested brackets, which `json_parse_string`
rejects, so the parse result (NULL) is not equal to the original tree. -/
theorem c1_counterexample_deep_tree :
    json_value_equals (fun _ _ => true)
      (json_parse_string unitScan
        (json_serialize_to_string (fun _ => ([48] : List Nat)) false
          (nestedArray 2050 : JVal Unit)))
      (some (nestedArray 2050)) = false := by
  rw [json_serialize_to_string]
  rw [serV_nestedArray _ _ 2050 (by omega) 0]
  rw [json_parse_string_nested unitScan 2050 (by omega)]
  rw [if_neg (by omega)]
  rw [json_value_equals]
  exact jeq_none_some _ _ _

/-- C1 (amended): for every well-formed tree `T` built from the valid
constructors whose deepest nesting level stays within the parser ceiling
(`jlvl T ≤ MAX_NESTING = 2048`), serializing `T` to a compact string and
parsing that string back yields a value structurally equal to `T` under
`json_value_equals`.  The number formatter, the number scanner and the
number comparison are the C library ports, assumed mutually consistent
(`H1`-`H4`).  Trees deeper than the ceiling serialize fine but fail to
parse back, so the unrestricted claim is false. -/
theorem c1_roundtrip_within_nesting {ν : Type} (fmt : ν → List Nat)
    (scan : List Nat → Option (ν × Nat)) (esc : Bool) (numEq : ν → ν → Bool)
    (H1 : ∀ n rest, (peek rest = 0 ∨ peek rest = 44 ∨ peek rest = 93 ∨ peek rest = 125)
      → scan (fmt n ++ rest) = some (n, (fmt n).length))
    (H2 : ∀ n, is_decimal (fmt n) = true)
    (H3 : ∀ n, (fmt n).headD 0 = 45 ∨ (48 ≤ (fmt n).headD 0 ∧ (fmt n).headD 0 ≤ 57))
    (H4 : ∀ n, numEq n n = true)
    (T : JVal ν) (hwf : wfV T = true) (hlvl : jlvl T ≤ 2048) :
    json_value_equals numEq
      (json_parse_string scan (json_serialize_to_string fmt esc T)) (some T) = true := by
  obtain ⟨c, r2, hcx, hclass⟩ := serV_out_head fmt esc H3 T 0
  have hbom : ¬((serV fmt esc true false T 0).out.getD 0 0 = 0xEF
      ∧ (serV fmt esc true false T 0).out.getD 1 0 = 0xBB
      ∧ (serV fmt esc true false T 0).out.getD 2 0 = 0xBF) := by
    intro hcon
    have hc := hcon.1
    rw [hcx, List.getD_cons_zero] at hc
    rcases hclass with h | h | h | h | h | h | h | h <;> omega
  have hpv := parse_ser_v fmt scan esc H1 H2 H3 T hwf 0
    (parseFuel (serV fmt esc true false T 0).out) 0 []
    (by omega)
    (by rw [parseFuel]; omega)
    (Or.inl rfl)
  rw [List.append_nil] at hpv
  rw [json_serialize_to_string, json_parse_string, if_neg hbom, hpv]
  rw [json_value_equals]
  exact jeq_refl_v numEq H4 T hwf (jfuel (some T)) (by simp [jfuel])

/-- C1 witness: a concrete mixed tree (array of null, true, a string and a
number) round-trips under the degenerate number port on `ν := Unit`. -/
theorem c1_witness :
    json_value_equals (fun _ _ => true)
      (json_parse_string unitScan
        (json_serialize_to_string (fun _ => ([48] : List Nat)) false
          (.jarr [.jnull, .jbool 1, .jstr [97], .jnum ()] : JVal Unit)))
      (some (.jarr [.jnull, .jbool 1, .jstr [97], .jnum ()])) = true :=
  c1_roundtrip_within_nesting (fun _ => [48]) unitScan false (fun _ _ => true)
    (fun _ rest _ => rfl) (fun _ => rfl)
    (fun _ => Or.inr (show (48 : Nat) ≤ ([48] : List Nat).headD 0
      ∧ ([48] : List Nat).headD 0 ≤ 57 from by decide))
    (fun _ => rfl)
    (.jarr [.jnull, .jbool 1, .jstr [97], .jnum ()])
    (by simp [wfV, wfL])
    (by simp [jlvl, jlvlL])


end Parson
